import Mathlib

/-!
# miniSTL: `Vector` and `List` over an explicit allocator store

Shallow embedding of `lab/miniSTL/include/miniSTL/vector.hpp` and
`lab/miniSTL/include/miniSTL/list.hpp`.

* Raw storage handed out by `std::allocator` is an explicit store that is threaded
  through every operation.  An operation returns `none` when the C++ code would have
  undefined behaviour (out-of-bounds slot, read of an uninitialised slot, use of a
  released block, pointer difference across blocks, a loop running past its bound).
* `size_t` is `Nat`: the allocator never fails and no length reaches `2^64`, so an
  increment never wraps; a decrement of `0` does wrap (`size_decr`), or is undefined
  behaviour where the wrapped value is used as a slot index right away.
* A `std::move` / `std::move_if_noexcept` from a slot into another slot gives the target
  the value; the moved-from slot stays a live object until `std::destroy_at` is called on
  it, and every operation overwrites or destroys it before it returns, so its state is
  never observed.  The one move whose outcome depends on the element type is the
  move-assignment of an object to itself (`MoveAssign.self_move`).  `operator==` on `T` is
  decidable equality.
* A `T const&` / `T&&` parameter is a `Ref`: it is read where the source reads it, in the
  store as it is at that point.
* The pointer-chasing `while` loops of `List` take a bound `fuel` on the number of
  iterations and return `none` when it is exhausted; the theorems show that a bound of
  `size()` is enough on a well-formed list.
-/

namespace MiniSTL

/-! ## Counted loops -/

/-- Body of `forUp`: run `body i`, `body (i+1)`, ... for `k` iterations. -/
def forUp.go {σ : Type} (body : Nat → σ → Option σ) : Nat → Nat → σ → Option σ
  | 0, _, s => some s
  | k + 1, i, s => (body i s).bind (forUp.go body k (i + 1))

/-- The loop `for (size_t i = lo; i != hi; i++) body(i)`.  When `lo > hi` the C++ loop never
meets its exit test and walks off the storage, which is undefined behaviour. -/
def forUp {σ : Type} (lo hi : Nat) (body : Nat → σ → Option σ) (s : σ) : Option σ :=
  if lo ≤ hi then forUp.go body (hi - lo) lo s else none

/-- Body of `forDown`: run `body i`, `body (i-1)`, ... for `k` iterations. -/
def forDown.go {σ : Type} (body : Nat → σ → Option σ) : Nat → Nat → σ → Option σ
  | 0, _, s => some s
  | k + 1, i, s => (body i s).bind (forDown.go body k (i - 1))

/-- The loop `for (size_t i = hi; i != lo; i--) body(i)`.  When `hi < lo` the index wraps
around below zero, which is undefined behaviour on the storage. -/
def forDown {σ : Type} (hi lo : Nat) (body : Nat → σ → Option σ) (s : σ) : Option σ :=
  if lo ≤ hi then forDown.go body (hi - lo) hi s else none

/-! ## Raw storage for `Vector` -/

/-- The store of `std::allocator<T>`: entry `a` is the block at address `a`; `none` is a
released block, and a slot of a block is `none` while it holds no constructed object. -/
abbrev Mem (T : Type) := List (Option (List (Option T)))

/-- Source `m_alloc.allocate(n)`: a fresh block of `n` raw slots (a distinct non-null address also
for `n = 0`, as `operator new` gives). -/
def Mem.allocate {T : Type} (m : Mem T) (n : Nat) : Nat × Mem T :=
  (m.length, m ++ [some (List.replicate n none)])

/-- The block a `T*` base pointer refers to, if it is a live allocation. -/
def Mem.block {T : Type} (m : Mem T) (p : Option Nat) : Option (List (Option T)) :=
  match p with
  | none => none
  | some a => m.getD a none

/-- Source `m_alloc.deallocate(p, n)`: `p` must be a live block of exactly `n` slots. -/
def Mem.deallocate {T : Type} (m : Mem T) (p : Option Nat) (n : Nat) : Option (Mem T) :=
  match p with
  | none => none
  | some a =>
    match m.getD a none with
    | none => none
    | some b => if b.length = n then some (m.set a none) else none

/-- Reading `p[i]`: the slot must exist and hold a constructed object. -/
def Mem.read {T : Type} (m : Mem T) (p : Option Nat) (i : Nat) : Option T :=
  match m.block p with
  | none => none
  | some b => b.getD i none

/-- Overwrite slot `i` of block `p` (shared by the three slot primitives below). -/
def Mem.store {T : Type} (m : Mem T) (p : Option Nat) (i : Nat) (s : Option T) :
    Option (Mem T) :=
  match p with
  | none => none
  | some a =>
    match m.getD a none with
    | none => none
    | some b => if i < b.length then some (m.set a (some (b.set i s))) else none

/-- Source `std::__construct_at(&p[i], x)`: the slot must lie inside a live block. -/
def Mem.construct_at {T : Type} (m : Mem T) (p : Option Nat) (i : Nat) (x : T) :
    Option (Mem T) :=
  m.store p i (some x)

/-- Source `std::destroy_at(&p[i])`: the slot must hold a constructed object. -/
def Mem.destroy_at {T : Type} (m : Mem T) (p : Option Nat) (i : Nat) : Option (Mem T) :=
  match m.read p i with
  | none => none
  | some _ => m.store p i none

/-- The assignment `p[i] = x`: the slot must hold a constructed object. -/
def Mem.assign_at {T : Type} (m : Mem T) (p : Option Nat) (i : Nat) (x : T) :
    Option (Mem T) :=
  match m.read p i with
  | none => none
  | some _ => m.store p i (some x)

/-- What a parameter of type `T const&` or `T&&` is bound to: `temp x` is an object that holds
`x` and lives outside the allocator store (a temporary, a local variable); `slot p i` is the
element `p[i]` of a block of the store, as in `v.push_back(v[0])`. -/
inductive Ref (T : Type) where
  | temp (x : T)
  | slot (p : Option Nat) (i : Nat)
  deriving DecidableEq, Repr

/-- Reading through a reference: the object it is bound to must be alive, so a `slot` must
lie in a live block and hold a constructed object. -/
def Mem.deref {T : Type} (m : Mem T) : Ref T → Option T
  | .temp x => some x
  | .slot p i => m.read p i

/-- The element type's move-assignment of an object to itself, `x = std::move(x)`:
`self_move x` is the value the object has afterwards. -/
class MoveAssign (T : Type) where
  self_move : T → T

/-- Scalar element types such as `int`: self-move-assignment changes nothing. -/
instance : MoveAssign Nat := ⟨fun x => x⟩

/-- The element type `std::string`: `operator=(basic_string&&)` ends with `__str.clear()`, so
a string that is move-assigned to itself is empty afterwards. -/
instance : MoveAssign String := ⟨fun _ => ""⟩

/-- Source `p[i] = std::move(p[j])`: both slots must hold a constructed object; the target
receives the value of the source, or, when target and source are the same object, what the
self-move-assignment leaves. -/
def Mem.move_assign {T : Type} [MoveAssign T] (m : Mem T) (p : Option Nat) (i j : Nat) :
    Option (Mem T) :=
  (m.read p j).bind fun x =>
    m.assign_at p i (if i = j then MoveAssign.self_move x else x)

/-! ## `Vector` -/

/-- The data members of `struct Vector`: `m_data` is `none` for `NULL`, otherwise the address
of the block; `m_alloc` is the store itself. -/
structure Vector where
  m_data : Option Nat
  m_size : Nat
  m_cap : Nat
  deriving DecidableEq, Repr

/-- A `T*` / `T const*` into a block: base address and element offset. -/
structure Pointer where
  base : Option Nat
  off : Nat
  deriving DecidableEq, Repr

/-- Pointer arithmetic `p + k`. -/
def Pointer.add (p : Pointer) (k : Nat) : Pointer := { base := p.base, off := p.off + k }

/-- Pointer difference `it - m_data`, defined only inside one block. -/
def Pointer.diff (it : Pointer) (data : Option Nat) : Option Nat :=
  if it.base = data then some it.off else none

/-- The exception thrown by `at`. -/
inductive Exception where
  | out_of_range
  deriving DecidableEq, Repr

namespace Vector

variable {T : Type}

/-- Source `Vector()`. -/
def ctor : Vector := { m_data := none, m_size := 0, m_cap := 0 }

/-- Source `Vector(size_t n, Alloc const&)`: `n` value-initialised elements. -/
def ctor_n [Inhabited T] (n : Nat) (m : Mem T) : Option (Vector × Mem T) :=
  let a := m.allocate n
  (forUp 0 n (fun i mm => mm.construct_at (some a.1) i (default : T)) a.2).bind fun m1 =>
  some ({ m_data := some a.1, m_size := n, m_cap := n }, m1)

/-- Source `Vector(size_t n, T const& val, Alloc const&)`. -/
def ctor_n_val (n : Nat) (val : T) (m : Mem T) : Option (Vector × Mem T) :=
  let a := m.allocate n
  (forUp 0 n (fun i mm => mm.construct_at (some a.1) i val) a.2).bind fun m1 =>
  some ({ m_data := some a.1, m_size := n, m_cap := n }, m1)

/-- Source `Vector(InputIt first, InputIt last, Alloc const&)`, the range being the sequence
`ys`; `Vector(std::initializer_list<T>)` delegates to it. -/
def ctor_range (ys : List T) (m : Mem T) : Option (Vector × Mem T) :=
  let n := ys.length
  let a := m.allocate n
  (forUp 0 n (fun i mm => (ys.get? i).bind fun x => mm.construct_at (some a.1) i x) a.2).bind
    fun m1 => some ({ m_data := some a.1, m_size := n, m_cap := n }, m1)

/-- Source `clear()`. -/
def clear (v : Vector) (m : Mem T) : Option (Vector × Mem T) :=
  (forUp 0 v.m_size (fun i mm => mm.destroy_at v.m_data i) m).bind fun m1 =>
  some ({ v with m_size := 0 }, m1)

/-- Source `reserve(size_t n)`. -/
def reserve (v : Vector) (n : Nat) (m : Mem T) : Option (Vector × Mem T) :=
  if n ≤ v.m_cap then some (v, m)
  else
    let old_data := v.m_data
    let old_cap := v.m_cap
    let s1 : Vector × Mem T :=
      if n = 0 then ({ v with m_data := none, m_cap := 0 }, m)
      else ({ v with m_data := some (m.allocate n).1, m_cap := n }, (m.allocate n).2)
    let v1 := s1.1
    if old_cap ≠ 0 then
      (forUp 0 v1.m_size
        (fun i mm => (mm.read old_data i).bind fun x => mm.construct_at v1.m_data i x)
        s1.2).bind fun m2 =>
      (forUp 0 v1.m_size (fun i mm => mm.destroy_at old_data i) m2).bind fun m3 =>
      (m3.deallocate old_data old_cap).bind fun m4 =>
      some (v1, m4)
    else some s1

/-- Source `resize(size_t n)`. -/
def resize [Inhabited T] (v : Vector) (n : Nat) (m : Mem T) : Option (Vector × Mem T) :=
  if n < v.m_size then
    (forUp n v.m_size (fun i mm => mm.destroy_at v.m_data i) m).bind fun m1 =>
    some ({ v with m_size := n }, m1)
  else if n > v.m_size then
    (v.reserve n m).bind fun s =>
    (forUp s.1.m_size n (fun i mm => mm.construct_at s.1.m_data i (default : T)) s.2).bind
      fun m2 => some ({ s.1 with m_size := n }, m2)
  else some ({ v with m_size := n }, m)

/-- Source `resize(size_t n, T const& val)`: `val` is read at each
`std::__construct_at(&m_data[i], val)`, after `reserve(n)`. -/
def resize_val (v : Vector) (n : Nat) (val : Ref T) (m : Mem T) : Option (Vector × Mem T) :=
  if n < v.m_size then
    (forUp n v.m_size (fun i mm => mm.destroy_at v.m_data i) m).bind fun m1 =>
    some ({ v with m_size := n }, m1)
  else if n > v.m_size then
    (v.reserve n m).bind fun s =>
    (forUp s.1.m_size n
      (fun i mm => (mm.deref val).bind fun x => mm.construct_at s.1.m_data i x) s.2).bind
      fun m2 => some ({ s.1 with m_size := n }, m2)
  else some ({ v with m_size := n }, m)

/-- Source `shrink_to_fit()`. -/
def shrink_to_fit (v : Vector) (m : Mem T) : Option (Vector × Mem T) :=
  let old_data := v.m_data
  let old_cap := v.m_cap
  let s1 : Vector × Mem T :=
    if v.m_size = 0 then ({ v with m_cap := v.m_size, m_data := none }, m)
    else ({ v with m_cap := v.m_size, m_data := some (m.allocate v.m_size).1 },
          (m.allocate v.m_size).2)
  let v1 := s1.1
  if old_cap ≠ 0 then
    (forUp 0 v1.m_size
      (fun i mm => (mm.read old_data i).bind fun x =>
        (mm.construct_at v1.m_data i x).bind fun mm1 => mm1.destroy_at old_data i)
      s1.2).bind fun m2 =>
    (m2.deallocate old_data old_cap).bind fun m3 =>
    some (v1, m3)
  else some s1

/-- Source `capacity()`. -/
def capacity (v : Vector) : Nat := v.m_cap

/-- Source `size()`. -/
def size (v : Vector) : Nat := v.m_size

/-- Source `empty()`. -/
def empty (v : Vector) : Bool := v.m_size == 0

/-- Source `operator[](size_t i)`: unchecked read of `m_data[i]`. -/
def index (v : Vector) (i : Nat) (m : Mem T) : Option T := m.read v.m_data i

/-- Source `at(size_t i)`: throws `std::out_of_range` when `i >= m_size`, else yields
`m_data[i]`. -/
def at_ (v : Vector) (i : Nat) (m : Mem T) : Except Exception (Option T) :=
  if i ≥ v.m_size then .error Exception.out_of_range
  else .ok (m.read v.m_data i)

/-- Source `Vector(Vector&& that)` and `Vector(Vector&& that, Alloc const&)`: the new object
and the state `that` is left in. -/
def ctor_move (that : Vector) : Vector × Vector :=
  ({ m_data := that.m_data, m_size := that.m_size, m_cap := that.m_cap },
   { m_data := none, m_size := 0, m_cap := 0 })

/-- Source `swap(Vector& that)`: the new `*this` and the new `that`. -/
def swap (v that : Vector) : Vector × Vector :=
  ({ m_data := that.m_data, m_size := that.m_size, m_cap := that.m_cap },
   { m_data := v.m_data, m_size := v.m_size, m_cap := v.m_cap })

/-- Source `Vector(Vector const& that)` and `Vector(Vector const& that, Alloc const&)`. -/
def ctor_copy (that : Vector) (m : Mem T) : Option (Vector × Mem T) :=
  if that.m_size ≠ 0 then
    let a := m.allocate that.m_size
    (forUp 0 that.m_size
      (fun i mm => (mm.read that.m_data i).bind fun x => mm.construct_at (some a.1) i x)
      a.2).bind fun m1 =>
    some ({ m_data := some a.1, m_size := that.m_size, m_cap := that.m_size }, m1)
  else some ({ m_data := none, m_size := that.m_size, m_cap := that.m_size }, m)

/-- Source `operator=(Vector const& that)`; `same_object` is the outcome of `&that == this`. -/
def assign_copy (v that : Vector) (same_object : Bool) (m : Mem T) :
    Option (Vector × Mem T) :=
  if same_object then some (v, m)
  else
    (v.reserve that.m_size m).bind fun s =>
    let v1 : Vector := { s.1 with m_size := that.m_size }
    (forUp 0 v1.m_size
      (fun i mm => (mm.read that.m_data i).bind fun x => mm.construct_at v1.m_data i x)
      s.2).bind fun m1 =>
    some (v1, m1)

/-- Source `front()`. -/
def front (v : Vector) (m : Mem T) : Option T := m.read v.m_data 0

/-- Source `back()`. -/
def back (v : Vector) (m : Mem T) : Option T := m.read v.m_data (v.m_size - 1)

/-- Source `push_back(T const& val)`, and `push_back(T&& val)` called with a temporary: `val`
is read at `std::__construct_at(&m_data[m_size], val)`, after `reserve`. -/
def push_back (v : Vector) (val : Ref T) (m : Mem T) : Option (Vector × Mem T) :=
  (if v.m_size + 1 ≥ v.m_cap then v.reserve (v.m_size + 1) m else some (v, m)).bind fun s =>
  (s.2.deref val).bind fun x =>
  (s.2.construct_at s.1.m_data s.1.m_size x).bind fun m1 =>
  some ({ s.1 with m_size := s.1.m_size + 1 }, m1)

/-- Source `begin()` / `cbegin()`. -/
def begin_ (v : Vector) : Pointer := { base := v.m_data, off := 0 }

/-- Source `end()` / `cend()`. -/
def end_ (v : Vector) : Pointer := { base := v.m_data, off := v.m_size }

/-- Source `pop_back()`; `m_size--` on an empty vector wraps around, so the destroyed slot is
outside every block. -/
def pop_back (v : Vector) (m : Mem T) : Option (Vector × Mem T) :=
  if v.m_size = 0 then none
  else
    let v1 : Vector := { v with m_size := v.m_size - 1 }
    (m.destroy_at v1.m_data v1.m_size).bind fun m1 => some (v1, m1)

/-- Source `erase(T const* it)`; `m_size--` on an empty vector wraps around, so the destroyed
slot is outside every block. -/
def erase (v : Vector) (it : Pointer) (m : Mem T) : Option ((Vector × Mem T) × Pointer) :=
  (it.diff v.m_data).bind fun i =>
  (forUp (i + 1) v.m_size
    (fun j mm => (mm.read v.m_data j).bind fun x => mm.assign_at v.m_data (j - 1) x)
    m).bind fun m1 =>
  if v.m_size = 0 then none
  else
    let v1 : Vector := { v with m_size := v.m_size - 1 }
    (m1.destroy_at v1.m_data v1.m_size).bind fun m2 => some ((v1, m2), it)

/-- Source `erase(T const* first, T const* last)`; `last - first` is a difference inside one
block with `first <= last`, and `m_size -= diff` must not wrap around, since the destroy loop
would then run outside every block.  There is no test for `first == last`: the first loop
then move-assigns every element from `last` on to itself. -/
def erase_range [MoveAssign T] (v : Vector) (first last : Pointer) (m : Mem T) :
    Option ((Vector × Mem T) × Pointer) :=
  (if first.base = last.base ∧ first.off ≤ last.off then some (last.off - first.off)
   else none).bind fun diff =>
  (last.diff v.m_data).bind fun j0 =>
  (forUp j0 v.m_size (fun j mm => mm.move_assign v.m_data (j - diff) j) m).bind fun m1 =>
  if v.m_size < diff then none
  else
    let v1 : Vector := { v with m_size := v.m_size - diff }
    (forUp v1.m_size (v1.m_size + diff) (fun j mm => mm.destroy_at v1.m_data j) m1).bind
      fun m2 => some ((v1, m2), first)

/-- Source `assign(size_t n, T const& val)`: `val` is read at each
`std::__construct_at(&m_data[i], val)`, after `clear()` and `reserve(n)`. -/
def assign (v : Vector) (n : Nat) (val : Ref T) (m : Mem T) : Option (Vector × Mem T) :=
  (v.clear m).bind fun s0 =>
  (s0.1.reserve n s0.2).bind fun s1 =>
  let v2 : Vector := { s1.1 with m_size := n }
  (forUp 0 n (fun i mm => (mm.deref val).bind fun x => mm.construct_at v2.m_data i x)
    s1.2).bind fun m2 =>
  some (v2, m2)

/-- Source `insert(T const* it, T const& val)`, and `insert(T const* it, T&& val)` called
with a temporary: `val` is read at `std::__construct_at(&m_data[j], val)`, after `reserve`
and the loop that moves the elements up. -/
def insert (v : Vector) (it : Pointer) (val : Ref T) (m : Mem T) :
    Option ((Vector × Mem T) × Pointer) :=
  (it.diff v.m_data).bind fun j =>
  (v.reserve (v.m_size + 1) m).bind fun s =>
  let v1 := s.1
  (forDown v1.m_size j
    (fun i mm => (mm.read v1.m_data (i - 1)).bind fun x =>
      (mm.construct_at v1.m_data i x).bind fun mm1 => mm1.destroy_at v1.m_data (i - 1))
    s.2).bind fun m1 =>
  let v2 : Vector := { v1 with m_size := v1.m_size + 1 }
  (m1.deref val).bind fun x =>
  (m1.construct_at v2.m_data j x).bind fun m2 =>
  some ((v2, m2), { base := v2.m_data, off := j })

/-- Source `insert(T const* it, InputIt first, InputIt last)`, the range being the sequence
`ys`; `insert(T const* it, std::initializer_list<T>)` delegates to it. -/
def insert_range (v : Vector) (it : Pointer) (ys : List T) (m : Mem T) :
    Option ((Vector × Mem T) × Pointer) :=
  (it.diff v.m_data).bind fun j =>
  let n := ys.length
  if n = 0 then some ((v, m), it)
  else
    (v.reserve (v.m_size + n) m).bind fun s =>
    let v1 := s.1
    (forDown v1.m_size j
      (fun i mm => (mm.read v1.m_data (i - 1)).bind fun x =>
        (mm.construct_at v1.m_data (i + n - 1) x).bind fun mm1 =>
          mm1.destroy_at v1.m_data (i - 1))
      s.2).bind fun m1 =>
    let v2 : Vector := { v1 with m_size := v1.m_size + n }
    (forUp j (j + n)
      (fun i mm => (ys.get? (i - j)).bind fun x => mm.construct_at v2.m_data i x) m1).bind
      fun m2 => some ((v2, m2), { base := v2.m_data, off := j })

/-- The elements read at indices `0 .. size()-1` with `operator[]`. -/
def toList (v : Vector) (m : Mem T) : List (Option T) :=
  (List.range v.m_size).map fun i => v.index i m

/-- The reference `val` is bound to an object that holds `x` and is not in the buffer of
`v`: a temporary, or a constructed slot of a live block other than `m_data`. -/
def Outside (v : Vector) (val : Ref T) (m : Mem T) (x : T) : Prop :=
  match val with
  | .temp y => y = x
  | .slot p i => p ≠ v.m_data ∧ m.read p i = some x

instance [DecidableEq T] (v : Vector) (val : Ref T) (m : Mem T) (x : T) :
    Decidable (v.Outside val m x) :=
  match val with
  | .temp y => inferInstanceAs (Decidable (y = x))
  | .slot p i => inferInstanceAs (Decidable (p ≠ v.m_data ∧ m.read p i = some x))

/-- Representation invariant of a live `Vector` holding the sequence `xs`:
`size() <= capacity()`, a null `m_data` goes with capacity `0`, a non-null `m_data` is a live
block of exactly `capacity()` slots, and the slots `0 .. size()-1` hold `xs`. -/
def Holds (v : Vector) (m : Mem T) (xs : List T) : Prop :=
  v.m_size ≤ v.m_cap ∧
  (v.m_data = none → v.m_cap = 0) ∧
  (v.m_data ≠ none → (m.block v.m_data).map List.length = some v.m_cap) ∧
  v.toList m = xs.map some

instance [DecidableEq T] (v : Vector) (m : Mem T) (xs : List T) : Decidable (v.Holds m xs) :=
  inferInstanceAs (Decidable (_ ∧ _ ∧ _ ∧ _))

/-- Outcome of a constructor or mutating call that returned and left a vector with
`size() <= capacity()` which moreover satisfies the representation invariant. -/
def KeepsInvariant (r : Option (Vector × Mem T)) : Prop :=
  ∃ v' m', r = some (v', m') ∧ v'.size ≤ v'.capacity ∧ ∃ xs', v'.Holds m' xs'

/-- Calling `push_back` with each element of `ys` in turn, each passed as a temporary. -/
def push_back_all : List T → Vector × Mem T → Option (Vector × Mem T)
  | [], s => some s
  | y :: rest, s => (s.1.push_back (.temp y) s.2).bind fun s1 => push_back_all rest s1

/-- The number of calls, among the `push_back` calls appending `ys` in turn, after which
`capacity()` differs from its value before the call. -/
def count_growths : List T → Vector × Mem T → Option Nat
  | [], _ => some 0
  | y :: rest, s =>
    (s.1.push_back (.temp y) s.2).bind fun s1 =>
    (count_growths rest s1).map fun k => if s1.1.m_cap ≠ s.1.m_cap then k + 1 else k

/-- Source `operator[](size_t i)` as the target of an assignment, `v[i] = x`: the slot must
hold a constructed object. -/
def index_assign (v : Vector) (i : Nat) (x : T) (m : Mem T) : Option (Mem T) :=
  m.assign_at v.m_data i x

/-- Source `~Vector()`. -/
def dtor (v : Vector) (m : Mem T) : Option (Mem T) :=
  (forUp 0 v.m_size (fun i mm => mm.destroy_at v.m_data i) m).bind fun m1 =>
  if v.m_cap ≠ 0 then m1.deallocate v.m_data v.m_cap else some m1

end Vector

/-! ## Node storage for `List` -/

/-- A `ListBaseNode<T>` together with the `m_value` of the `ListValueNode<T>` it may be the
base of.  A link is `none` while it is indeterminate; `m_value` is `none` while no object has
been constructed in it (always so for the sentinel `m_dummy`). -/
structure ListBaseNode (T : Type) where
  m_next : Option Nat
  m_prev : Option Nat
  m_value : Option T
  deriving DecidableEq, Repr

/-- The nodes in memory by address: `none` is storage that has been released. -/
abbrev NodeMem (T : Type) := List (Option (ListBaseNode T))

namespace NodeMem

variable {T : Type}

/-- Source `newNode()`: raw storage for one node, links and value indeterminate.  The storage
of the `m_dummy` member of a new `List` object is obtained the same way. -/
def newNode (m : NodeMem T) : Nat × NodeMem T :=
  (m.length, m ++ [some { m_next := none, m_prev := none, m_value := none }])

/-- The node at address `p`, if that storage is live. -/
def node (m : NodeMem T) (p : Nat) : Option (ListBaseNode T) := m.getD p none

/-- Source `deleteNode(node)`. -/
def deleteNode (m : NodeMem T) (p : Nat) : Option (NodeMem T) :=
  match m.node p with
  | none => none
  | some _ => some (m.set p none)

/-- Reading `p->m_next`. -/
def next (m : NodeMem T) (p : Nat) : Option Nat := (m.node p).bind fun n => n.m_next

/-- Reading `p->m_prev`. -/
def prev (m : NodeMem T) (p : Nat) : Option Nat := (m.node p).bind fun n => n.m_prev

/-- Reading `p->value()`. -/
def value (m : NodeMem T) (p : Nat) : Option T := (m.node p).bind fun n => n.m_value

/-- The assignment `p->m_next = q`. -/
def set_next (m : NodeMem T) (p q : Nat) : Option (NodeMem T) :=
  (m.node p).map fun n => m.set p (some { n with m_next := some q })

/-- The assignment `p->m_prev = q`. -/
def set_prev (m : NodeMem T) (p q : Nat) : Option (NodeMem T) :=
  (m.node p).map fun n => m.set p (some { n with m_prev := some q })

/-- Source `std::__construct_at(&p->value(), x)`. -/
def construct_value (m : NodeMem T) (p : Nat) (x : T) : Option (NodeMem T) :=
  (m.node p).map fun n => m.set p (some { n with m_value := some x })

/-- Source `std::destroy_at(&p->value())`: the value must have been constructed. -/
def destroy_value (m : NodeMem T) (p : Nat) : Option (NodeMem T) :=
  (m.node p).bind fun n =>
    match n.m_value with
    | none => none
    | some _ => some (m.set p (some { n with m_value := none }))

end NodeMem

/-! ## `List` -/

/-- The data members of `struct List` (the specification's NodeList): `m_dummy` is the address
of the embedded sentinel node, whose links live in the node store. -/
structure NodeList where
  m_dummy : Nat
  m_size : Nat
  deriving DecidableEq, Repr

/-- Source `--m_size` on a `size_t`: `0` wraps around to `2^64 - 1`. -/
def size_decr (n : Nat) : Nat := if n = 0 then 2 ^ 64 - 1 else n - 1

namespace NodeList

variable {T : Type}

/-- Source `List::iterator` and `List::const_iterator`: a pointer to a node. -/
structure iterator where
  m_curr : Nat
  deriving DecidableEq, Repr

/-- Source `operator++()`: the iterator after the step. -/
def iterator.incr (it : iterator) (m : NodeMem T) : Option iterator :=
  (m.next it.m_curr).map fun p => { m_curr := p }

/-- Source `operator++(int)`: the returned copy and the iterator after the step. -/
def iterator.post_incr (it : iterator) (m : NodeMem T) : Option (iterator × iterator) :=
  let tmp := it
  (it.incr m).map fun it1 => (tmp, it1)

/-- Source `operator--()`: the iterator after the step. -/
def iterator.decr (it : iterator) (m : NodeMem T) : Option iterator :=
  (m.prev it.m_curr).map fun p => { m_curr := p }

/-- Source `operator--(int)`: the returned copy and the iterator after the step; the body is
`auto tmp = *this; ++*this; return tmp;`. -/
def iterator.post_decr (it : iterator) (m : NodeMem T) : Option (iterator × iterator) :=
  let tmp := it
  (it.incr m).map fun it1 => (tmp, it1)

/-- Source `operator*()`. -/
def iterator.deref (it : iterator) (m : NodeMem T) : Option T := m.value it.m_curr

/-- Source `List()` and `List(Alloc const&)`, after the storage of the object has been obtained. -/
def ctor (m : NodeMem T) : Option (NodeList × NodeMem T) :=
  let a := m.newNode
  (a.2.set_next a.1 a.1).bind fun m1 =>
  (m1.set_prev a.1 a.1).bind fun m2 =>
  some ({ m_dummy := a.1, m_size := 0 }, m2)

/-- Source `emplace_back(args...)`, `push_back(T const&)` and `push_back(T&&)`. -/
def emplace_back (l : NodeList) (val : T) (m : NodeMem T) : Option (NodeList × NodeMem T) :=
  let a := m.newNode
  let node := a.1
  (a.2.prev l.m_dummy).bind fun prev =>
  (a.2.set_next prev node).bind fun m1 =>
  (m1.set_prev node prev).bind fun m2 =>
  (m2.set_next node l.m_dummy).bind fun m3 =>
  (m3.construct_value node val).bind fun m4 =>
  (m4.set_prev l.m_dummy node).bind fun m5 =>
  some ({ l with m_size := l.m_size + 1 }, m5)

/-- Source `emplace_front(args...)`, `push_front(T const&)` and `push_front(T&&)`. -/
def emplace_front (l : NodeList) (val : T) (m : NodeMem T) : Option (NodeList × NodeMem T) :=
  let a := m.newNode
  let node := a.1
  (a.2.next l.m_dummy).bind fun next =>
  (a.2.set_prev next node).bind fun m1 =>
  (m1.set_next node next).bind fun m2 =>
  (m2.set_prev node l.m_dummy).bind fun m3 =>
  (m3.construct_value node val).bind fun m4 =>
  (m4.set_next l.m_dummy node).bind fun m5 =>
  some ({ l with m_size := l.m_size + 1 }, m5)

/-- Source `push_back(val)`. -/
def push_back (l : NodeList) (val : T) (m : NodeMem T) : Option (NodeList × NodeMem T) :=
  l.emplace_back val m

/-- Source `push_front(val)`. -/
def push_front (l : NodeList) (val : T) (m : NodeMem T) : Option (NodeList × NodeMem T) :=
  l.emplace_front val m

/-- Source `size()`. -/
def size (l : NodeList) : Nat := l.m_size

/-- Source `empty()`: `m_dummy.m_prev == m_dummy.m_next`. -/
def empty (l : NodeList) (m : NodeMem T) : Option Bool :=
  (m.prev l.m_dummy).bind fun p => (m.next l.m_dummy).bind fun n => some (p == n)

/-- Source `begin()` / `cbegin()`. -/
def begin_ (l : NodeList) (m : NodeMem T) : Option iterator :=
  (m.next l.m_dummy).map fun p => { m_curr := p }

/-- Source `end()` / `cend()`. -/
def end_ (l : NodeList) : iterator := { m_curr := l.m_dummy }

/-- Source `front()`. -/
def front (l : NodeList) (m : NodeMem T) : Option T :=
  (m.next l.m_dummy).bind fun p => m.value p

/-- Source `back()`. -/
def back (l : NodeList) (m : NodeMem T) : Option T :=
  (m.prev l.m_dummy).bind fun p => m.value p

/-- Source `erase(const_iterator pos)`. -/
def erase (l : NodeList) (pos : iterator) (m : NodeMem T) :
    Option ((NodeList × NodeMem T) × iterator) :=
  let node := pos.m_curr
  (m.next node).bind fun next =>
  (m.prev node).bind fun prev =>
  (m.set_next prev next).bind fun m1 =>
  (m1.set_prev next prev).bind fun m2 =>
  (m2.destroy_value node).bind fun m3 =>
  (m3.deleteNode node).bind fun m4 =>
  some (({ l with m_size := size_decr l.m_size }, m4), { m_curr := next })

/-- Source `erase(const_iterator first, const_iterator last)`; `fuel` bounds the number of
iterations of the `while` loop. -/
def erase_range (l : NodeList) (first last : iterator) (m : NodeMem T) (fuel : Nat) :
    Option ((NodeList × NodeMem T) × iterator) :=
  if first = last then some ((l, m), first)
  else
    match fuel with
    | 0 => none
    | k + 1 => (l.erase first m).bind fun r => erase_range r.1.1 r.2 last r.1.2 k

/-- Source `pop_front()`. -/
def pop_front (l : NodeList) (m : NodeMem T) : Option (NodeList × NodeMem T) :=
  (l.begin_ m).bind fun it => (l.erase it m).map fun r => r.1

/-- Source `pop_back()`: `std::prev(end())` steps a copy of `end()` back with `operator--()`. -/
def pop_back (l : NodeList) (m : NodeMem T) : Option (NodeList × NodeMem T) :=
  (l.end_.decr m).bind fun it => (l.erase it m).map fun r => r.1

/-- The `while (curr != &m_dummy)` loop of `clear()`; `fuel` bounds its iterations. -/
def clear.loop (dummy : Nat) (curr : Nat) (m : NodeMem T) (fuel : Nat) : Option (NodeMem T) :=
  if curr = dummy then some m
  else
    match fuel with
    | 0 => none
    | k + 1 =>
      (m.destroy_value curr).bind fun m1 =>
      (m1.next curr).bind fun next =>
      (m1.deleteNode curr).bind fun m2 =>
      clear.loop dummy next m2 k

/-- Source `clear()`. -/
def clear (l : NodeList) (m : NodeMem T) (fuel : Nat) : Option (NodeList × NodeMem T) :=
  (m.next l.m_dummy).bind fun curr =>
  (clear.loop l.m_dummy curr m fuel).bind fun m1 =>
  (m1.set_next l.m_dummy l.m_dummy).bind fun m2 =>
  (m2.set_prev l.m_dummy l.m_dummy).bind fun m3 =>
  some ({ l with m_size := 0 }, m3)

/-- The `while (first != last)` loop of `remove`; `fuel` bounds its iterations. -/
def remove.loop [DecidableEq T] (val : T) (last : iterator) (first : iterator) (count : Nat)
    (l : NodeList) (m : NodeMem T) (fuel : Nat) : Option (Nat × NodeList × NodeMem T) :=
  if first = last then some (count, l, m)
  else
    match fuel with
    | 0 => none
    | k + 1 =>
      (first.deref m).bind fun x =>
      if x = val then
        (l.erase first m).bind fun r => remove.loop val last r.2 (count + 1) r.1.1 r.1.2 k
      else
        (first.post_incr m).bind fun r => remove.loop val last r.2 count l m k

/-- Source `remove(T const& val)`: `auto first = begin(); auto last = begin();` and the loop. -/
def remove [DecidableEq T] (l : NodeList) (val : T) (m : NodeMem T) (fuel : Nat) :
    Option (Nat × NodeList × NodeMem T) :=
  (l.begin_ m).bind fun first =>
  (l.begin_ m).bind fun last =>
  remove.loop val last first 0 l m fuel

/-- Source `emplace(const_iterator pos, args...)`, `insert(pos, T const&)` and `insert(pos, T&&)`. -/
def emplace (l : NodeList) (pos : iterator) (val : T) (m : NodeMem T) :
    Option ((NodeList × NodeMem T) × iterator) :=
  let a := m.newNode
  let curr := a.1
  let next := pos.m_curr
  (a.2.prev next).bind fun prev =>
  (a.2.set_prev curr prev).bind fun m1 =>
  (m1.set_next prev curr).bind fun m2 =>
  (m2.set_next curr next).bind fun m3 =>
  (m3.set_prev next curr).bind fun m4 =>
  (m4.construct_value curr val).bind fun m5 =>
  some (({ l with m_size := l.m_size + 1 }, m5), { m_curr := curr })

/-- Source `insert(const_iterator pos, const T& val)`. -/
def insert (l : NodeList) (pos : iterator) (val : T) (m : NodeMem T) :
    Option ((NodeList × NodeMem T) × iterator) :=
  l.emplace pos val m

/-- The `while (it1 != end1 && it2 != end2)` loop of `operator==`; `fuel` bounds its
iterations. -/
def eq.loop [DecidableEq T] (end1 end2 : iterator) (m : NodeMem T) (it1 it2 : iterator)
    (fuel : Nat) : Option Bool :=
  if it1 ≠ end1 ∧ it2 ≠ end2 then
    match fuel with
    | 0 => none
    | k + 1 =>
      (it1.deref m).bind fun x =>
      (it2.deref m).bind fun y =>
      if ¬ (x = y) then some false
      else
        (it1.post_incr m).bind fun r1 =>
        (it2.post_incr m).bind fun r2 =>
        eq.loop end1 end2 m r1.2 r2.2 k
  else some true

/-- Source `operator==(List const& that)`. -/
def eq [DecidableEq T] (l that : NodeList) (m : NodeMem T) (fuel : Nat) : Option Bool :=
  if l.m_size ≠ that.m_size then some false
  else
    (m.next l.m_dummy).bind fun p1 =>
    (m.next that.m_dummy).bind fun p2 =>
    eq.loop { m_curr := l.m_dummy } { m_curr := that.m_dummy } m
      { m_curr := p1 } { m_curr := p2 } fuel

/-- Consecutive nodes `a`, `b` of the ring: `a.m_next == b` and `b.m_prev == a`. -/
abbrev Link (m : NodeMem T) (a b : Nat) : Prop := m.next a = some b ∧ m.prev b = some a

/-- Every two consecutive addresses of the sequence are linked both ways. -/
def Linked (m : NodeMem T) : List Nat → Prop
  | [] => True
  | [_] => True
  | a :: b :: rest => Link m a b ∧ Linked m (b :: rest)

instance Linked.instDecidable (m : NodeMem T) : (l : List Nat) → Decidable (Linked m l)
  | [] => isTrue trivial
  | [_] => isTrue trivial
  | a :: b :: rest =>
    have := Linked.instDecidable m (b :: rest)
    inferInstanceAs (Decidable (Link m a b ∧ Linked m (b :: rest)))

/-- Well-formed list whose value nodes are, front to back, at the addresses `ns` and hold the
values `xs`: the sentinel and the value nodes are pairwise distinct, the ring
`m_dummy, ns..., m_dummy` is linked both ways, and `m_size` is the number of value nodes. -/
def Holds (l : NodeList) (m : NodeMem T) (ns : List Nat) (xs : List T) : Prop :=
  (l.m_dummy :: ns).Nodup ∧
  Linked m (l.m_dummy :: ns ++ [l.m_dummy]) ∧
  ns.map (fun p => m.value p) = xs.map some ∧
  l.m_size = ns.length

instance [DecidableEq T] (l : NodeList) (m : NodeMem T) (ns : List Nat) (xs : List T) :
    Decidable (l.Holds m ns xs) :=
  inferInstanceAs (Decidable (_ ∧ _ ∧ _ ∧ _))

/-- Walking `begin()` to `end()` with `++`, collecting `*it`; `fuel` bounds the steps. -/
def toList.loop (m : NodeMem T) (last : iterator) (it : iterator) (fuel : Nat) :
    Option (List T) :=
  if it = last then some []
  else
    match fuel with
    | 0 => none
    | k + 1 =>
      (it.deref m).bind fun x =>
      (it.incr m).bind fun it1 =>
      (toList.loop m last it1 k).map fun rest => x :: rest

/-- The front-to-back contents seen by iteration from `begin()` to `end()`. -/
def toList (l : NodeList) (m : NodeMem T) (fuel : Nat) : Option (List T) :=
  (l.begin_ m).bind fun it => toList.loop m l.end_ it fuel

/-- Calling `push_back` with each element of `ys` in turn. -/
def push_back_all : List T → NodeList × NodeMem T → Option (NodeList × NodeMem T)
  | [], s => some s
  | y :: rest, s => (s.1.push_back y s.2).bind fun s1 => push_back_all rest s1

/-- A list built by `List()` followed by `push_back` of each element of `ys`. -/
def of_list (ys : List T) (m : NodeMem T) : Option (NodeList × NodeMem T) :=
  (ctor m).bind fun s => push_back_all ys s

/-- The `while (first != last)` loop of `_uninit_assign(InputIt first, InputIt last)`, the range
being the sequence that is left to read: it yields the node `prev` points to, `m_size` and the
store when the loop exits. -/
def _uninit_assign_range.loop (prev : Nat) (m_size : Nat) (m : NodeMem T) :
    List T → Option (Nat × Nat × NodeMem T)
  | [] => some (prev, m_size, m)
  | y :: rest =>
    let a := m.newNode
    let node := a.1
    (a.2.set_next prev node).bind fun m1 =>
    (m1.set_prev node prev).bind fun m2 =>
    (m2.construct_value node y).bind fun m3 =>
    _uninit_assign_range.loop node (m_size + 1) m3 rest

/-- Source `_uninit_assign(InputIt first, InputIt last)` on the object whose `m_dummy` is at
`dummy`, the range being the sequence `ys`. -/
def _uninit_assign_range (dummy : Nat) (ys : List T) (m : NodeMem T) :
    Option (NodeList × NodeMem T) :=
  (_uninit_assign_range.loop dummy 0 m ys).bind fun r =>
  (r.2.2.set_prev dummy r.1).bind fun m1 =>
  (m1.set_next r.1 dummy).bind fun m2 =>
  some ({ m_dummy := dummy, m_size := r.2.1 }, m2)

/-- The `while (n)` loop of `_uninit_assign(size_t n, T const& val)` and, with the
value-initialised `val`, of `_uninit_assign(size_t n)`: it yields the node `prev` points to,
the value of `n` and the store when the loop exits. -/
def _uninit_assign_n.loop (val : T) : Nat → Nat → NodeMem T → Option (Nat × Nat × NodeMem T)
  | 0, prev, m => some (prev, 0, m)
  | n + 1, prev, m =>
    let a := m.newNode
    let node := a.1
    (a.2.set_next prev node).bind fun m1 =>
    (m1.set_prev node prev).bind fun m2 =>
    (m2.construct_value node val).bind fun m3 =>
    _uninit_assign_n.loop val n node m3

/-- Source `_uninit_assign(size_t n, T const& val)` on the object whose `m_dummy` is at
`dummy`; the last statement is `m_size = n;`, with `n` as the loop left it. -/
def _uninit_assign_n_val (dummy : Nat) (n : Nat) (val : T) (m : NodeMem T) :
    Option (NodeList × NodeMem T) :=
  (_uninit_assign_n.loop val n dummy m).bind fun r =>
  (r.2.2.set_prev dummy r.1).bind fun m1 =>
  (m1.set_next r.1 dummy).bind fun m2 =>
  some ({ m_dummy := dummy, m_size := r.2.1 }, m2)

/-- Source `_uninit_assign(size_t n)`: as above, each value being value-initialised. -/
def _uninit_assign_n [Inhabited T] (dummy : Nat) (n : Nat) (m : NodeMem T) :
    Option (NodeList × NodeMem T) :=
  _uninit_assign_n_val dummy n (default : T) m

/-- Source `List(size_t n, T const& val, Alloc const&)`, the storage of the object being
obtained first. -/
def ctor_n_val (n : Nat) (val : T) (m : NodeMem T) : Option (NodeList × NodeMem T) :=
  _uninit_assign_n_val m.newNode.1 n val m.newNode.2

/-- Source `List(size_t n, Alloc const&)`, the storage of the object being obtained first. -/
def ctor_n [Inhabited T] (n : Nat) (m : NodeMem T) : Option (NodeList × NodeMem T) :=
  _uninit_assign_n (T := T) m.newNode.1 n m.newNode.2

/-- Source `List(InputIt first, InputIt last, Alloc const&)`, the range being the sequence `ys`
and the storage of the object being obtained first; `List(std::initializer_list<T>)` delegates
to it. -/
def ctor_range (ys : List T) (m : NodeMem T) : Option (NodeList × NodeMem T) :=
  _uninit_assign_range m.newNode.1 ys m.newNode.2

/-- Source `_uninit_move_assign(List&& that)` on the object whose `m_dummy` is at `dummy`: the
new `*this`, the state `that` is left in, and the store.  The assignment
`m_dummy = that.m_dummy` copies `m_next`, then `m_prev`. -/
def _uninit_move_assign (dummy : Nat) (that : NodeList) (m : NodeMem T) :
    Option ((NodeList × NodeList) × NodeMem T) :=
  (m.prev that.m_dummy).bind fun prev =>
  (m.next that.m_dummy).bind fun next =>
  (m.set_next prev dummy).bind fun m1 =>
  (m1.set_prev next dummy).bind fun m2 =>
  (m2.next that.m_dummy).bind fun dn =>
  (m2.set_next dummy dn).bind fun m3 =>
  (m3.prev that.m_dummy).bind fun dp =>
  (m3.set_prev dummy dp).bind fun m4 =>
  (m4.set_next that.m_dummy that.m_dummy).bind fun m5 =>
  (m5.set_prev that.m_dummy that.m_dummy).bind fun m6 =>
  some (({ m_dummy := dummy, m_size := that.m_size }, { that with m_size := 0 }), m6)

/-- Source `List(List&& that)` and `List(List&& that, Alloc const&)`, the storage of the new
object being obtained first. -/
def ctor_move (that : NodeList) (m : NodeMem T) :
    Option ((NodeList × NodeList) × NodeMem T) :=
  _uninit_move_assign m.newNode.1 that m.newNode.2

/-- The node reached from `p` by following `m_next` `k` times. -/
def nth_next (m : NodeMem T) : Nat → Nat → Option Nat
  | 0, p => some p
  | k + 1, p => (m.next p).bind (nth_next m k)

/-- The node reached from `p` by following `m_prev` `k` times. -/
def nth_prev (m : NodeMem T) : Nat → Nat → Option Nat
  | 0, p => some p
  | k + 1, p => (m.prev p).bind (nth_prev m k)

/-- The ring invariant in the words of the specification: `size() + 1` steps along `m_next`
from the sentinel return to the sentinel, and so do `size() + 1` steps along `m_prev`; the
node `n` reached after `k ≤ size()` steps along `m_next` satisfies `n.next.prev == n` and
`n.prev.next == n`, and for `0 < k` it is a value node (not the sentinel, holding a value);
the walk along `m_prev` does not meet the sentinel either after `0 < k ≤ size()` steps. -/
def RingInvariant (l : NodeList) (m : NodeMem T) : Prop :=
  nth_next m (l.m_size + 1) l.m_dummy = some l.m_dummy ∧
  nth_prev m (l.m_size + 1) l.m_dummy = some l.m_dummy ∧
  ∀ k ∈ List.range (l.m_size + 1),
    (∃ n ∈ nth_next m k l.m_dummy,
      ((m.next n).bind fun a => m.prev a) = some n ∧
      ((m.prev n).bind fun b => m.next b) = some n ∧
      (0 < k → n ≠ l.m_dummy ∧ (m.value n).isSome = true)) ∧
    (0 < k → nth_prev m k l.m_dummy ≠ some l.m_dummy)

instance (l : NodeList) (m : NodeMem T) : Decidable (l.RingInvariant m) :=
  inferInstanceAs (Decidable (_ ∧ _ ∧ _))

end NodeList

end MiniSTL
namespace MiniSTL

/-! ## Loop rules -/

theorem forUp_go_spec {σ : Type} (body : Nat → σ → Option σ) (P : Nat → σ → Prop) :
    ∀ (k i : Nat) (s : σ), P i s →
      (∀ j t, i ≤ j → j < i + k → P j t → ∃ t', body j t = some t' ∧ P (j + 1) t') →
      ∃ s', forUp.go body k i s = some s' ∧ P (i + k) s' := by
  intro k
  induction k with
  | zero => intro i s h _; exact ⟨s, rfl, by simpa using h⟩
  | succ k ih =>
    intro i s h step
    obtain ⟨t, ht, hP⟩ := step i s (Nat.le_refl i) (by omega) h
    obtain ⟨s', hs', hP'⟩ := ih (i + 1) t hP
      (fun j u h1 h2 hu => step j u (by omega) (by omega) hu)
    refine ⟨s', ?_, ?_⟩
    · simp [forUp.go, ht, hs']
    · have : i + (k + 1) = i + 1 + k := by omega
      rw [this]; exact hP'

theorem forUp_spec {σ : Type} (body : Nat → σ → Option σ) (P : Nat → σ → Prop)
    (lo hi : Nat) (s : σ) (h : lo ≤ hi) (h0 : P lo s)
    (step : ∀ j t, lo ≤ j → j < hi → P j t → ∃ t', body j t = some t' ∧ P (j + 1) t') :
    ∃ s', forUp lo hi body s = some s' ∧ P hi s' := by
  obtain ⟨s', hs', hP⟩ := forUp_go_spec body P (hi - lo) lo s h0
    (fun j t h1 h2 ht => step j t h1 (by omega) ht)
  refine ⟨s', ?_, ?_⟩
  · simp [forUp, h, hs']
  · have : lo + (hi - lo) = hi := by omega
    rw [this] at hP; exact hP

theorem forDown_go_spec {σ : Type} (body : Nat → σ → Option σ) (P : Nat → σ → Prop) :
    ∀ (k i : Nat) (s : σ), k ≤ i → P i s →
      (∀ j t, i - k < j → j ≤ i → P j t → ∃ t', body j t = some t' ∧ P (j - 1) t') →
      ∃ s', forDown.go body k i s = some s' ∧ P (i - k) s' := by
  intro k
  induction k with
  | zero => intro i s _ h _; exact ⟨s, rfl, by simpa using h⟩
  | succ k ih =>
    intro i s hk h step
    obtain ⟨t, ht, hP⟩ := step i s (by omega) (Nat.le_refl i) h
    obtain ⟨s', hs', hP'⟩ := ih (i - 1) t (by omega) hP
      (fun j u h1 h2 hu => step j u (by omega) (by omega) hu)
    refine ⟨s', ?_, ?_⟩
    · simp [forDown.go, ht, hs']
    · have : i - (k + 1) = i - 1 - k := by omega
      rw [this]; exact hP'

theorem forDown_spec {σ : Type} (body : Nat → σ → Option σ) (P : Nat → σ → Prop)
    (hi lo : Nat) (s : σ) (h : lo ≤ hi) (h0 : P hi s)
    (step : ∀ j t, lo < j → j ≤ hi → P j t → ∃ t', body j t = some t' ∧ P (j - 1) t') :
    ∃ s', forDown hi lo body s = some s' ∧ P lo s' := by
  obtain ⟨s', hs', hP⟩ := forDown_go_spec body P (hi - lo) hi s (by omega) h0
    (fun j t h1 h2 ht => step j t (by omega) h2 ht)
  refine ⟨s', ?_, ?_⟩
  · simp [forDown, h, hs']
  · have : hi - (hi - lo) = lo := by omega
    rw [this] at hP; exact hP

/-! ## Store primitives -/

theorem getD_set_of_live {α : Type} (m : List (Option α)) (a c : Nat) (b : α) (x : Option α)
    (h : m.getD a none = some b) :
    (m.set a x).getD c none = if c = a then x else m.getD c none := by
  have ha : a < m.length := by
    by_contra hc
    simp [List.getD_eq_getElem?_getD, List.getElem?_eq_none (Nat.le_of_not_lt hc)] at h
  simp only [List.getD_eq_getElem?_getD, List.getElem?_set]
  by_cases hca : c = a
  · subst hca; simp [ha]
  · have : ¬ a = c := fun h => hca h.symm
    simp [hca, this]

theorem getD_append_one {α : Type} (m : List (Option α)) (c : Nat) (x : Option α) :
    (m ++ [x]).getD c none = if c = m.length then x else m.getD c none := by
  simp only [List.getD_eq_getElem?_getD]
  rcases Nat.lt_trichotomy c m.length with h | h | h
  · simp [List.getElem?_append_left h, Nat.ne_of_lt h]
  · subst h; simp
  · have h1 : m.length ≤ c := Nat.le_of_lt h
    rw [List.getElem?_append_right h1]
    have h2 : c - m.length ≠ 0 := by omega
    have h3 : ¬ c = m.length := by omega
    have h4 : m[c]? = none := List.getElem?_eq_none h1
    obtain ⟨d, hd⟩ : ∃ d, c - m.length = d + 1 := ⟨c - m.length - 1, by omega⟩
    simp [h3, h4, hd]

end MiniSTL
namespace MiniSTL

namespace Mem

variable {T : Type}

theorem block_none (m : Mem T) : m.block none = none := rfl

theorem block_lt (m : Mem T) (a : Nat) (b : List (Option T)) (h : m.block (some a) = some b) :
    a < m.length := by
  by_contra hc
  simp [Mem.block, List.getD_eq_getElem?_getD, List.getElem?_eq_none (Nat.le_of_not_lt hc)] at h

theorem read_of_block (m : Mem T) (p : Option Nat) (b : List (Option T)) (i : Nat)
    (h : m.block p = some b) : m.read p i = b.getD i none := by
  simp [Mem.read, h]

theorem store_spec (m : Mem T) (p : Option Nat) (b : List (Option T)) (i : Nat) (s : Option T)
    (h : m.block p = some b) (hi : i < b.length) :
    ∃ m', m.store p i s = some m' ∧ m'.block p = some (b.set i s) ∧
      ∀ q, q ≠ p → m'.block q = m.block q := by
  cases p with
  | none => simp [Mem.block] at h
  | some a =>
    have h' : m.getD a none = some b := h
    refine ⟨m.set a (some (b.set i s)), ?_, ?_, ?_⟩
    · show (match m.getD a none with
        | none => none
        | some b => if i < b.length then some (m.set a (some (b.set i s))) else none) = _
      rw [h']; simp only [hi, if_true]
    · show (m.set a (some (b.set i s))).getD a none = _
      rw [getD_set_of_live m a a b _ h']; simp only [if_true]
    · intro q hq
      cases q with
      | none => rfl
      | some c =>
        have hc : c ≠ a := fun e => hq (by rw [e])
        show (m.set a (some (b.set i s))).getD c none = m.getD c none
        rw [getD_set_of_live m a c b _ h']; simp only [hc, if_false]

theorem construct_at_spec (m : Mem T) (p : Option Nat) (b : List (Option T)) (i : Nat) (x : T)
    (h : m.block p = some b) (hi : i < b.length) :
    ∃ m', m.construct_at p i x = some m' ∧ m'.block p = some (b.set i (some x)) ∧
      ∀ q, q ≠ p → m'.block q = m.block q :=
  store_spec m p b i (some x) h hi

theorem destroy_at_spec (m : Mem T) (p : Option Nat) (b : List (Option T)) (i : Nat) (x : T)
    (h : m.block p = some b) (hx : b[i]? = some (some x)) :
    ∃ m', m.destroy_at p i = some m' ∧ m'.block p = some (b.set i none) ∧
      ∀ q, q ≠ p → m'.block q = m.block q := by
  have hi : i < b.length := by
    by_contra hc
    simp [List.getElem?_eq_none (Nat.le_of_not_lt hc)] at hx
  have hr : m.read p i = some x := by
    simp [read_of_block m p b i h, List.getD_eq_getElem?_getD, hx]
  obtain ⟨m', h1, h2⟩ := store_spec m p b i none h hi
  exact ⟨m', by simp [Mem.destroy_at, hr, h1], h2⟩

theorem assign_at_spec (m : Mem T) (p : Option Nat) (b : List (Option T)) (i : Nat) (x y : T)
    (h : m.block p = some b) (hx : b[i]? = some (some x)) :
    ∃ m', m.assign_at p i y = some m' ∧ m'.block p = some (b.set i (some y)) ∧
      ∀ q, q ≠ p → m'.block q = m.block q := by
  have hi : i < b.length := by
    by_contra hc
    simp [List.getElem?_eq_none (Nat.le_of_not_lt hc)] at hx
  have hr : m.read p i = some x := by
    simp [read_of_block m p b i h, List.getD_eq_getElem?_getD, hx]
  obtain ⟨m', h1, h2⟩ := store_spec m p b i (some y) h hi
  exact ⟨m', by simp [Mem.assign_at, hr, h1], h2⟩

theorem read_of_slot (m : Mem T) (p : Option Nat) (b : List (Option T)) (i : Nat) (x : T)
    (h : m.block p = some b) (hx : b[i]? = some (some x)) : m.read p i = some x := by
  simp [read_of_block m p b i h, List.getD_eq_getElem?_getD, hx]

theorem allocate_spec (m : Mem T) (n : Nat) :
    (m.allocate n).1 = m.length ∧
    (m.allocate n).2.block (some (m.allocate n).1) = some (List.replicate n none) ∧
    m.block (some (m.allocate n).1) = none ∧
    ∀ q, q ≠ some (m.allocate n).1 → (m.allocate n).2.block q = m.block q := by
  refine ⟨rfl, ?_, ?_, ?_⟩
  · show (m ++ [some (List.replicate n none)]).getD m.length none = _
    rw [getD_append_one]; simp only [if_true]
  · show m.getD m.length none = none
    simp [List.getD_eq_getElem?_getD]
  · intro q hq
    cases q with
    | none => rfl
    | some c =>
      have hc : c ≠ m.length := fun e => hq (by rw [e]; rfl)
      show (m ++ [some (List.replicate n none)]).getD c none = m.getD c none
      rw [getD_append_one]; simp only [hc, if_false]

theorem deallocate_spec (m : Mem T) (p : Option Nat) (b : List (Option T)) (n : Nat)
    (h : m.block p = some b) (hn : b.length = n) :
    ∃ m', m.deallocate p n = some m' ∧ m'.block p = none ∧
      ∀ q, q ≠ p → m'.block q = m.block q := by
  cases p with
  | none => simp [Mem.block] at h
  | some a =>
    have h' : m.getD a none = some b := h
    refine ⟨m.set a none, ?_, ?_, ?_⟩
    · show (match m.getD a none with
        | none => none
        | some b => if b.length = n then some (m.set a none) else none) = _
      rw [h']; simp only [hn, if_true]
    · show (m.set a none).getD a none = _
      rw [getD_set_of_live m a a b _ h']; simp only [if_true]
    · intro q hq
      cases q with
      | none => rfl
      | some c =>
        have hc : c ≠ a := fun e => hq (by rw [e])
        show (m.set a none).getD c none = m.getD c none
        rw [getD_set_of_live m a c b _ h']; simp only [hc, if_false]

end Mem

namespace Vector

variable {T : Type}

theorem toList_of_block (v : Vector) (m : Mem T) (b : List (Option T))
    (h : m.block v.m_data = some b) (hs : v.m_size ≤ b.length) :
    v.toList m = b.take v.m_size := by
  apply List.ext_getElem?
  intro i
  simp only [toList, index, Mem.read_of_block m _ b _ h, List.getElem?_map, List.getElem?_take]
  by_cases hi : i < v.m_size
  · have : i < b.length := by omega
    simp [List.getElem?_range hi, hi, List.getD_eq_getElem?_getD, List.getElem?_eq_getElem this]
  · have : v.m_size ≤ i := by omega
    simp [hi, List.getElem?_eq_none, this]

theorem toList_length (v : Vector) (m : Mem T) : (v.toList m).length = v.m_size := by
  simp [toList]

/-- Unfolding of the representation invariant in terms of the block behind `m_data`. -/
theorem holds_iff (v : Vector) (m : Mem T) (xs : List T) :
    v.Holds m xs ↔
      v.m_size = xs.length ∧ v.m_size ≤ v.m_cap ∧ (v.m_data = none → v.m_cap = 0) ∧
      (v.m_data ≠ none → ∃ b, m.block v.m_data = some b ∧ b.length = v.m_cap ∧
        b.take v.m_size = xs.map some) := by
  constructor
  · rintro ⟨h1, h2, h3, h4⟩
    have hlen : v.m_size = xs.length := by
      have := congrArg List.length h4
      simpa [toList_length] using this
    refine ⟨hlen, h1, h2, ?_⟩
    intro hne
    have hb := h3 hne
    cases hblk : m.block v.m_data with
    | none => simp [hblk] at hb
    | some b =>
      simp [hblk] at hb
      refine ⟨b, rfl, hb, ?_⟩
      rw [← toList_of_block v m b hblk (by omega)]; exact h4
  · rintro ⟨h1, h2, h3, h4⟩
    refine ⟨h2, h3, ?_, ?_⟩
    · intro hne
      obtain ⟨b, hb, hl, _⟩ := h4 hne
      simp [hb, hl]
    · by_cases hne : v.m_data = none
      · have hc := h3 hne
        have hs : v.m_size = 0 := by omega
        have hx : xs = [] := List.length_eq_zero.mp (by omega)
        simp [toList, hs, hx]
      · obtain ⟨b, hb, hl, ht⟩ := h4 hne
        rw [toList_of_block v m b hb (by omega)]; exact ht

end Vector

end MiniSTL
namespace MiniSTL

namespace Mem

variable {T : Type}

theorem getElem?_set_slot (b : List (Option T)) (j i : Nat) (y : Option T) (hj : j < b.length) :
    (b.set j y)[i]? = if i = j then some y else b[i]? := by
  rw [List.getElem?_set]
  by_cases h : j = i
  · subst h; simp [hj]
  · have : ¬ i = j := fun e => h e.symm
    simp [h, this]

/-- A loop that constructs the value `f i` in slot `i` of block `dst` for `lo <= i < hi`. -/
theorem write_loop (m : Mem T) (dst : Option Nat) (bd : List (Option T)) (lo hi : Nat)
    (f : Nat → Option T) (body : Nat → Mem T → Option (Mem T))
    (hb : m.block dst = some bd) (hle : lo ≤ hi) (hhi : hi ≤ bd.length)
    (hbody : ∀ i mm, lo ≤ i → i < hi → (∀ q, q ≠ dst → mm.block q = m.block q) →
      ∃ x, f i = some x ∧ body i mm = mm.construct_at dst i x) :
    ∃ m' b', forUp lo hi body m = some m' ∧ m'.block dst = some b' ∧
      b'.length = bd.length ∧
      (∀ i, b'[i]? = if lo ≤ i ∧ i < hi then some (f i) else bd[i]?) ∧
      ∀ q, q ≠ dst → m'.block q = m.block q := by
  have key := forUp_spec body
    (fun j mm => ∃ b', mm.block dst = some b' ∧ b'.length = bd.length ∧
      (∀ i, b'[i]? = if lo ≤ i ∧ i < j then some (f i) else bd[i]?) ∧
      ∀ q, q ≠ dst → mm.block q = m.block q)
    lo hi m hle
    ⟨bd, hb, rfl, fun i => by
      have : ¬ (lo ≤ i ∧ i < lo) := by omega
      simp [this], fun _ _ => rfl⟩
    (by
      rintro j t h1 h2 ⟨b', hb', hl, hp, hf⟩
      obtain ⟨x, hx, hbx⟩ := hbody j t h1 h2 hf
      obtain ⟨t', e1, e2, e3⟩ := construct_at_spec t dst b' j x hb' (by omega)
      refine ⟨t', by rw [hbx]; exact e1, b'.set j (some x), e2,
        by simp [hl], ?_, fun q hq => by rw [e3 q hq, hf q hq]⟩
      intro i
      rw [getElem?_set_slot b' j i _ (by omega), hp i]
      by_cases hij : i = j
      · subst hij
        have : lo ≤ i ∧ i < i + 1 := by omega
        simp [this, hx]
      · by_cases hc : lo ≤ i ∧ i < j
        · have : lo ≤ i ∧ i < j + 1 := by omega
          simp [hij, hc, this]
        · have : ¬ (lo ≤ i ∧ i < j + 1) := by omega
          simp [hij, hc, this])
  obtain ⟨m', h1, b', h2⟩ := key
  exact ⟨m', b', h1, h2⟩

/-- The loop `for (i = lo; i != hi; i++) std::destroy_at(&p[i])` over live slots. -/
theorem destroy_loop (m : Mem T) (p : Option Nat) (b : List (Option T)) (lo hi : Nat)
    (hb : m.block p = some b) (hle : lo ≤ hi)
    (hlive : ∀ i, lo ≤ i → i < hi → ∃ x, b[i]? = some (some x)) :
    ∃ m' b', forUp lo hi (fun i mm => mm.destroy_at p i) m = some m' ∧
      m'.block p = some b' ∧ b'.length = b.length ∧
      (∀ i, b'[i]? = if lo ≤ i ∧ i < hi then some none else b[i]?) ∧
      ∀ q, q ≠ p → m'.block q = m.block q := by
  have key := forUp_spec (fun i (mm : Mem T) => mm.destroy_at p i)
    (fun j mm => ∃ b', mm.block p = some b' ∧ b'.length = b.length ∧
      (∀ i, b'[i]? = if lo ≤ i ∧ i < j then some none else b[i]?) ∧
      ∀ q, q ≠ p → mm.block q = m.block q)
    lo hi m hle
    ⟨b, hb, rfl, fun i => by
      have : ¬ (lo ≤ i ∧ i < lo) := by omega
      simp [this], fun _ _ => rfl⟩
    (by
      rintro j t h1 h2 ⟨b', hb', hl, hp, hf⟩
      obtain ⟨x, hx⟩ := hlive j h1 h2
      have hx' : b'[j]? = some (some x) := by
        rw [hp j]
        have : ¬ (lo ≤ j ∧ j < j) := by omega
        simp [this, hx]
      have hj : j < b'.length := by
        by_contra hc
        simp [List.getElem?_eq_none (Nat.le_of_not_lt hc)] at hx'
      obtain ⟨t', e1, e2, e3⟩ := destroy_at_spec t p b' j x hb' hx'
      refine ⟨t', e1, b'.set j none, e2, by simp [hl], ?_,
        fun q hq => by rw [e3 q hq, hf q hq]⟩
      intro i
      rw [getElem?_set_slot b' j i _ hj, hp i]
      by_cases hij : i = j
      · subst hij
        have : lo ≤ i ∧ i < i + 1 := by omega
        simp [this]
      · by_cases hc : lo ≤ i ∧ i < j
        · have : lo ≤ i ∧ i < j + 1 := by omega
          simp [hij, hc, this]
        · have : ¬ (lo ≤ i ∧ i < j + 1) := by omega
          simp [hij, hc, this])
  obtain ⟨m', h1, b', h2⟩ := key
  exact ⟨m', b', h1, h2⟩

theorem slot_of_take (b : List (Option T)) (xs : List T) (k i : Nat)
    (h : b.take k = xs.map some) (hk : k = xs.length) (hi : i < k) :
    b[i]? = some xs[i]? ∧ i < xs.length := by
  have h1 : (b.take k)[i]? = (xs.map some)[i]? := by rw [h]
  have hlt : i < xs.length := by omega
  refine ⟨?_, hlt⟩
  rw [List.getElem?_take, if_pos hi] at h1
  rw [h1]; simp [List.getElem?_eq_getElem hlt]

end Mem

namespace Vector

variable {T : Type}

/-- Source `reserve(n)` with `n > capacity()`: a fresh block of exactly `n` slots receives the
elements in order, the old block (if any was counted in the capacity) is released. -/
theorem reserve_grow (v : Vector) (m : Mem T) (xs : List T) (n : Nat)
    (h : v.Holds m xs) (hn : v.m_cap < n) :
    ∃ m', v.reserve n m = some ({ v with m_data := some m.length, m_cap := n }, m') ∧
      m'.block (some m.length) = some (xs.map some ++ List.replicate (n - v.m_size) none) ∧
      (v.m_cap ≠ 0 → m'.block v.m_data = none) ∧
      ∀ q, q ≠ some m.length → q ≠ v.m_data → m'.block q = m.block q := by
  obtain ⟨hsz, hcap, hnull, hblk⟩ := (holds_iff v m xs).mp h
  obtain ⟨ha1, ha2, ha3, ha4⟩ := Mem.allocate_spec m n
  rw [ha1] at ha2 ha3 ha4
  have hn0 : n ≠ 0 := by omega
  have hnle : ¬ n ≤ v.m_cap := by omega
  by_cases hc : v.m_cap = 0
  · have hs0 : v.m_size = 0 := by omega
    have hx : xs = [] := List.length_eq_zero.mp (by omega)
    refine ⟨(m.allocate n).2, ?_, ?_, fun h => absurd hc h, ?_⟩
    · simp [reserve, hnle, hn0, hc, ha1]
    · simp [hx, hs0, ha2]
    · intro q hq _; exact ha4 q hq
  · have hne : v.m_data ≠ none := fun e => hc (hnull e)
    obtain ⟨b, hb, hbl, hbt⟩ := hblk hne
    have hdiff : v.m_data ≠ some m.length := by
      intro e; rw [e, ha3] at hb; cases hb
    have hb1 : (m.allocate n).2.block v.m_data = some b := by rw [ha4 _ hdiff]; exact hb
    obtain ⟨m2, b2, e1, e2, e3, e4, e5⟩ := Mem.write_loop (m.allocate n).2
      (some m.length) (List.replicate n none) 0 v.m_size (fun i => xs[i]?)
      (fun i mm => (mm.read v.m_data i).bind fun x =>
        mm.construct_at (some m.length) i x)
      ha2 (Nat.zero_le _) (by simp; omega)
      (by
        intro i mm _ hi hf
        obtain ⟨hs, hlt⟩ := Mem.slot_of_take b xs v.m_size i hbt hsz hi
        refine ⟨xs[i], by simp [List.getElem?_eq_getElem hlt], ?_⟩
        have : mm.read v.m_data i = some xs[i] := by
          apply Mem.read_of_slot mm _ b
          · rw [hf _ hdiff]; exact hb1
          · rw [hs]; simp [List.getElem?_eq_getElem hlt]
        simp [this])
    have hb2 : m2.block v.m_data = some b := by rw [e5 _ hdiff]; exact hb1
    obtain ⟨m3, b3, f1, f2, f3, f4, f5⟩ := Mem.destroy_loop m2 v.m_data b 0 v.m_size hb2
      (Nat.zero_le _)
      (by
        intro i _ hi
        obtain ⟨hs, hlt⟩ := Mem.slot_of_take b xs v.m_size i hbt hsz hi
        exact ⟨xs[i], by rw [hs]; simp [List.getElem?_eq_getElem hlt]⟩)
    obtain ⟨m4, g1, g2, g3⟩ := Mem.deallocate_spec m3 v.m_data b3 v.m_cap f2 (by omega)
    refine ⟨m4, ?_, ?_, fun _ => g2, ?_⟩
    · simp only [reserve, hnle, hn0, if_false, ne_eq, hc, not_false_eq_true, if_true]
      simp [e1, f1, g1, ha1]
    · rw [g3 _ (Ne.symm hdiff), f5 _ (Ne.symm hdiff), e2]
      congr 1
      apply List.ext_getElem?
      intro i
      rw [e4 i]
      by_cases hi : i < v.m_size
      · have hlt : i < xs.length := by omega
        simp [hi, List.getElem?_append_left, hlt]
      · have h1 : xs.length ≤ i := by omega
        have h2 : (xs.map some).length ≤ i := by simpa using h1
        rw [List.getElem?_append_right h2]
        simp only [hi, and_false, if_false, List.length_map]
        by_cases hin : i < n
        · have : i - xs.length < n - v.m_size := by omega
          simp [List.getElem?_replicate, hin, this]
        · have : ¬ i - xs.length < n - v.m_size := by omega
          simp [List.getElem?_replicate, hin, this]
    · intro q hq1 hq2
      rw [g3 q hq2, f5 q hq2, e5 q hq1, ha4 q hq1]

end Vector

end MiniSTL
namespace MiniSTL

namespace Vector

variable {T : Type}

theorem holds_of_block (v : Vector) (m : Mem T) (xs : List T) (b : List (Option T))
    (hb : m.block v.m_data = some b) (hl : b.length = v.m_cap) (hs : v.m_size = xs.length)
    (hle : v.m_size ≤ v.m_cap) (hp : ∀ i, i < v.m_size → b[i]? = some xs[i]?) :
    v.Holds m xs := by
  rw [holds_iff]
  refine ⟨hs, hle, ?_, ?_⟩
  · intro e; rw [e, Mem.block_none] at hb; cases hb
  · intro _
    refine ⟨b, hb, hl, ?_⟩
    apply List.ext_getElem?
    intro i
    rw [List.getElem?_take]
    by_cases hi : i < v.m_size
    · have hlt : i < xs.length := by omega
      rw [if_pos hi, hp i hi]; simp [List.getElem?_eq_getElem hlt]
    · have : xs.length ≤ i := by omega
      rw [if_neg hi]; simp [List.getElem?_eq_none this]

theorem block_of_holds (v : Vector) (m : Mem T) (xs : List T) (h : v.Holds m xs)
    (hc : v.m_cap ≠ 0) :
    ∃ b, m.block v.m_data = some b ∧ b.length = v.m_cap ∧ v.m_data ≠ none ∧
      ∀ i, i < v.m_size → b[i]? = some xs[i]? := by
  obtain ⟨hsz, _, hnull, hblk⟩ := (holds_iff v m xs).mp h
  have hne : v.m_data ≠ none := fun e => hc (hnull e)
  obtain ⟨b, hb, hbl, hbt⟩ := hblk hne
  exact ⟨b, hb, hbl, hne, fun i hi => (Mem.slot_of_take b xs v.m_size i hbt hsz hi).1⟩

theorem size_of_holds (v : Vector) (m : Mem T) (xs : List T) (h : v.Holds m xs) :
    v.m_size = xs.length ∧ v.m_size ≤ v.m_cap :=
  ⟨((holds_iff v m xs).mp h).1, ((holds_iff v m xs).mp h).2.1⟩

theorem reserve_noop (v : Vector) (m : Mem T) (n : Nat) (hn : n ≤ v.m_cap) :
    v.reserve n m = some (v, m) := by
  simp [reserve, hn]

/-- Source `reserve(n)` for `n >= 1`: afterwards a live block of `max capacity() n` slots holds the
unchanged elements. -/
theorem reserve_ensure (v : Vector) (m : Mem T) (xs : List T) (n : Nat)
    (h : v.Holds m xs) (hn : 0 < n) :
    ∃ v' m' b', v.reserve n m = some (v', m') ∧ v'.m_size = v.m_size ∧
      v'.m_cap = max v.m_cap n ∧ m'.block v'.m_data = some b' ∧ b'.length = v'.m_cap ∧
      (∀ i, i < v.m_size → b'[i]? = some xs[i]?) ∧
      (∀ i, v.m_size ≤ i → v.m_cap < n → i < n → b'[i]? = some none) ∧
      (∀ q, q ≠ v.m_data → q ≠ v'.m_data → m'.block q = m.block q) := by
  obtain ⟨hsz, hcap⟩ := size_of_holds v m xs h
  by_cases hc : n ≤ v.m_cap
  · obtain ⟨b, hb, hbl, _, hp⟩ := block_of_holds v m xs h (by omega)
    exact ⟨v, m, b, reserve_noop v m n hc, rfl, by simp [Nat.max_eq_left hc], hb, hbl, hp,
      fun i _ h2 _ => by omega, fun _ _ _ => rfl⟩
  · obtain ⟨m', e1, e2, _, e4⟩ := reserve_grow v m xs n h (by omega)
    refine ⟨_, m', _, e1, rfl, by simp; omega, e2, by simp; omega, ?_, ?_, ?_⟩
    · intro i hi
      have hlt : i < xs.length := by omega
      simp [List.getElem?_append_left, hlt]
    · intro i h1 _ h3
      have h2 : (xs.map some).length ≤ i := by simp; omega
      rw [List.getElem?_append_right h2]
      have : i - xs.length < n - v.m_size := by omega
      simp [List.getElem?_replicate, this]
    · intro q hq1 hq2
      exact e4 q hq2 hq1

theorem reserve_data (v v' : Vector) (m m' : Mem T) (xs : List T) (n : Nat)
    (h : v.Holds m xs) (e : v.reserve n m = some (v', m')) :
    v'.m_data = v.m_data ∨ v'.m_data = some m.length := by
  by_cases hn : n ≤ v.m_cap
  · rw [reserve_noop v m n hn] at e
    simp only [Option.some.injEq, Prod.mk.injEq] at e
    left; rw [← e.1]
  · obtain ⟨m'', e1, _⟩ := reserve_grow v m xs n h (by omega)
    rw [e1] at e
    simp only [Option.some.injEq, Prod.mk.injEq] at e
    right; rw [← e.1]

/-- A reference to an object outside the buffer of `v` reads the same value in every store
that differs from `m` in that buffer only. -/
theorem deref_frame (v : Vector) (val : Ref T) (m m' : Mem T) (x : T)
    (hval : v.Outside val m x) (hframe : ∀ q, q ≠ v.m_data → m'.block q = m.block q) :
    m'.deref val = some x := by
  cases val with
  | temp y =>
    have e : y = x := hval
    rw [e]; rfl
  | slot p i =>
    obtain ⟨h1, h2⟩ : p ≠ v.m_data ∧ m.read p i = some x := hval
    show m'.read p i = some x
    simp only [Mem.read, hframe p h1]
    exact h2

/-- A reference to an object outside the buffer of `v` still reads the same value after an
operation that has touched only that buffer and the block allocated from `m`. -/
theorem deref_outside (v v' : Vector) (val : Ref T) (m m' : Mem T) (x : T)
    (hval : v.Outside val m x)
    (hdata : v'.m_data = v.m_data ∨ v'.m_data = some m.length)
    (hframe : ∀ q, q ≠ v.m_data → q ≠ v'.m_data → m'.block q = m.block q) :
    m'.deref val = some x ∧ v'.Outside val m' x := by
  cases val with
  | temp y =>
    have e : y = x := hval
    exact ⟨by rw [e]; rfl, e⟩
  | slot p i =>
    obtain ⟨h1, h2⟩ : p ≠ v.m_data ∧ m.read p i = some x := hval
    have h3 : p ≠ v'.m_data := by
      rcases hdata with e | e
      · rw [e]; exact h1
      · rw [e]
        intro c
        rw [c] at h2
        have hb := (Mem.allocate_spec m 0).2.2.1
        rw [(Mem.allocate_spec m 0).1] at hb
        simp [Mem.read, hb] at h2
    have h4 : m'.read p i = some x := by
      simp only [Mem.read, hframe p h1 h3]
      exact h2
    exact ⟨h4, h3, h4⟩

theorem push_back_reserve (v : Vector) (m : Mem T) :
    (if v.m_size + 1 ≥ v.m_cap then v.reserve (v.m_size + 1) m else some (v, m)) =
      v.reserve (v.m_size + 1) m := by
  by_cases h : v.m_size + 1 ≥ v.m_cap
  · simp [h]
  · rw [if_neg h, reserve_noop v m _ (by omega)]

/-- Source `push_back(val)` on a well-formed vector: the result is well formed and holds the old
elements followed by `val`; the capacity becomes `max capacity() (size()+1)`. -/
theorem push_back_spec (v : Vector) (m : Mem T) (xs : List T) (val : Ref T) (x : T)
    (h : v.Holds m xs)
    (hval : v.Outside val m x ∨ (v.m_size < v.m_cap ∧ m.deref val = some x)) :
    ∃ v' m', v.push_back val m = some (v', m') ∧ v'.Holds m' (xs ++ [x]) ∧
      v'.m_size = v.m_size + 1 ∧ v'.m_cap = max v.m_cap (v.m_size + 1) ∧
      (∀ q, q ≠ v.m_data → q ≠ v'.m_data → m'.block q = m.block q) := by
  obtain ⟨hsz, hcap⟩ := size_of_holds v m xs h
  obtain ⟨v1, m1, b1, e1, e2, e3, e4, e5, e6, _, e7⟩ :=
    reserve_ensure v m xs (v.m_size + 1) h (by omega)
  have hlt : v1.m_size < b1.length := by rw [e5, e3, e2]; omega
  have hd : m1.deref val = some x := by
    rcases hval with hv | ⟨hv1, hv2⟩
    · exact (deref_outside v v1 val m m1 x hv (reserve_data v v1 m m1 xs _ h e1) e7).1
    · rw [reserve_noop v m _ (by omega)] at e1
      have e0 : m = m1 := congrArg Prod.snd (Option.some.inj e1)
      rw [← e0]; exact hv2
  obtain ⟨m2, f1, f2, f3⟩ := Mem.construct_at_spec m1 v1.m_data b1 v1.m_size x e4 hlt
  refine ⟨{ v1 with m_size := v1.m_size + 1 }, m2, ?_, ?_, by simp [e2], by simp [e3], ?_⟩
  · unfold push_back
    rw [push_back_reserve, e1]
    simp [hd, f1]
  · apply holds_of_block { v1 with m_size := v1.m_size + 1 } m2 _
      (b1.set v1.m_size (some x)) f2
    · simp [e5]
    · simp [e2, hsz]
    · simp [e3, e2]
    · intro i hi
      simp only [e2] at hi
      rw [Mem.getElem?_set_slot b1 _ i _ hlt]
      by_cases hie : i = v1.m_size
      · have : i = xs.length := by omega
        simp [hie, e2, hsz]
      · have hi' : i < v.m_size := by omega
        have : i < xs.length := by omega
        rw [if_neg hie, e6 i hi']
        simp [List.getElem?_append_left, this]
  · intro q hq1 hq2
    rw [f3 q hq2, e7 q hq1 hq2]

end Vector

end MiniSTL
namespace MiniSTL

namespace Mem

variable {T : Type}

/-- The loop of `insert` that moves the slots `j .. size-1` up by `n` places, from the top
down, destroying each source slot. -/
theorem shift_up_loop (m : Mem T) (p : Option Nat) (b : List (Option T)) (size j n : Nat)
    (hb : m.block p = some b) (hj : j ≤ size) (hn : 0 < n) (hlen : size + n ≤ b.length)
    (hlive : ∀ i, i < size → ∃ x, b[i]? = some (some x)) :
    ∃ m' b', forDown size j
        (fun i mm => (mm.read p (i - 1)).bind fun x =>
          (mm.construct_at p (i + n - 1) x).bind fun mm1 => mm1.destroy_at p (i - 1)) m
        = some m' ∧
      m'.block p = some b' ∧ b'.length = b.length ∧
      (∀ k, b'[k]? = if j + n ≤ k ∧ k < size + n then b[k - n]?
        else if j ≤ k ∧ k < size then some none else b[k]?) ∧
      ∀ q, q ≠ p → m'.block q = m.block q := by
  have key := forDown_spec
    (fun i (mm : Mem T) => (mm.read p (i - 1)).bind fun x =>
      (mm.construct_at p (i + n - 1) x).bind fun mm1 => mm1.destroy_at p (i - 1))
    (fun i mm => ∃ b', mm.block p = some b' ∧ b'.length = b.length ∧
      (∀ k, b'[k]? = if i + n ≤ k ∧ k < size + n then b[k - n]?
        else if i ≤ k ∧ k < size then some none else b[k]?) ∧
      ∀ q, q ≠ p → mm.block q = m.block q)
    size j m hj
    ⟨b, hb, rfl, fun k => by
      have h1 : ¬ (size + n ≤ k ∧ k < size + n) := by omega
      have h2 : ¬ (size ≤ k ∧ k < size) := by omega
      simp [h1, h2], fun _ _ => rfl⟩
    (by
      rintro i t h1 h2 ⟨b', hb', hl, hp, hf⟩
      obtain ⟨x, hx⟩ := hlive (i - 1) (by omega)
      have hx' : b'[i - 1]? = some (some x) := by
        rw [hp (i - 1)]
        have c1 : ¬ (i + n ≤ i - 1 ∧ i - 1 < size + n) := by omega
        have c2 : ¬ (i ≤ i - 1 ∧ i - 1 < size) := by omega
        simp [c1, c2, hx]
      have hr : t.read p (i - 1) = some x := read_of_slot t p b' (i - 1) x hb' hx'
      obtain ⟨t1, e1, e2, e3⟩ := construct_at_spec t p b' (i + n - 1) x hb' (by omega)
      have hx1 : (b'.set (i + n - 1) (some x))[i - 1]? = some (some x) := by
        rw [getElem?_set_slot b' _ _ _ (by omega)]
        have : ¬ i - 1 = i + n - 1 := by omega
        simp [this, hx']
      obtain ⟨t2, g1, g2, g3⟩ := destroy_at_spec t1 p _ (i - 1) x e2 hx1
      refine ⟨t2, by simp [hr, e1, g1], _, g2, by simp [hl], ?_,
        fun q hq => by rw [g3 q hq, e3 q hq, hf q hq]⟩
      intro k
      rw [getElem?_set_slot _ _ _ _ (by simp; omega), getElem?_set_slot b' _ _ _ (by omega),
        hp k]
      by_cases hk1 : k = i - 1
      · have c1 : ¬ (i - 1 + n ≤ k ∧ k < size + n) := by omega
        have c2 : i - 1 ≤ k ∧ k < size := by omega
        rw [if_pos hk1, if_neg c1, if_pos c2]
      · by_cases hk2 : k = i + n - 1
        · have c1 : i - 1 + n ≤ k ∧ k < size + n := by omega
          have c3 : k - n = i - 1 := by omega
          rw [if_neg hk1, if_pos hk2, if_pos c1, c3, hx]
        · rw [if_neg hk1, if_neg hk2]
          by_cases c1 : i + n ≤ k ∧ k < size + n
          · have c2 : i - 1 + n ≤ k ∧ k < size + n := by omega
            rw [if_pos c1, if_pos c2]
          · have c2 : ¬ (i - 1 + n ≤ k ∧ k < size + n) := by omega
            rw [if_neg c1, if_neg c2]
            by_cases c3 : i ≤ k ∧ k < size
            · have c4 : i - 1 ≤ k ∧ k < size := by omega
              rw [if_pos c3, if_pos c4]
            · have c4 : ¬ (i - 1 ≤ k ∧ k < size) := by omega
              rw [if_neg c3, if_neg c4])
  obtain ⟨m', h1, b', h2⟩ := key
  exact ⟨m', b', h1, h2⟩

/-- The loop of `erase` that move-assigns the slots `l .. size-1` down by `diff` places. -/
theorem shift_down_loop (m : Mem T) (p : Option Nat) (b : List (Option T))
    (size l diff : Nat)
    (hb : m.block p = some b) (hl : l ≤ size) (hd : diff ≤ l)
    (hlive : ∀ i, i < size → ∃ x, b[i]? = some (some x)) :
    ∃ m' b', forUp l size
        (fun j mm => (mm.read p j).bind fun x => mm.assign_at p (j - diff) x) m = some m' ∧
      m'.block p = some b' ∧ b'.length = b.length ∧
      (∀ k, b'[k]? = if l - diff ≤ k ∧ k < size - diff then b[k + diff]? else b[k]?) ∧
      ∀ q, q ≠ p → m'.block q = m.block q := by
  have key := forUp_spec
    (fun j (mm : Mem T) => (mm.read p j).bind fun x => mm.assign_at p (j - diff) x)
    (fun j mm => ∃ b', mm.block p = some b' ∧ b'.length = b.length ∧
      (∀ k, b'[k]? = if l - diff ≤ k ∧ k < j - diff then b[k + diff]? else b[k]?) ∧
      ∀ q, q ≠ p → mm.block q = m.block q)
    l size m hl
    ⟨b, hb, rfl, fun k => by
      have h1 : ¬ (l - diff ≤ k ∧ k < l - diff) := by omega
      rw [if_neg h1], fun _ _ => rfl⟩
    (by
      rintro j t h1 h2 ⟨b', hb', hl', hp, hf⟩
      obtain ⟨x, hx⟩ := hlive j h2
      obtain ⟨y, hy⟩ := hlive (j - diff) (by omega)
      have hx' : b'[j]? = some (some x) := by
        rw [hp j]
        have c1 : ¬ (l - diff ≤ j ∧ j < j - diff) := by omega
        simp [c1, hx]
      have hy' : b'[j - diff]? = some (some y) := by
        rw [hp (j - diff)]
        have c1 : ¬ (l - diff ≤ j - diff ∧ j - diff < j - diff) := by omega
        simp [c1, hy]
      have hlt : j - diff < b'.length := by
        by_contra hc
        simp [List.getElem?_eq_none (Nat.le_of_not_lt hc)] at hy'
      have hr : t.read p j = some x := read_of_slot t p b' j x hb' hx'
      obtain ⟨t1, e1, e2, e3⟩ := assign_at_spec t p b' (j - diff) y x hb' hy'
      refine ⟨t1, by simp [hr, e1], _, e2, by simp [hl'], ?_,
        fun q hq => by rw [e3 q hq, hf q hq]⟩
      intro k
      rw [getElem?_set_slot b' _ _ _ hlt, hp k]
      by_cases hk1 : k = j - diff
      · have c1 : l - diff ≤ k ∧ k < j + 1 - diff := by omega
        have c3 : k + diff = j := by omega
        rw [if_pos hk1, if_pos c1, c3, hx]
      · rw [if_neg hk1]
        by_cases c1 : l - diff ≤ k ∧ k < j - diff
        · have c2 : l - diff ≤ k ∧ k < j + 1 - diff := by omega
          rw [if_pos c1, if_pos c2]
        · have c2 : ¬ (l - diff ≤ k ∧ k < j + 1 - diff) := by omega
          rw [if_neg c1, if_neg c2])
  obtain ⟨m', h1, b', h2⟩ := key
  exact ⟨m', b', h1, h2⟩

/-- The first loop of `erase(first, last)`: every slot `j` of `l .. size-1` is move-assigned
to the slot `diff` places below; for `diff = 0` each of these slots is move-assigned to
itself. -/
theorem move_down_loop [MoveAssign T] (m : Mem T) (p : Option Nat) (b : List (Option T))
    (size l diff : Nat)
    (hb : m.block p = some b) (hl : l ≤ size) (hd : diff ≤ l)
    (hlive : ∀ i, i < size → ∃ x, b[i]? = some (some x)) :
    ∃ m' b', forUp l size (fun j mm => mm.move_assign p (j - diff) j) m = some m' ∧
      m'.block p = some b' ∧ b'.length = b.length ∧
      (∀ k, b'[k]? = if l - diff ≤ k ∧ k < size - diff then
          (if diff = 0 then (b[k]?).map (Option.map MoveAssign.self_move) else b[k + diff]?)
        else b[k]?) ∧
      ∀ q, q ≠ p → m'.block q = m.block q := by
  have key := forUp_spec
    (fun j (mm : Mem T) => mm.move_assign p (j - diff) j)
    (fun j mm => ∃ b', mm.block p = some b' ∧ b'.length = b.length ∧
      (∀ k, b'[k]? = if l - diff ≤ k ∧ k < j - diff then
          (if diff = 0 then (b[k]?).map (Option.map MoveAssign.self_move) else b[k + diff]?)
        else b[k]?) ∧
      ∀ q, q ≠ p → mm.block q = m.block q)
    l size m hl
    ⟨b, hb, rfl, fun k => by
      have h1 : ¬ (l - diff ≤ k ∧ k < l - diff) := by omega
      rw [if_neg h1], fun _ _ => rfl⟩
    (by
      rintro j t h1 h2 ⟨b', hb', hl', hp, hf⟩
      obtain ⟨x, hx⟩ := hlive j h2
      obtain ⟨y, hy⟩ := hlive (j - diff) (by omega)
      have hx' : b'[j]? = some (some x) := by
        rw [hp j]
        have c1 : ¬ (l - diff ≤ j ∧ j < j - diff) := by omega
        simp [c1, hx]
      have hy' : b'[j - diff]? = some (some y) := by
        rw [hp (j - diff)]
        have c1 : ¬ (l - diff ≤ j - diff ∧ j - diff < j - diff) := by omega
        simp [c1, hy]
      have hlt : j - diff < b'.length := by
        by_contra hc
        simp [List.getElem?_eq_none (Nat.le_of_not_lt hc)] at hy'
      have hr : t.read p j = some x := read_of_slot t p b' j x hb' hx'
      obtain ⟨t1, e1, e2, e3⟩ := assign_at_spec t p b' (j - diff) y
        (if j - diff = j then MoveAssign.self_move x else x) hb' hy'
      have hw : some (some (if j - diff = j then MoveAssign.self_move x else x)) =
          (if diff = 0 then (b[j - diff]?).map (Option.map MoveAssign.self_move)
            else b[j - diff + diff]?) := by
        by_cases hd0 : diff = 0
        · subst hd0
          simp [hx]
        · have c1 : j - diff ≠ j := by omega
          have c2 : j - diff + diff = j := by omega
          rw [if_neg c1, if_neg hd0, c2, hx]
      refine ⟨t1, by simp [Mem.move_assign, hr, e1], _, e2, by simp [hl'], ?_,
        fun q hq => by rw [e3 q hq, hf q hq]⟩
      intro k
      rw [getElem?_set_slot b' _ _ _ hlt, hp k]
      by_cases hk1 : k = j - diff
      · have c1 : l - diff ≤ k ∧ k < j + 1 - diff := by omega
        rw [if_pos hk1, if_pos c1, hk1, hw]
      · rw [if_neg hk1]
        by_cases c1 : l - diff ≤ k ∧ k < j - diff
        · have c2 : l - diff ≤ k ∧ k < j + 1 - diff := by omega
          rw [if_pos c1, if_pos c2]
        · have c2 : ¬ (l - diff ≤ k ∧ k < j + 1 - diff) := by omega
          rw [if_neg c1, if_neg c2])
  obtain ⟨m', h1, b', h2⟩ := key
  exact ⟨m', b', h1, h2⟩

end Mem

end MiniSTL
namespace MiniSTL

theorem getElem?_splice {α : Type} (xs ys : List α) (j i : Nat) (hj : j ≤ xs.length) :
    (xs.take j ++ ys ++ xs.drop j)[i]? =
      if i < j then xs[i]? else if i < j + ys.length then ys[i - j]? else xs[i - ys.length]? := by
  have hlen : (xs.take j).length = j := by simp [List.length_take]; omega
  by_cases h1 : i < j
  · rw [if_pos h1, List.append_assoc, List.getElem?_append_left (by omega),
      List.getElem?_take, if_pos h1]
  · rw [if_neg h1, List.append_assoc, List.getElem?_append_right (by omega), hlen]
    by_cases h2 : i < j + ys.length
    · rw [if_pos h2, List.getElem?_append_left (by omega)]
    · rw [if_neg h2, List.getElem?_append_right (by omega), List.getElem?_drop]
      congr 1; omega

theorem getElem?_cut {α : Type} (xs : List α) (f l i : Nat) (hf : f ≤ l) (hl : l ≤ xs.length) :
    (xs.take f ++ xs.drop l)[i]? = if i < f then xs[i]? else xs[i + (l - f)]? := by
  have hlen : (xs.take f).length = f := by simp [List.length_take]; omega
  by_cases h1 : i < f
  · rw [if_pos h1, List.getElem?_append_left (by omega), List.getElem?_take, if_pos h1]
  · rw [if_neg h1, List.getElem?_append_right (by omega), hlen, List.getElem?_drop]
    congr 1; omega

namespace Vector

variable {T : Type}

theorem live_of_slots (b : List (Option T)) (xs : List T) (n : Nat) (hn : n = xs.length)
    (hp : ∀ i, i < n → b[i]? = some xs[i]?) : ∀ i, i < n → ∃ x, b[i]? = some (some x) := by
  intro i hi
  have hlt : i < xs.length := by omega
  exact ⟨xs[i], by rw [hp i hi, List.getElem?_eq_getElem hlt]⟩

/-- Source `insert(begin() + j, val)` for `j <= size()`. -/
theorem insert_spec (v : Vector) (m : Mem T) (xs : List T) (j : Nat) (val : Ref T) (x : T)
    (h : v.Holds m xs) (hj : j ≤ v.m_size) (hval : v.Outside val m x) :
    ∃ v' m', v.insert (v.begin_.add j) val m = some ((v', m'), v'.begin_.add j) ∧
      v'.Holds m' (xs.take j ++ [x] ++ xs.drop j) ∧
      v'.m_size = v.m_size + 1 ∧ v'.m_cap = max v.m_cap (v.m_size + 1) ∧
      (∀ q, q ≠ v.m_data → q ≠ v'.m_data → m'.block q = m.block q) := by
  obtain ⟨hsz, hcap⟩ := size_of_holds v m xs h
  obtain ⟨v1, m1, b1, e1, e2, e3, e4, e5, e6, _, e7⟩ :=
    reserve_ensure v m xs (v.m_size + 1) h (by omega)
  have hbody : (fun i (mm : Mem T) => (mm.read v1.m_data (i - 1)).bind fun x =>
      (mm.construct_at v1.m_data i x).bind fun mm1 => mm1.destroy_at v1.m_data (i - 1)) =
      (fun i (mm : Mem T) => (mm.read v1.m_data (i - 1)).bind fun x =>
      (mm.construct_at v1.m_data (i + 1 - 1) x).bind fun mm1 =>
        mm1.destroy_at v1.m_data (i - 1)) := by
    funext i mm; simp
  obtain ⟨m2, b2, f1, f2, f3, f4, f5⟩ := Mem.shift_up_loop m1 v1.m_data b1 v1.m_size j 1 e4
    (by omega) (by omega) (by rw [e5, e3, e2]; omega)
    (live_of_slots b1 xs v1.m_size (by omega) (by rw [e2]; exact e6))
  rw [← hbody] at f1
  obtain ⟨hd, _⟩ := deref_outside v v1 val m m2 x hval
    (reserve_data v v1 m m1 xs _ h e1) (fun q hq1 hq2 => by rw [f5 q hq2, e7 q hq1 hq2])
  obtain ⟨m3, g1, g2, g3⟩ := Mem.construct_at_spec m2 v1.m_data b2 j x f2
    (by rw [f3, e5, e3]; omega)
  refine ⟨{ v1 with m_size := v1.m_size + 1 }, m3, ?_, ?_, by simp [e2], by simp [e3], ?_⟩
  · simp [insert, begin_, Pointer.add, Pointer.diff, e1, f1, hd, g1]
  · apply holds_of_block { v1 with m_size := v1.m_size + 1 } m3 _ (b2.set j (some x)) g2
    · simp [f3, e5]
    · simp [e2, hsz, List.length_take]; omega
    · simp [e3, e2]
    · intro i hi
      simp only [e2] at hi
      rw [Mem.getElem?_set_slot b2 _ i _ (by rw [f3, e5, e3]; omega), f4 i,
        getElem?_splice xs [x] j i (by omega), e2]
      by_cases c1 : i = j
      · have c2 : ¬ i < j := by omega
        have c3 : i < j + [x].length := by simp; omega
        rw [if_pos c1, if_neg c2, if_pos c3]
        have : i - j = 0 := by omega
        simp [this]
      · rw [if_neg c1]
        by_cases c2 : i < j
        · have c3 : ¬ (j + 1 ≤ i ∧ i < v.m_size + 1) := by omega
          have c4 : ¬ (j ≤ i ∧ i < v.m_size) := by omega
          rw [if_neg c3, if_neg c4, if_pos c2, e6 i (by omega)]
        · have c3 : j + 1 ≤ i ∧ i < v.m_size + 1 := by omega
          have c4 : ¬ i < j + [x].length := by simp; omega
          rw [if_pos c3, if_neg c2, if_neg c4, e6 (i - 1) (by omega)]
          simp
  · intro q hq1 hq2
    rw [g3 q hq2, f5 q hq2, e7 q hq1 hq2]

/-- Source `erase(begin() + f, begin() + l)` for `f <= l <= size()`: for `f = l` every element
from index `l` on has been move-assigned to itself. -/
theorem erase_range_spec [MoveAssign T] (v : Vector) (m : Mem T) (xs : List T) (f l : Nat)
    (h : v.Holds m xs) (hf : f ≤ l) (hl : l ≤ v.m_size) :
    ∃ v' m', v.erase_range (v.begin_.add f) (v.begin_.add l) m =
        some ((v', m'), v'.begin_.add f) ∧
      v'.Holds m' (xs.take f ++
        (if f = l then (xs.drop l).map MoveAssign.self_move else xs.drop l)) ∧
      v'.m_size = v.m_size - (l - f) ∧ v'.m_cap = v.m_cap ∧ v'.m_data = v.m_data ∧
      (∀ q, q ≠ v.m_data → m'.block q = m.block q) := by
  obtain ⟨hsz, hcap⟩ := size_of_holds v m xs h
  by_cases hc : v.m_cap = 0
  · have hs0 : v.m_size = 0 := by omega
    have hl0 : l = 0 := by omega
    have hf0 : f = 0 := by omega
    have hx : xs = [] := List.length_eq_zero.mp (by omega)
    subst hl0 hf0
    refine ⟨v, m, ?_, ?_, by simp, rfl, rfl, fun _ _ => rfl⟩
    · simp [erase_range, begin_, Pointer.add, Pointer.diff, hs0, forUp, forUp.go]
      cases v; simp_all
    · simpa [hx] using h
  · obtain ⟨b, hb, hbl, hne, hp⟩ := block_of_holds v m xs h hc
    have hlive := live_of_slots b xs v.m_size hsz hp
    obtain ⟨m1, b1, e1, e2, e3, e4, e5⟩ := Mem.move_down_loop m v.m_data b v.m_size l (l - f)
      hb hl (by omega) hlive
    obtain ⟨m2, b2, f1, f2, f3, f4, f5⟩ := Mem.destroy_loop m1 v.m_data b1
      (v.m_size - (l - f)) (v.m_size - (l - f) + (l - f)) e2 (by omega)
      (by
        intro i h1 h2
        obtain ⟨x, hx⟩ := hlive i (by omega)
        rw [e4 i]
        by_cases c1 : l - (l - f) ≤ i ∧ i < v.m_size - (l - f)
        · have c2 : l - f = 0 := by omega
          rw [if_pos c1, if_pos c2, hx]
          exact ⟨_, rfl⟩
        · rw [if_neg c1, hx]
          exact ⟨_, rfl⟩)
    refine ⟨{ v with m_size := v.m_size - (l - f) }, m2, ?_, ?_, rfl, rfl, rfl, ?_⟩
    · have c1 : ¬ v.m_size < l - f := by omega
      simp [erase_range, begin_, Pointer.add, Pointer.diff, hf, e1, c1, f1]
    · apply holds_of_block { v with m_size := v.m_size - (l - f) } m2 _ b2 f2
      · simp [f3, e3, hbl]
      · by_cases hfl : f = l
        · subst hfl
          simp [hsz, List.length_take] <;> omega
        · simp [hfl, hsz, List.length_take] <;> omega
      · simp; omega
      · intro i hi
        simp only at hi
        have c0 : ¬ (v.m_size - (l - f) ≤ i ∧ i < v.m_size - (l - f) + (l - f)) := by omega
        rw [f4 i, if_neg c0, e4 i]
        by_cases hfl : f = l
        · subst hfl
          rw [if_pos rfl]
          have hlen : (xs.take f).length = f := by simp [List.length_take]; omega
          by_cases c1 : i < f
          · have c2 : ¬ (f - (f - f) ≤ i ∧ i < v.m_size - (f - f)) := by omega
            rw [if_neg c2, List.getElem?_append_left (by omega), List.getElem?_take,
              if_pos c1, hp i (by omega)]
          · have c2 : f - (f - f) ≤ i ∧ i < v.m_size - (f - f) := by omega
            rw [if_pos c2, if_pos (by omega), List.getElem?_append_right (by omega), hlen,
              List.getElem?_map, List.getElem?_drop, hp i (by omega)]
            have e : f + (i - f) = i := by omega
            rw [e]
            cases xs[i]? <;> rfl
        · rw [if_neg hfl, getElem?_cut xs f l i hf (by omega)]
          have hd : l - f ≠ 0 := by omega
          by_cases c1 : i < f
          · have c2 : ¬ (l - (l - f) ≤ i ∧ i < v.m_size - (l - f)) := by omega
            rw [if_neg c2, if_pos c1, hp i (by omega)]
          · have c2 : l - (l - f) ≤ i ∧ i < v.m_size - (l - f) := by omega
            rw [if_pos c2, if_neg hd, if_neg c1, hp _ (by omega)]
    · intro q hq
      rw [f5 q hq, e5 q hq]

end Vector

end MiniSTL
namespace MiniSTL

namespace Vector

variable {T : Type}

theorem index_of_holds (v : Vector) (m : Mem T) (xs : List T) (i : Nat) (h : v.Holds m xs)
    (hi : i < v.m_size) : v.index i m = xs[i]? := by
  have h4 : v.toList m = xs.map some := h.2.2.2
  have h5 : (v.toList m)[i]? = (xs.map some)[i]? := by rw [h4]
  have hlt : i < xs.length := by rw [← (size_of_holds v m xs h).1]; exact hi
  simp only [toList, List.getElem?_map, List.getElem?_range hi, Option.map_some',
    List.getElem?_eq_getElem hlt] at h5
  rw [List.getElem?_eq_getElem hlt]
  exact Option.some.inj h5

/-- C1 fails as stated: `v.push_back(v[0])` on the full vector `[3, 4]` reads its argument
after `reserve` has released the block the reference points into, which is undefined
behaviour, where the claim has the contents `[3, 4, 3]`; the value `3` passed as a temporary
does give `[3, 4, 3]`. -/
theorem C1_push_back_alias_counterexample :
    Holds ⟨some 0, 2, 2⟩ ([some [some 3, some 4]] : Mem Nat) [3, 4] ∧
    Mem.deref ([some [some 3, some 4]] : Mem Nat) (Ref.slot (some 0) 0) = some 3 ∧
    push_back ⟨some 0, 2, 2⟩ (Ref.slot (some 0) 0) ([some [some 3, some 4]] : Mem Nat) =
      none ∧
    ∃ v' m', push_back ⟨some 0, 2, 2⟩ (Ref.temp 3) ([some [some 3, some 4]] : Mem Nat) =
        some (v', m') ∧ v'.toList m' = [some 3, some 4, some 3] :=
  ⟨by decide, rfl, by decide, ⟨some 1, 3, 3⟩, [none, some [some 3, some 4, some 3]],
    by decide, by decide⟩

/-- C1 as amended: on a vector with `size() <= capacity()` holding `xs`, `push_back(val)`
with `val` bound to an object holding `x` outside the vector's own buffer, or bound to any
live object when `size() < capacity()`, returns; the size grows by exactly one, index
`old size` holds `x`, the indices below are unchanged, the contents are the old contents
followed by `x`.  On a full vector of non-zero capacity a reference to one of its own
elements is read after its block has been released.  Pushing 0,1,2,3,4 onto an empty vector
gives `[0,1,2,3,4]` with size 5 and capacity at least 5. -/
theorem C1_push_back_appends (v : Vector) (m : Mem T) (xs : List T) (val : Ref T) (x : T)
    (h : v.Holds m xs)
    (hval : v.Outside val m x ∨ (v.size < v.capacity ∧ m.deref val = some x)) :
    (∃ v' m', v.push_back val m = some (v', m') ∧
      v'.size = v.size + 1 ∧
      v'.index v.size m' = some x ∧
      (∀ i, i < v.size → v'.index i m' = v.index i m) ∧
      v'.toList m' = v.toList m ++ [some x] ∧
      v'.Holds m' (xs ++ [x])) ∧
    (v.size = v.capacity → v.capacity ≠ 0 →
      ∀ i, v.push_back (.slot v.m_data i) m = none) ∧
    (∃ v5 m5, push_back_all [0, 1, 2, 3, 4] (ctor, ([] : Mem Nat)) = some (v5, m5) ∧
      v5.toList m5 = [some 0, some 1, some 2, some 3, some 4] ∧
      v5.size = 5 ∧ v5.capacity ≥ 5) := by
  refine ⟨?_, ?_, ?_⟩
  · obtain ⟨v', m', e1, e2, e3, _, _⟩ := push_back_spec v m xs val x h hval
    obtain ⟨hsz, _⟩ := size_of_holds v m xs h
    refine ⟨v', m', e1, e3, ?_, ?_, ?_, e2⟩
    · rw [index_of_holds v' m' _ _ e2 (by simp [size, e3])]
      simp [size, hsz]
    · intro i hi
      simp only [size] at hi
      have hlt : i < xs.length := by omega
      rw [index_of_holds v' m' _ i e2 (by omega), index_of_holds v m xs i h hi,
        List.getElem?_append_left hlt]
    · rw [e2.2.2.2, h.2.2.2]; simp
  · intro hfull hc i
    simp only [size, capacity] at hfull hc
    obtain ⟨m', e1, _, e3, _⟩ := reserve_grow v m xs (v.m_size + 1) h (by omega)
    have hgone : m'.block v.m_data = none := e3 hc
    unfold push_back
    rw [push_back_reserve, e1]
    simp [Mem.deref, Mem.read, hgone]
  · exact ⟨⟨some 4, 5, 5⟩, [none, none, none, none, some [some 0, some 1, some 2, some 3, some 4]],
      by decide, by decide, rfl, by decide⟩

/-- Instance of C1: `v.push_back(v[0])` on the one-element vector `[7]` with capacity 2. -/
theorem C1_push_back_appends_witness :
    Holds ⟨some 0, 1, 2⟩ ([some [some 7, none]] : Mem Nat) [7] ∧
    ∃ v' m', push_back ⟨some 0, 1, 2⟩ (Ref.slot (some 0) 0)
        ([some [some 7, none]] : Mem Nat) = some (v', m') ∧
      v'.toList m' = [some 7, some 7] :=
  ⟨by decide, by
    obtain ⟨⟨v', m', e1, _, _, _, e2, _⟩, _⟩ :=
      C1_push_back_appends ⟨some 0, 1, 2⟩ ([some [some 7, none]] : Mem Nat) [7]
        (Ref.slot (some 0) 0) 7 (by decide) (Or.inr ⟨by decide, rfl⟩)
    exact ⟨v', m', e1, by rw [e2]; decide⟩⟩

/-- C3 fails as stated: `erase(begin(), begin())` on a vector of the strings `["a", "b"]`
move-assigns each element to itself, which leaves a `std::string` empty: the contents are
`["", ""]`, where the claim has them unchanged. -/
theorem C3_erase_empty_range_counterexample :
    Holds ⟨some 0, 2, 2⟩ ([some [some "a", some "b"]] : Mem String) ["a", "b"] ∧
    ∃ v' m' it, erase_range ⟨some 0, 2, 2⟩ ((begin_ ⟨some 0, 2, 2⟩).add 0)
        ((begin_ ⟨some 0, 2, 2⟩).add 0) ([some [some "a", some "b"]] : Mem String) =
        some ((v', m'), it) ∧
      v'.toList m' = [some "", some ""] ∧ v'.size = 2 :=
  ⟨by decide, ⟨some 0, 2, 2⟩, [some [some "", some ""]], ⟨some 0, 0⟩, rfl, by decide,
    rfl⟩

/-- C3 as amended: on a vector holding `xs`, `erase(begin() + f, begin() + l)` with
`f <= l <= size()` returns, the size drops by `l - f`, the capacity is unchanged and the
returned iterator is at index `f`.  When `f < l`, or when move-assigning an element to itself
does not change it, the contents become the first `f` elements followed by the elements from
index `l` on, and index `f` holds the element that followed the erased range.  When `f = l`
the elements from index `f` on are, in general, what their self-move-assignment leaves.
Erasing `[1,3)` from `[0,1,99,2,3,4]` gives `[0,2,3,4]` with size 4. -/
theorem C3_erase_range [MoveAssign T] (v : Vector) (m : Mem T) (xs : List T) (f l : Nat)
    (h : v.Holds m xs) (hf : f ≤ l) (hl : l ≤ v.size) :
    (∃ v' m' it, v.erase_range (v.begin_.add f) (v.begin_.add l) m = some ((v', m'), it) ∧
      v'.size = v.size - (l - f) ∧ v'.capacity = v.capacity ∧
      it = v'.begin_.add f ∧
      ((f < l ∨ ∀ x ∈ xs.drop l, MoveAssign.self_move x = x) →
        v'.toList m' = (xs.take f ++ xs.drop l).map some ∧
        v'.Holds m' (xs.take f ++ xs.drop l) ∧
        (l < v.size → v'.index f m' = v.index l m)) ∧
      (f = l → v'.Holds m' (xs.take f ++ (xs.drop f).map MoveAssign.self_move))) ∧
    (∃ v0 m0 v4 m4 it, ctor_range [0, 1, 99, 2, 3, 4] ([] : Mem Nat) = some (v0, m0) ∧
      v0.erase_range (v0.begin_.add 1) (v0.begin_.add 3) m0 = some ((v4, m4), it) ∧
      v4.toList m4 = [some 0, some 2, some 3, some 4] ∧ v4.size = 4) := by
  constructor
  · obtain ⟨v', m', e1, e2, e3, e4, _, _⟩ := erase_range_spec v m xs f l h hf hl
    obtain ⟨hsz, _⟩ := size_of_holds v m xs h
    simp only [size] at hl
    refine ⟨v', m', _, e1, e3, e4, rfl, ?_, ?_⟩
    · intro hmove
      have hcont : (if f = l then (xs.drop l).map MoveAssign.self_move else xs.drop l) =
          xs.drop l := by
        by_cases hfl : f = l
        · rw [if_pos hfl]
          rcases hmove with hlt | hid
          · omega
          · conv_rhs => rw [← List.map_id (xs.drop l)]
            exact List.map_congr_left (fun x hx => hid x hx)
        · rw [if_neg hfl]
      rw [hcont] at e2
      refine ⟨e2.2.2.2, e2, ?_⟩
      intro hlt
      simp only [size] at hlt
      rw [index_of_holds v' m' _ f e2 (by omega), index_of_holds v m xs l h hlt,
        getElem?_cut xs f l f hf (by omega)]
      simp only [Nat.lt_irrefl, if_false]
      congr 1; omega
    · intro hfl
      subst hfl
      rw [if_pos rfl] at e2
      exact e2
  · exact ⟨⟨some 0, 6, 6⟩, [some [some 0, some 1, some 99, some 2, some 3, some 4]],
      ⟨some 0, 4, 6⟩, [some [some 0, some 2, some 3, some 4, none, none]], ⟨some 0, 1⟩,
      by decide, rfl, by decide, rfl⟩

/-- Instance of C3: erasing the middle element of `[7,8,9]`. -/
theorem C3_erase_range_witness :
    Holds ⟨some 0, 3, 3⟩ ([some [some 7, some 8, some 9]] : Mem Nat) [7, 8, 9] ∧
    ∃ v' m' it, erase_range ⟨some 0, 3, 3⟩ ((begin_ ⟨some 0, 3, 3⟩).add 1)
        ((begin_ ⟨some 0, 3, 3⟩).add 2) ([some [some 7, some 8, some 9]] : Mem Nat) =
        some ((v', m'), it) ∧
      v'.toList m' = [some 7, some 9] :=
  ⟨by decide, by
    obtain ⟨⟨v', m', it, e1, _, _, _, e2, _⟩, _⟩ :=
      C3_erase_range ⟨some 0, 3, 3⟩ ([some [some 7, some 8, some 9]] : Mem Nat) [7, 8, 9] 1 2
        (by decide) (by decide) (by decide)
    exact ⟨v', m', it, e1, by rw [(e2 (Or.inl (by decide))).1]; decide⟩⟩

end Vector

end MiniSTL
namespace MiniSTL

namespace Vector

variable {T : Type}

/-- C7: `at(i)` throws `out_of_range` exactly when `i >= size()`; for `i < size()` it yields
what `operator[](i)` yields, which on a well-formed vector is the element stored at index `i`.
`at` is a pure read: it produces no new vector state or store. -/
theorem C7_at_checked (v : Vector) (m : Mem T) (i : Nat) :
    (v.at_ i m = Except.error Exception.out_of_range ↔ i ≥ v.size) ∧
    (i < v.size → v.at_ i m = Except.ok (v.index i m)) ∧
    (∀ xs, v.Holds m xs → i < v.size →
      ∃ x, xs[i]? = some x ∧ v.at_ i m = Except.ok (some x)) := by
  refine ⟨?_, ?_, ?_⟩
  · by_cases h : i ≥ v.m_size
    · simp [at_, size, h]
    · simp [at_, size, h]
  · intro h
    have : ¬ i ≥ v.m_size := by simp only [size] at h; omega
    simp [at_, index, this]
  · intro xs hx h
    simp only [size] at h
    have hlt : i < xs.length := by rw [← (size_of_holds v m xs hx).1]; exact h
    have hne : ¬ i ≥ v.m_size := by omega
    refine ⟨xs[i], List.getElem?_eq_getElem hlt, ?_⟩
    have := index_of_holds v m xs i hx h
    rw [List.getElem?_eq_getElem hlt] at this
    simp only [at_, hne, if_false]
    rw [← this]; rfl

/-- Instance of C7 on `[7, 8]`: index 1 is read, index 2 throws. -/
theorem C7_at_checked_witness :
    at_ ⟨some 0, 2, 2⟩ 1 ([some [some 7, some 8]] : Mem Nat) = Except.ok (some 8) ∧
    at_ ⟨some 0, 2, 2⟩ 2 ([some [some 7, some 8]] : Mem Nat) =
      Except.error Exception.out_of_range := by
  constructor
  · obtain ⟨x, h1, h2⟩ := (C7_at_checked ⟨some 0, 2, 2⟩
      ([some [some 7, some 8]] : Mem Nat) 1).2.2 [7, 8] (by decide) (by decide)
    have : x = 8 := by simpa using h1.symm
    rw [h2, this]
  · exact (C7_at_checked ⟨some 0, 2, 2⟩ ([some [some 7, some 8]] : Mem Nat) 2).1.mpr
      (by decide)

theorem reserve_grow_holds (v : Vector) (m : Mem T) (xs : List T) (n : Nat)
    (h : v.Holds m xs) (hn : v.m_cap < n) :
    ∃ v' m', v.reserve n m = some (v', m') ∧ v'.Holds m' xs ∧ v'.m_cap = n ∧
      v'.m_size = v.m_size ∧ v'.m_data = some m.length ∧
      (∀ q, q ≠ some m.length → q ≠ v.m_data → m'.block q = m.block q) := by
  obtain ⟨hsz, hcap⟩ := size_of_holds v m xs h
  obtain ⟨m', e1, e2, _, e4⟩ := reserve_grow v m xs n h hn
  refine ⟨_, m', e1, ?_, rfl, rfl, rfl, e4⟩
  apply holds_of_block { v with m_data := some m.length, m_cap := n } m' xs _ e2
  · simp; omega
  · exact hsz
  · simp only; omega
  · intro i hi
    simp only at hi
    have hlt : i < xs.length := by omega
    simp [List.getElem?_append_left, hlt]

/-- C8: on a vector with `size() <= capacity()` holding `xs`, `reserve(n)` with
`n <= capacity()` changes nothing, and with `n > capacity()` it returns with capacity exactly
`n`, the size unchanged and the same elements in the same order. -/
theorem C8_reserve (v : Vector) (m : Mem T) (xs : List T) (n : Nat) (h : v.Holds m xs) :
    (n ≤ v.capacity → v.reserve n m = some (v, m)) ∧
    (v.capacity < n → ∃ v' m', v.reserve n m = some (v', m') ∧
      v'.capacity = n ∧ v'.size = v.size ∧ v'.toList m' = v.toList m ∧ v'.Holds m' xs) := by
  constructor
  · intro hn; exact reserve_noop v m n hn
  · intro hn
    obtain ⟨v', m', e1, e2, e3, e4, _⟩ := reserve_grow_holds v m xs n h hn
    exact ⟨v', m', e1, e3, e4, by rw [e2.2.2.2, h.2.2.2], e2⟩

/-- Instance of C8: reserving 4 slots for the full vector `[7, 8]`. -/
theorem C8_reserve_witness :
    Holds ⟨some 0, 2, 2⟩ ([some [some 7, some 8]] : Mem Nat) [7, 8] ∧
    ∃ v' m', reserve ⟨some 0, 2, 2⟩ 4 ([some [some 7, some 8]] : Mem Nat) = some (v', m') ∧
      v'.capacity = 4 ∧ v'.toList m' = [some 7, some 8] :=
  ⟨by decide, by
    obtain ⟨v', m', e1, e2, _, e3, _⟩ :=
      (C8_reserve ⟨some 0, 2, 2⟩ ([some [some 7, some 8]] : Mem Nat) [7, 8] 4
        (by decide)).2 (by decide)
    exact ⟨v', m', e1, e2, by rw [e3]; decide⟩⟩

theorem holds_ctor (m : Mem T) : (ctor : Vector).Holds m [] := by
  refine ⟨Nat.le_refl _, fun _ => rfl, fun h => absurd rfl h, ?_⟩
  simp [toList, ctor]

theorem count_growths_full (ys : List T) :
    ∀ (v : Vector) (m : Mem T) (xs : List T), v.Holds m xs → v.m_size = v.m_cap →
      count_growths ys (v, m) = some ys.length := by
  induction ys with
  | nil => intro v m xs _ _; rfl
  | cons y rest ih =>
    intro v m xs h hfull
    obtain ⟨v', m', e1, e2, e3, e4, _⟩ := push_back_spec v m xs (.temp y) y h (Or.inl rfl)
    have hfull' : v'.m_size = v'.m_cap := by rw [e3, e4]; omega
    have hne : v'.m_cap ≠ v.m_cap := by rw [e4]; omega
    simp [count_growths, e1, ih v' m' _ e2 hfull', hne]

/-- C9 fails as stated: a `push_back` on the full vector `[3, 4]` of capacity 2 has to
increase the capacity, and the new capacity is 3, which is below `2 * 2`. -/
theorem C9_growth_counterexample :
    Holds ⟨some 0, 2, 2⟩ ([some [some 3, some 4]] : Mem Nat) [3, 4] ∧
    ∃ v' m', push_back ⟨some 0, 2, 2⟩ (Ref.temp 5) ([some [some 3, some 4]] : Mem Nat) =
        some (v', m') ∧
      capacity ⟨some 0, 2, 2⟩ ≠ 0 ∧ capacity ⟨some 0, 2, 2⟩ < v'.capacity ∧
      ¬ (2 * capacity ⟨some 0, 2, 2⟩ ≤ v'.capacity) :=
  ⟨by decide, ⟨some 1, 3, 3⟩, [none, some [some 3, some 4, some 5]],
    by decide, by decide, by decide, by decide⟩

/-- C9 as amended: when a `push_back` on a vector with `size() <= capacity()` must increase
the capacity (`size() + 1 > capacity()`), the new capacity is exactly `size() + 1`, one more
than the old capacity; and appending `n` elements one by one to an empty vector changes the
capacity at every one of the `n` calls. -/
theorem C9_growth_by_one (v : Vector) (m : Mem T) (xs : List T) (x : T)
    (h : v.Holds m xs) (hfull : v.capacity < v.size + 1) :
    (∃ v' m', v.push_back (.temp x) m = some (v', m') ∧
      v'.capacity = v.size + 1 ∧ v'.capacity = v.capacity + 1) ∧
    (∀ (ys : List T) (m0 : Mem T), count_growths ys (ctor, m0) = some ys.length) := by
  constructor
  · obtain ⟨v', m', e1, _, _, e4, _⟩ := push_back_spec v m xs (.temp x) x h (Or.inl rfl)
    obtain ⟨_, hcap⟩ := size_of_holds v m xs h
    simp only [capacity, size] at hfull ⊢
    exact ⟨v', m', e1, by rw [e4]; omega, by rw [e4]; omega⟩
  · intro ys m0
    exact count_growths_full ys ctor m0 [] (holds_ctor m0) rfl

/-- Instance of the amended C9 on the full vector `[3, 4]`. -/
theorem C9_growth_by_one_witness :
    Holds ⟨some 0, 2, 2⟩ ([some [some 3, some 4]] : Mem Nat) [3, 4] ∧
    capacity ⟨some 0, 2, 2⟩ < size ⟨some 0, 2, 2⟩ + 1 ∧
    ∃ v' m', push_back ⟨some 0, 2, 2⟩ (Ref.temp 5) ([some [some 3, some 4]] : Mem Nat) =
        some (v', m') ∧
      v'.capacity = 3 :=
  ⟨by decide, by decide, by
    obtain ⟨⟨v', m', e1, e2, _⟩, _⟩ :=
      C9_growth_by_one ⟨some 0, 2, 2⟩ ([some [some 3, some 4]] : Mem Nat) [3, 4] 5
        (by decide) (by decide)
    exact ⟨v', m', e1, e2⟩⟩

end Vector

end MiniSTL
namespace MiniSTL

namespace NodeMem

variable {T : Type}

theorem node_set (m : NodeMem T) (p c : Nat) (n : ListBaseNode T) (x : Option (ListBaseNode T))
    (h : m.node p = some n) :
    NodeMem.node (m.set p x) c = if c = p then x else m.node c :=
  getD_set_of_live m p c n x h

theorem live_iff (m : NodeMem T) (p : Nat) :
    (m.node p).isSome = true ↔ ∃ n, m.node p = some n := by
  cases h : m.node p <;> simp

/-- Effect of `p->m_next = q` on the three fields of every node. -/
theorem set_next_spec (m : NodeMem T) (p q : Nat) (h : (m.node p).isSome = true) :
    ∃ m', m.set_next p q = some m' ∧
      (∀ c, m'.next c = if c = p then some q else m.next c) ∧
      (∀ c, m'.prev c = m.prev c) ∧ (∀ c, m'.value c = m.value c) ∧
      (∀ c, (m'.node c).isSome = (m.node c).isSome) := by
  obtain ⟨n, hn⟩ := (live_iff m p).mp h
  refine ⟨m.set p (some { n with m_next := some q }), by simp [set_next, hn], ?_, ?_, ?_, ?_⟩
  all_goals
    intro c
    by_cases hc : c = p
    · subst hc; simp [next, prev, value, node_set m c c n _ hn, hn]
    · simp [next, prev, value, node_set m p c n _ hn, hc]

/-- Effect of `p->m_prev = q` on the three fields of every node. -/
theorem set_prev_spec (m : NodeMem T) (p q : Nat) (h : (m.node p).isSome = true) :
    ∃ m', m.set_prev p q = some m' ∧
      (∀ c, m'.next c = m.next c) ∧
      (∀ c, m'.prev c = if c = p then some q else m.prev c) ∧
      (∀ c, m'.value c = m.value c) ∧
      (∀ c, (m'.node c).isSome = (m.node c).isSome) := by
  obtain ⟨n, hn⟩ := (live_iff m p).mp h
  refine ⟨m.set p (some { n with m_prev := some q }), by simp [set_prev, hn], ?_, ?_, ?_, ?_⟩
  all_goals
    intro c
    by_cases hc : c = p
    · subst hc; simp [next, prev, value, node_set m c c n _ hn, hn]
    · simp [next, prev, value, node_set m p c n _ hn, hc]

/-- Effect of constructing the value of node `p` on the three fields of every node. -/
theorem construct_value_spec (m : NodeMem T) (p : Nat) (x : T)
    (h : (m.node p).isSome = true) :
    ∃ m', m.construct_value p x = some m' ∧
      (∀ c, m'.next c = m.next c) ∧ (∀ c, m'.prev c = m.prev c) ∧
      (∀ c, m'.value c = if c = p then some x else m.value c) ∧
      (∀ c, (m'.node c).isSome = (m.node c).isSome) := by
  obtain ⟨n, hn⟩ := (live_iff m p).mp h
  refine ⟨m.set p (some { n with m_value := some x }), by simp [construct_value, hn],
    ?_, ?_, ?_, ?_⟩
  all_goals
    intro c
    by_cases hc : c = p
    · subst hc; simp [next, prev, value, node_set m c c n _ hn, hn]
    · simp [next, prev, value, node_set m p c n _ hn, hc]

/-- Effect of `newNode()`: the address `m.length` was not live and now is; its fields are
indeterminate; every other node is untouched. -/
theorem newNode_spec (m : NodeMem T) :
    m.newNode.1 = m.length ∧ m.node m.length = none ∧
    (m.newNode.2.node m.length).isSome = true ∧
    (∀ c, c ≠ m.length → m.newNode.2.node c = m.node c) := by
  refine ⟨rfl, ?_, ?_, ?_⟩
  · simp [node, List.getD_eq_getElem?_getD]
  · show ((m ++ [some _]).getD m.length none).isSome = true
    rw [getD_append_one]; simp
  · intro c hc
    show (m ++ [some _]).getD c none = m.getD c none
    rw [getD_append_one]; simp only [hc, if_false]

theorem live_of_next (m : NodeMem T) (p q : Nat) (h : m.next p = some q) :
    (m.node p).isSome = true := by
  cases hn : m.node p with
  | none => simp [next, hn] at h
  | some n => rfl

theorem live_of_prev (m : NodeMem T) (p q : Nat) (h : m.prev p = some q) :
    (m.node p).isSome = true := by
  cases hn : m.node p with
  | none => simp [prev, hn] at h
  | some n => rfl

theorem next_congr (m m' : NodeMem T) (c : Nat) (h : m'.node c = m.node c) :
    m'.next c = m.next c ∧ m'.prev c = m.prev c ∧ m'.value c = m.value c := by
  simp [next, prev, value, h]

end NodeMem

end MiniSTL
namespace MiniSTL

namespace NodeList

variable {T : Type}

theorem linked_cons_cons (m : NodeMem T) (a b : Nat) (r : List Nat) :
    Linked m (a :: b :: r) ↔ Link m a b ∧ Linked m (b :: r) := Iff.rfl

theorem linked_concat (m : NodeMem T) (a z : Nat) :
    ∀ l : List Nat, Linked m (l ++ [a, z]) ↔ Linked m (l ++ [a]) ∧ Link m a z
  | [] => by simp [Linked]
  | [x] => by
    show (Link m x a ∧ Link m a z ∧ True) ↔ (Link m x a ∧ True) ∧ Link m a z
    tauto
  | x :: y :: r => by
    have ih := linked_concat m a z (y :: r)
    show (Link m x y ∧ Linked m (y :: r ++ [a, z])) ↔
      (Link m x y ∧ Linked m (y :: r ++ [a])) ∧ Link m a z
    rw [ih]; tauto

/-- A chain stays linked when the `m_next` of its non-final nodes and the `m_prev` of its
non-initial nodes are not changed. -/
theorem linked_frame (m m' : NodeMem T) :
    ∀ l : List Nat, (∀ a ∈ l.dropLast, m'.next a = m.next a) →
      (∀ b ∈ l.tail, m'.prev b = m.prev b) → Linked m l → Linked m' l
  | [] => fun _ _ _ => trivial
  | [_] => fun _ _ _ => trivial
  | x :: y :: r => by
    intro h1 h2 h
    obtain ⟨⟨hn, hp⟩, hr⟩ := (linked_cons_cons m x y r).mp h
    refine (linked_cons_cons m' x y r).mpr ⟨⟨?_, ?_⟩, ?_⟩
    · rw [h1 x (by simp [List.dropLast])]; exact hn
    · rw [h2 y (by simp)]; exact hp
    · apply linked_frame m m' (y :: r) _ _ hr
      · intro a ha; exact h1 a (by simp [List.dropLast]; right; exact ha)
      · intro b hb; exact h2 b (by simp at hb ⊢; right; exact hb)

theorem linked_next (m : NodeMem T) (z : Nat) :
    ∀ l : List Nat, Linked m (l ++ [z]) → ∀ a ∈ l, ∃ b, m.next a = some b
  | [] => fun _ a ha => by simp at ha
  | [x] => by
    intro h a ha
    simp only [List.mem_singleton] at ha
    subst ha
    exact ⟨z, h.1.1⟩
  | x :: y :: r => by
    intro h a ha
    obtain ⟨⟨hn, _⟩, hr⟩ := (linked_cons_cons m x y (r ++ [z])).mp h
    rcases List.mem_cons.mp ha with e | e
    · subst e; exact ⟨y, hn⟩
    · exact linked_next m z (y :: r) hr a e

theorem linked_live (m : NodeMem T) (z : Nat) (l : List Nat) (h : Linked m (l ++ [z]))
    (a : Nat) (ha : a ∈ l) : (m.node a).isSome = true := by
  obtain ⟨b, hb⟩ := linked_next m z l h a ha
  exact NodeMem.live_of_next m a b hb

theorem map_value_congr (m m' : NodeMem T) (l : List Nat)
    (h : ∀ p ∈ l, m'.value p = m.value p) :
    l.map (fun p => m'.value p) = l.map (fun p => m.value p) :=
  List.map_congr_left h

end NodeList

end MiniSTL
namespace MiniSTL

namespace NodeList

variable {T : Type}

theorem fresh_of_live (m : NodeMem T) (a : Nat) (h : (m.node a).isSome = true) :
    a ≠ m.length := by
  intro e
  rw [e, (NodeMem.newNode_spec m).2.1] at h
  simp at h

/-- Source `emplace_back(val)` on a well-formed list: the new node at the fresh address `m.length`
is linked in after the old last node, every other node keeps its address and value. -/
theorem emplace_back_spec (l : NodeList) (m : NodeMem T) (ns : List Nat) (xs : List T)
    (val : T) (h : l.Holds m ns xs) :
    ∃ m', l.emplace_back val m = some ({ l with m_size := l.m_size + 1 }, m') ∧
      Holds { l with m_size := l.m_size + 1 } m' (ns ++ [m.length]) (xs ++ [val]) ∧
      m.length ∉ l.m_dummy :: ns ∧
      (∀ p, (m.node p).isSome = true → m'.value p = m.value p ∧
        (m'.node p).isSome = true) := by
  obtain ⟨hnd, hlk, hval, hsz⟩ := h
  obtain ⟨c0, pl, hc⟩ : ∃ c0 pl, l.m_dummy :: ns = c0 ++ [pl] :=
    ⟨(l.m_dummy :: ns).dropLast, (l.m_dummy :: ns).getLast (by simp),
      (List.dropLast_append_getLast (by simp)).symm⟩
  have hlk' : Linked m (c0 ++ [pl, l.m_dummy]) := by
    have : l.m_dummy :: ns ++ [l.m_dummy] = c0 ++ [pl, l.m_dummy] := by
      rw [hc]; simp
    rw [← this]; exact hlk
  obtain ⟨hlk0, hlast⟩ := (linked_concat m pl l.m_dummy c0).mp hlk'
  have hlive : ∀ a ∈ l.m_dummy :: ns, (m.node a).isSome = true :=
    fun a ha => linked_live m l.m_dummy (l.m_dummy :: ns) hlk a ha
  have hfresh : ∀ a ∈ l.m_dummy :: ns, a ≠ m.length :=
    fun a ha => fresh_of_live m a (hlive a ha)
  have hd : l.m_dummy ≠ m.length := hfresh _ (by simp)
  have hplmem : pl ∈ l.m_dummy :: ns := by rw [hc]; simp
  have hpl : pl ≠ m.length := hfresh _ hplmem
  obtain ⟨n1, _, n2, n3⟩ := NodeMem.newNode_spec m
  have hv0 : ∀ c, c ≠ m.length → m.newNode.2.next c = m.next c ∧
      m.newNode.2.prev c = m.prev c ∧ m.newNode.2.value c = m.value c :=
    fun c hcn => NodeMem.next_congr m m.newNode.2 c (n3 c hcn)
  have hl0 : ∀ c, (m.node c).isSome = true → (m.newNode.2.node c).isSome = true := by
    intro c hcl
    rw [n3 c (fresh_of_live m c hcl)]; exact hcl
  obtain ⟨m1, e1, a1, b1, c1, d1⟩ := NodeMem.set_next_spec m.newNode.2 pl m.length
    (hl0 pl (hlive pl hplmem))
  obtain ⟨m2, e2, a2, b2, c2, d2⟩ := NodeMem.set_prev_spec m1 m.length pl
    (by rw [d1]; exact n2)
  obtain ⟨m3, e3, a3, b3, c3, d3⟩ := NodeMem.set_next_spec m2 m.length l.m_dummy
    (by rw [d2, d1]; exact n2)
  obtain ⟨m4, e4, a4, b4, c4, d4⟩ := NodeMem.construct_value_spec m3 m.length val
    (by rw [d3, d2, d1]; exact n2)
  obtain ⟨m5, e5, a5, b5, c5, d5⟩ := NodeMem.set_prev_spec m4 l.m_dummy m.length
    (by rw [d4, d3, d2, d1]; exact hl0 _ (hlive _ (by simp)))
  have hnext : ∀ c, m5.next c = if c = m.length then some l.m_dummy
      else if c = pl then some m.length else m.newNode.2.next c := by
    intro c; rw [a5, a4, a3, a2, a1]
  have hprev : ∀ c, m5.prev c = if c = l.m_dummy then some m.length
      else if c = m.length then some pl else m.newNode.2.prev c := by
    intro c; rw [b5, b4, b3, b2, b1]
  have hvalue : ∀ c, m5.value c = if c = m.length then some val
      else m.newNode.2.value c := by
    intro c; rw [c5, c4, c3, c2, c1]
  have hprevd : m.newNode.2.prev l.m_dummy = some pl := by
    rw [(hv0 _ hd).2.1]; exact hlast.2
  refine ⟨m5, ?_, ⟨?_, ?_, ?_, ?_⟩, ?_, ?_⟩
  · simp [emplace_back, n1, hprevd, e1, e2, e3, e4, e5]
  · have : l.m_dummy :: (ns ++ [m.length]) = (l.m_dummy :: ns) ++ [m.length] := rfl
    show (l.m_dummy :: (ns ++ [m.length])).Nodup
    rw [this]
    apply List.Nodup.append hnd (List.nodup_singleton _)
    intro a ha hb
    simp only [List.mem_singleton] at hb
    exact hfresh a ha hb
  · show Linked m5 (l.m_dummy :: (ns ++ [m.length]) ++ [l.m_dummy])
    have : l.m_dummy :: (ns ++ [m.length]) ++ [l.m_dummy] =
        (c0 ++ [pl]) ++ [m.length, l.m_dummy] := by
      rw [← hc]; simp
    rw [this]
    rw [linked_concat m5 m.length l.m_dummy (c0 ++ [pl])]
    have : c0 ++ [pl] ++ [m.length] = c0 ++ [pl, m.length] := by simp
    rw [this, linked_concat m5 pl m.length c0]
    refine ⟨⟨?_, ?_, ?_⟩, ?_, ?_⟩
    · apply linked_frame m m5 (c0 ++ [pl]) _ _ hlk0
      · intro a ha
        rw [List.dropLast_concat] at ha
        have hmem : a ∈ l.m_dummy :: ns := by rw [hc]; simp [ha]
        have hne : a ≠ pl := by
          intro e
          have hnd' : (c0 ++ [pl]).Nodup := by rw [← hc]; exact hnd
          rw [List.nodup_append] at hnd'
          exact hnd'.2.2 ha (by simp [e])
        rw [hnext a, if_neg (hfresh a hmem), if_neg hne, (hv0 a (hfresh a hmem)).1]
      · intro b hb
        rw [← hc] at hb
        simp only [List.tail_cons] at hb
        have hmem : b ∈ l.m_dummy :: ns := by simp [hb]
        have hne : b ≠ l.m_dummy := by
          intro e
          rw [List.nodup_cons] at hnd
          exact hnd.1 (e ▸ hb)
        rw [hprev b, if_neg hne, if_neg (hfresh b hmem), (hv0 b (hfresh b hmem)).2.1]
    · rw [hnext pl, if_neg hpl, if_pos rfl]
    · rw [hprev m.length, if_neg (Ne.symm hd), if_pos rfl]
    · rw [hnext m.length, if_pos rfl]
    · rw [hprev l.m_dummy, if_pos rfl]
  · rw [List.map_append, List.map_append, ← hval]
    congr 1
    · apply List.map_congr_left
      intro p hp
      have hmem : p ∈ l.m_dummy :: ns := by simp [hp]
      show m5.value p = m.value p
      rw [hvalue p, if_neg (hfresh p hmem), (hv0 p (hfresh p hmem)).2.2]
    · simp [hvalue]
  · simp [hsz]
  · intro hmem; exact hfresh _ hmem rfl
  · intro p hp
    have hne := fresh_of_live m p hp
    refine ⟨by rw [hvalue p, if_neg hne, (hv0 p hne).2.2], ?_⟩
    rw [d5, d4, d3, d2, d1]; exact hl0 p hp

end NodeList

end MiniSTL
namespace MiniSTL

namespace NodeList

variable {T : Type}

/-- Source `emplace_front(val)` on a well-formed list: the new node at the fresh address `m.length`
is linked in before the old first node, every other node keeps its address and value. -/
theorem emplace_front_spec (l : NodeList) (m : NodeMem T) (ns : List Nat) (xs : List T)
    (val : T) (h : l.Holds m ns xs) :
    ∃ m', l.emplace_front val m = some ({ l with m_size := l.m_size + 1 }, m') ∧
      Holds { l with m_size := l.m_size + 1 } m' (m.length :: ns) (val :: xs) ∧
      m.length ∉ l.m_dummy :: ns ∧
      (∀ p, (m.node p).isSome = true → m'.value p = m.value p ∧
        (m'.node p).isSome = true) := by
  obtain ⟨hnd, hlk, hval, hsz⟩ := h
  obtain ⟨pf, t, ht⟩ : ∃ pf t, ns ++ [l.m_dummy] = pf :: t := by
    cases ns with
    | nil => exact ⟨_, _, rfl⟩
    | cons a r => exact ⟨_, _, rfl⟩
  have hlk' : Linked m (l.m_dummy :: pf :: t) := by
    rw [← ht]; exact hlk
  obtain ⟨hfirst, hlk0⟩ := (linked_cons_cons m l.m_dummy pf t).mp hlk'
  have hlive : ∀ a ∈ l.m_dummy :: ns, (m.node a).isSome = true :=
    fun a ha => linked_live m l.m_dummy (l.m_dummy :: ns) hlk a ha
  have hfresh : ∀ a ∈ l.m_dummy :: ns, a ≠ m.length :=
    fun a ha => fresh_of_live m a (hlive a ha)
  have hd : l.m_dummy ≠ m.length := hfresh _ (by simp)
  have hmem_t : ∀ a, a ∈ pf :: t → a ∈ l.m_dummy :: ns := by
    intro a ha
    rw [← ht] at ha
    simp only [List.mem_append, List.mem_singleton] at ha
    rcases ha with ha | ha
    · simp [ha]
    · simp [ha]
  have hpfmem : pf ∈ l.m_dummy :: ns := hmem_t pf (by simp)
  have hpf : pf ≠ m.length := hfresh _ hpfmem
  have hnd2 : (pf :: t).Nodup := by
    rw [← ht]
    have : (ns ++ [l.m_dummy]).Perm (l.m_dummy :: ns) := List.perm_append_singleton _ _
    exact this.nodup_iff.mpr hnd
  obtain ⟨n1, _, n2, n3⟩ := NodeMem.newNode_spec m
  have hv0 : ∀ c, c ≠ m.length → m.newNode.2.next c = m.next c ∧
      m.newNode.2.prev c = m.prev c ∧ m.newNode.2.value c = m.value c :=
    fun c hcn => NodeMem.next_congr m m.newNode.2 c (n3 c hcn)
  have hl0 : ∀ c, (m.node c).isSome = true → (m.newNode.2.node c).isSome = true := by
    intro c hcl
    rw [n3 c (fresh_of_live m c hcl)]; exact hcl
  obtain ⟨m1, e1, a1, b1, c1, d1⟩ := NodeMem.set_prev_spec m.newNode.2 pf m.length
    (hl0 pf (hlive pf hpfmem))
  obtain ⟨m2, e2, a2, b2, c2, d2⟩ := NodeMem.set_next_spec m1 m.length pf
    (by rw [d1]; exact n2)
  obtain ⟨m3, e3, a3, b3, c3, d3⟩ := NodeMem.set_prev_spec m2 m.length l.m_dummy
    (by rw [d2, d1]; exact n2)
  obtain ⟨m4, e4, a4, b4, c4, d4⟩ := NodeMem.construct_value_spec m3 m.length val
    (by rw [d3, d2, d1]; exact n2)
  obtain ⟨m5, e5, a5, b5, c5, d5⟩ := NodeMem.set_next_spec m4 l.m_dummy m.length
    (by rw [d4, d3, d2, d1]; exact hl0 _ (hlive _ (by simp)))
  have hnext : ∀ c, m5.next c = if c = l.m_dummy then some m.length
      else if c = m.length then some pf else m.newNode.2.next c := by
    intro c; rw [a5, a4, a3, a2, a1]
  have hprev : ∀ c, m5.prev c = if c = m.length then some l.m_dummy
      else if c = pf then some m.length else m.newNode.2.prev c := by
    intro c; rw [b5, b4, b3, b2, b1]
  have hvalue : ∀ c, m5.value c = if c = m.length then some val
      else m.newNode.2.value c := by
    intro c; rw [c5, c4, c3, c2, c1]
  have hnextd : m.newNode.2.next l.m_dummy = some pf := by
    rw [(hv0 _ hd).1]; exact hfirst.1
  refine ⟨m5, ?_, ⟨?_, ?_, ?_, ?_⟩, ?_, ?_⟩
  · simp [emplace_front, n1, hnextd, e1, e2, e3, e4, e5]
  · show (l.m_dummy :: m.length :: ns).Nodup
    have : (l.m_dummy :: m.length :: ns).Perm (m.length :: l.m_dummy :: ns) :=
      List.Perm.swap _ _ _
    rw [this.nodup_iff, List.nodup_cons]
    exact ⟨fun hmem => hfresh _ hmem rfl, hnd⟩
  · show Linked m5 (l.m_dummy :: m.length :: (ns ++ [l.m_dummy]))
    rw [ht, linked_cons_cons, linked_cons_cons]
    refine ⟨⟨?_, ?_⟩, ⟨?_, ?_⟩, ?_⟩
    · rw [hnext l.m_dummy, if_pos rfl]
    · rw [hprev m.length, if_pos rfl]
    · rw [hnext m.length, if_neg (Ne.symm hd), if_pos rfl]
    · rw [hprev pf, if_neg hpf, if_pos rfl]
    · apply linked_frame m m5 (pf :: t) _ _ hlk0
      · intro a ha
        rw [← ht, List.dropLast_concat] at ha
        have hmem : a ∈ l.m_dummy :: ns := by simp [ha]
        have hne : a ≠ l.m_dummy := by
          intro e
          rw [List.nodup_cons] at hnd
          exact hnd.1 (e ▸ ha)
        rw [hnext a, if_neg hne, if_neg (hfresh a hmem), (hv0 a (hfresh a hmem)).1]
      · intro b hb
        simp only [List.tail_cons] at hb
        have hmem : b ∈ l.m_dummy :: ns := hmem_t b (by simp [hb])
        have hne : b ≠ pf := by
          intro e
          rw [List.nodup_cons] at hnd2
          exact hnd2.1 (e ▸ hb)
        rw [hprev b, if_neg (hfresh b hmem), if_neg hne, (hv0 b (hfresh b hmem)).2.1]
  · rw [List.map_cons, List.map_cons, ← hval]
    congr 1
    · simp [hvalue]
    · apply List.map_congr_left
      intro p hp
      have hmem : p ∈ l.m_dummy :: ns := by simp [hp]
      show m5.value p = m.value p
      rw [hvalue p, if_neg (hfresh p hmem), (hv0 p (hfresh p hmem)).2.2]
  · simp [hsz]
  · intro hmem; exact hfresh _ hmem rfl
  · intro p hp
    have hne := fresh_of_live m p hp
    refine ⟨by rw [hvalue p, if_neg hne, (hv0 p hne).2.2], ?_⟩
    rw [d5, d4, d3, d2, d1]; exact hl0 p hp

/-- Walking a linked segment with `++`, reading each value. -/
theorem toList_loop_spec (m : NodeMem T) (d : Nat) :
    ∀ (r : List Nat) (ys : List T) (a c fuel : Nat),
      Linked m (a :: r ++ [d]) → (∀ p ∈ r, p ≠ d) →
      r.map (fun p => m.value p) = ys.map some → r.length ≤ fuel → m.next a = some c →
      toList.loop m { m_curr := d } { m_curr := c } fuel = some ys
  | [], ys, a, c, fuel => by
    intro hlk _ hv _ hn
    have hc : c = d := by
      have := hlk.1.1
      rw [hn] at this
      exact Option.some.inj this
    have hys : ys = [] := by simpa using hv.symm
    subst hc hys
    unfold toList.loop
    simp
  | p :: r, ys, a, c, fuel => by
    intro hlk hne hv hfuel hn
    obtain ⟨⟨hap, _⟩, hr⟩ := (linked_cons_cons m a p (r ++ [d])).mp hlk
    have hc : c = p := by
      rw [hn] at hap
      exact (Option.some.inj hap)
    subst hc
    have hcd : c ≠ d := hne c (by simp)
    obtain ⟨k, hk⟩ : ∃ k, fuel = k + 1 := ⟨fuel - 1, by simp at hfuel; omega⟩
    subst hk
    cases ys with
    | nil => simp at hv
    | cons y ys' =>
      simp only [List.map_cons, List.cons.injEq] at hv
      obtain ⟨c', hc'⟩ := linked_next m d (c :: r) hr c (by simp)
      have ih := toList_loop_spec m d r ys' c c' k hr
        (fun q hq => hne q (by simp [hq])) hv.2 (by simp at hfuel; omega) hc'
      unfold toList.loop
      have hit : ¬ (({ m_curr := c } : iterator) = { m_curr := d }) := by
        intro e; exact hcd (congrArg iterator.m_curr e)
      simp [hit, iterator.deref, iterator.incr, hv.1, hc', ih]

/-- On a well-formed list, iterating from `begin()` to `end()` reads the contents. -/
theorem toList_of_holds (l : NodeList) (m : NodeMem T) (ns : List Nat) (xs : List T)
    (fuel : Nat) (h : l.Holds m ns xs) (hf : ns.length ≤ fuel) :
    l.toList m fuel = some xs := by
  obtain ⟨hnd, hlk, hval, hsz⟩ := h
  obtain ⟨c, hc⟩ := linked_next m l.m_dummy (l.m_dummy :: ns) hlk l.m_dummy (by simp)
  have hne : ∀ p ∈ ns, p ≠ l.m_dummy := by
    intro p hp e
    rw [List.nodup_cons] at hnd
    exact hnd.1 (e ▸ hp)
  have := toList_loop_spec m l.m_dummy ns xs l.m_dummy c fuel hlk hne hval hf hc
  simp [toList, begin_, end_, hc, this]

end NodeList

end MiniSTL
namespace MiniSTL

namespace NodeList

variable {T : Type}

/-- The comparison loop of `operator==` on two linked segments of equal length. -/
theorem eq_loop_spec [DecidableEq T] (m : NodeMem T) (d1 d2 : Nat) :
    ∀ (r1 r2 : List Nat) (ys1 ys2 : List T) (a1 a2 c1 c2 fuel : Nat),
      Linked m (a1 :: r1 ++ [d1]) → Linked m (a2 :: r2 ++ [d2]) →
      (∀ p ∈ r1, p ≠ d1) → (∀ p ∈ r2, p ≠ d2) →
      r1.map (fun p => m.value p) = ys1.map some →
      r2.map (fun p => m.value p) = ys2.map some →
      r1.length = r2.length → r1.length ≤ fuel →
      m.next a1 = some c1 → m.next a2 = some c2 →
      eq.loop { m_curr := d1 } { m_curr := d2 } m { m_curr := c1 } { m_curr := c2 } fuel =
        some (decide (ys1 = ys2))
  | [], r2, ys1, ys2, a1, a2, c1, c2, fuel => by
    intro hlk1 _ _ _ hv1 hv2 hlen _ hn1 _
    have hr2 : r2 = [] := List.length_eq_zero.mp hlen.symm
    subst hr2
    have hc : c1 = d1 := by
      have := hlk1.1.1
      rw [hn1] at this
      exact Option.some.inj this
    have hys1 : ys1 = [] := by simpa using hv1.symm
    have hys2 : ys2 = [] := by simpa using hv2.symm
    subst hc hys1 hys2
    unfold eq.loop
    simp
  | p1 :: r1, [], ys1, ys2, a1, a2, c1, c2, fuel => by
    intro _ _ _ _ _ _ hlen
    simp at hlen
  | p1 :: r1, p2 :: r2, ys1, ys2, a1, a2, c1, c2, fuel => by
    intro hlk1 hlk2 hne1 hne2 hv1 hv2 hlen hfuel hn1 hn2
    obtain ⟨⟨hap1, _⟩, hr1⟩ := (linked_cons_cons m a1 p1 (r1 ++ [d1])).mp hlk1
    obtain ⟨⟨hap2, _⟩, hr2⟩ := (linked_cons_cons m a2 p2 (r2 ++ [d2])).mp hlk2
    have hc1 : c1 = p1 := by rw [hn1] at hap1; exact Option.some.inj hap1
    have hc2 : c2 = p2 := by rw [hn2] at hap2; exact Option.some.inj hap2
    subst hc1 hc2
    have hcd1 : c1 ≠ d1 := hne1 c1 (by simp)
    have hcd2 : c2 ≠ d2 := hne2 c2 (by simp)
    obtain ⟨k, hk⟩ : ∃ k, fuel = k + 1 := ⟨fuel - 1, by simp at hfuel; omega⟩
    subst hk
    cases ys1 with
    | nil => simp at hv1
    | cons y1 ys1' =>
      cases ys2 with
      | nil => simp at hv2
      | cons y2 ys2' =>
        simp only [List.map_cons, List.cons.injEq] at hv1 hv2
        obtain ⟨c1', hc1'⟩ := linked_next m d1 (c1 :: r1) hr1 c1 (by simp)
        obtain ⟨c2', hc2'⟩ := linked_next m d2 (c2 :: r2) hr2 c2 (by simp)
        have ih := eq_loop_spec m d1 d2 r1 r2 ys1' ys2' c1 c2 c1' c2' k hr1 hr2
          (fun q hq => hne1 q (by simp [hq])) (fun q hq => hne2 q (by simp [hq]))
          hv1.2 hv2.2 (by simpa using hlen) (by simp at hfuel; omega) hc1' hc2'
        have hit1 : ¬ (({ m_curr := c1 } : iterator) = { m_curr := d1 }) := by
          intro e; exact hcd1 (congrArg iterator.m_curr e)
        have hit2 : ¬ (({ m_curr := c2 } : iterator) = { m_curr := d2 }) := by
          intro e; exact hcd2 (congrArg iterator.m_curr e)
        unfold eq.loop
        by_cases hy : y1 = y2
        · subst hy
          simp [hit1, hit2, iterator.deref, iterator.post_incr, iterator.incr, hv1.1, hv2.1,
            hc1', hc2', ih]
        · simp [hit1, hit2, iterator.deref, hv1.1, hv2.1, hy]

/-- Source `operator==` on two well-formed lists returns whether the contents are equal. -/
theorem eq_spec [DecidableEq T] (l1 l2 : NodeList) (m : NodeMem T) (ns1 ns2 : List Nat)
    (xs1 xs2 : List T) (fuel : Nat) (h1 : l1.Holds m ns1 xs1) (h2 : l2.Holds m ns2 xs2)
    (hf : l1.m_size ≤ fuel) : l1.eq l2 m fuel = some (decide (xs1 = xs2)) := by
  obtain ⟨hnd1, hlk1, hval1, hsz1⟩ := h1
  obtain ⟨hnd2, hlk2, hval2, hsz2⟩ := h2
  have hl1 : xs1.length = ns1.length := by
    have := congrArg List.length hval1; simpa using this.symm
  have hl2 : xs2.length = ns2.length := by
    have := congrArg List.length hval2; simpa using this.symm
  by_cases hs : l1.m_size = l2.m_size
  · obtain ⟨c1, hc1⟩ := linked_next m l1.m_dummy (l1.m_dummy :: ns1) hlk1 l1.m_dummy (by simp)
    obtain ⟨c2, hc2⟩ := linked_next m l2.m_dummy (l2.m_dummy :: ns2) hlk2 l2.m_dummy (by simp)
    have hne1 : ∀ p ∈ ns1, p ≠ l1.m_dummy := by
      intro p hp e
      rw [List.nodup_cons] at hnd1
      exact hnd1.1 (e ▸ hp)
    have hne2 : ∀ p ∈ ns2, p ≠ l2.m_dummy := by
      intro p hp e
      rw [List.nodup_cons] at hnd2
      exact hnd2.1 (e ▸ hp)
    have := eq_loop_spec m l1.m_dummy l2.m_dummy ns1 ns2 xs1 xs2 l1.m_dummy l2.m_dummy c1 c2
      fuel hlk1 hlk2 hne1 hne2 hval1 hval2 (by omega) (by omega) hc1 hc2
    simp [eq, hs, hc1, hc2, this]
  · have hne : xs1 ≠ xs2 := by
      intro e
      apply hs
      rw [hsz1, hsz2, ← hl1, ← hl2, e]
    simp [eq, hs, hne]

theorem holds_length (l : NodeList) (m : NodeMem T) (ns : List Nat) (xs : List T)
    (h : l.Holds m ns xs) : xs.length = l.m_size := by
  obtain ⟨_, _, hval, hsz⟩ := h
  have := congrArg List.length hval
  simp at this
  omega

end NodeList

end MiniSTL
namespace MiniSTL

namespace NodeList

variable {T : Type}

/-- C4 (the code departs from the claim): `remove(val)` starts with
`first = begin(); last = begin();`, so its loop body never runs: for every list, value and
iteration bound it returns 0 and leaves the list and the node store as they were.  On
`[0,1,2,1]`, `remove(1)` returns 0 and the contents are still `[0,1,2,1]`. -/
theorem C4_remove_erases_nothing [DecidableEq T] (l : NodeList) (m : NodeMem T) (val : T)
    (fuel : Nat) :
    l.remove val m fuel = (l.begin_ m).map (fun _ => (0, l, m)) ∧
    (∀ ns xs, l.Holds m ns xs → l.remove val m fuel = some (0, l, m)) ∧
    (∃ (l4 : NodeList) (m4 : NodeMem Nat), of_list [0, 1, 2, 1] [] = some (l4, m4) ∧
      l4.toList m4 4 = some [0, 1, 2, 1] ∧ l4.remove 1 m4 4 = some (0, l4, m4)) := by
  have key : l.remove val m fuel = (l.begin_ m).map (fun _ => (0, l, m)) := by
    unfold remove
    cases hb : l.begin_ m with
    | none => rfl
    | some it =>
      simp only [Option.some_bind, Option.map_some']
      unfold remove.loop
      simp
  refine ⟨key, ?_, ⟨0, 4⟩,
    [some ⟨some 1, some 4, none⟩, some ⟨some 2, some 0, some 0⟩,
     some ⟨some 3, some 1, some 1⟩, some ⟨some 4, some 2, some 2⟩,
     some ⟨some 0, some 3, some 1⟩], by decide, by decide, by decide⟩
  intro ns xs h
  obtain ⟨c, hc⟩ := linked_next m l.m_dummy (l.m_dummy :: ns) h.2.1 l.m_dummy (by simp)
  rw [key]
  simp [begin_, hc]

/-- C5: on a well-formed list with contents `xs` at the node addresses `ns`, `push_back(v)`
and `push_front(v)` return; the contents become `xs ++ [v]`, respectively `[v] ++ xs`; the size
grows by one; the old nodes keep their addresses, order and values, the one new node being at
a fresh address.  `push_front 1, push_back 2, push_front 0` on an empty list gives the
front-to-back order `[0,1,2]`. -/
theorem C5_push_back_push_front (l : NodeList) (m : NodeMem T) (ns : List Nat) (xs : List T)
    (v : T) (h : l.Holds m ns xs) :
    (∃ l' m', l.push_back v m = some (l', m') ∧
      l'.Holds m' (ns ++ [m.length]) (xs ++ [v]) ∧
      (∀ fuel, l'.size ≤ fuel → l'.toList m' fuel = some (xs ++ [v])) ∧
      l'.size = l.size + 1 ∧ l'.m_dummy = l.m_dummy ∧ m.length ∉ l.m_dummy :: ns ∧
      (∀ p ∈ ns, m'.value p = m.value p)) ∧
    (∃ l' m', l.push_front v m = some (l', m') ∧
      l'.Holds m' (m.length :: ns) ([v] ++ xs) ∧
      (∀ fuel, l'.size ≤ fuel → l'.toList m' fuel = some ([v] ++ xs)) ∧
      l'.size = l.size + 1 ∧ l'.m_dummy = l.m_dummy ∧ m.length ∉ l.m_dummy :: ns ∧
      (∀ p ∈ ns, m'.value p = m.value p)) ∧
    (∃ (l0 l1 l2 l3 : NodeList) (m0 m1 m2 m3 : NodeMem Nat), ctor [] = some (l0, m0) ∧
      l0.push_front 1 m0 = some (l1, m1) ∧ l1.push_back 2 m1 = some (l2, m2) ∧
      l2.push_front 0 m2 = some (l3, m3) ∧ l3.toList m3 3 = some [0, 1, 2]) := by
  have hlive : ∀ p ∈ ns, (m.node p).isSome = true :=
    fun p hp => linked_live m l.m_dummy (l.m_dummy :: ns) h.2.1 p (by simp [hp])
  refine ⟨?_, ?_, ⟨0, 0⟩, ⟨0, 1⟩, ⟨0, 2⟩, ⟨0, 3⟩,
    [some ⟨some 0, some 0, none⟩],
    [some ⟨some 1, some 1, none⟩, some ⟨some 0, some 0, some 1⟩],
    [some ⟨some 1, some 2, none⟩, some ⟨some 2, some 0, some 1⟩,
     some ⟨some 0, some 1, some 2⟩],
    [some ⟨some 3, some 2, none⟩, some ⟨some 2, some 3, some 1⟩,
     some ⟨some 0, some 1, some 2⟩, some ⟨some 1, some 0, some 0⟩],
    by decide, by decide, by decide, by decide, by decide⟩
  · obtain ⟨m', e1, e2, e3, e4⟩ := emplace_back_spec l m ns xs v h
    refine ⟨_, m', e1, e2, ?_, rfl, rfl, e3, fun p hp => (e4 p (hlive p hp)).1⟩
    intro fuel hf
    apply toList_of_holds _ m' _ _ fuel e2
    have hlen := e2.2.2.2
    simp only [List.length_append, List.length_cons, List.length_nil] at hlen ⊢
    simp only [size] at hf
    omega
  · obtain ⟨m', e1, e2, e3, e4⟩ := emplace_front_spec l m ns xs v h
    refine ⟨_, m', e1, e2, ?_, rfl, rfl, e3, fun p hp => (e4 p (hlive p hp)).1⟩
    intro fuel hf
    apply toList_of_holds _ m' _ _ fuel e2
    have hlen := e2.2.2.2
    simp only [List.length_append, List.length_cons, List.length_nil] at hlen ⊢
    simp only [size] at hf
    omega

/-- Instance of C5 on the one-element list `[7]`. -/
theorem C5_push_back_push_front_witness :
    Holds ⟨0, 1⟩ ([some ⟨some 1, some 1, none⟩, some ⟨some 0, some 0, some 7⟩] : NodeMem Nat)
      [1] [7] ∧
    ∃ l' m', push_back ⟨0, 1⟩ 9
        ([some ⟨some 1, some 1, none⟩, some ⟨some 0, some 0, some 7⟩] : NodeMem Nat) =
        some (l', m') ∧ l'.toList m' 2 = some [7, 9] :=
  ⟨by decide, by
    obtain ⟨⟨l', m', e1, _, e2, e3, _⟩, _⟩ := C5_push_back_push_front ⟨0, 1⟩
      ([some ⟨some 1, some 1, none⟩, some ⟨some 0, some 0, some 7⟩] : NodeMem Nat) [1] [7] 9
      (by decide)
    exact ⟨l', m', e1, e2 2 (by rw [e3]; decide)⟩⟩

/-- C6: for two well-formed lists, `a == b` returns, and the result is `true` exactly when
the sizes are equal and the elements agree at every position.  `[1,2,3] == [1,2,3]` is true
and `[1,2,3] == [1,2]` is false. -/
theorem C6_list_equality [DecidableEq T] (a b : NodeList) (m : NodeMem T)
    (ns1 ns2 : List Nat) (xs1 xs2 : List T) (fuel : Nat)
    (h1 : a.Holds m ns1 xs1) (h2 : b.Holds m ns2 xs2) (hf : a.size ≤ fuel) :
    (∃ r, a.eq b m fuel = some r ∧
      (r = true ↔ a.size = b.size ∧ ∀ i, i < a.size → xs1[i]? = xs2[i]?)) ∧
    (∃ (x y z : NodeList) (m1 m2 m3 : NodeMem Nat), of_list [1, 2, 3] [] = some (x, m1) ∧
      of_list [1, 2, 3] m1 = some (y, m2) ∧ of_list [1, 2] m2 = some (z, m3) ∧
      x.toList m3 3 = some [1, 2, 3] ∧ y.toList m3 3 = some [1, 2, 3] ∧
      z.toList m3 3 = some [1, 2] ∧
      x.eq y m3 3 = some true ∧ x.eq z m3 3 = some false) := by
  refine ⟨⟨decide (xs1 = xs2), eq_spec a b m ns1 ns2 xs1 xs2 fuel h1 h2 hf, ?_⟩,
    ⟨0, 3⟩, ⟨4, 3⟩, ⟨8, 2⟩,
    [some ⟨some 1, some 3, none⟩, some ⟨some 2, some 0, some 1⟩,
     some ⟨some 3, some 1, some 2⟩, some ⟨some 0, some 2, some 3⟩],
    [some ⟨some 1, some 3, none⟩, some ⟨some 2, some 0, some 1⟩,
     some ⟨some 3, some 1, some 2⟩, some ⟨some 0, some 2, some 3⟩,
     some ⟨some 5, some 7, none⟩, some ⟨some 6, some 4, some 1⟩,
     some ⟨some 7, some 5, some 2⟩, some ⟨some 4, some 6, some 3⟩],
    [some ⟨some 1, some 3, none⟩, some ⟨some 2, some 0, some 1⟩,
     some ⟨some 3, some 1, some 2⟩, some ⟨some 0, some 2, some 3⟩,
     some ⟨some 5, some 7, none⟩, some ⟨some 6, some 4, some 1⟩,
     some ⟨some 7, some 5, some 2⟩, some ⟨some 4, some 6, some 3⟩,
     some ⟨some 9, some 10, none⟩, some ⟨some 10, some 8, some 1⟩,
     some ⟨some 8, some 9, some 2⟩],
    by decide, by decide, by decide, by decide, by decide, by decide, by decide, by decide⟩
  have hl1 := holds_length a m ns1 xs1 h1
  have hl2 := holds_length b m ns2 xs2 h2
  simp only [decide_eq_true_eq, size]
  constructor
  · intro e
    subst e
    exact ⟨by omega, fun _ _ => rfl⟩
  · rintro ⟨hs, hp⟩
    apply List.ext_getElem?
    intro i
    by_cases hi : i < a.m_size
    · exact hp i hi
    · rw [List.getElem?_eq_none (by omega), List.getElem?_eq_none (by omega)]

/-- Instance of C6: the lists `[7]` and `[8]` in one store compare unequal. -/
theorem C6_list_equality_witness :
    Holds ⟨0, 1⟩ ([some ⟨some 1, some 1, none⟩, some ⟨some 0, some 0, some 7⟩,
      some ⟨some 3, some 3, none⟩, some ⟨some 2, some 2, some 8⟩] : NodeMem Nat) [1] [7] ∧
    Holds ⟨2, 1⟩ ([some ⟨some 1, some 1, none⟩, some ⟨some 0, some 0, some 7⟩,
      some ⟨some 3, some 3, none⟩, some ⟨some 2, some 2, some 8⟩] : NodeMem Nat) [3] [8] ∧
    eq ⟨0, 1⟩ ⟨2, 1⟩ ([some ⟨some 1, some 1, none⟩, some ⟨some 0, some 0, some 7⟩,
      some ⟨some 3, some 3, none⟩, some ⟨some 2, some 2, some 8⟩] : NodeMem Nat) 1 =
      some false :=
  ⟨by decide, by decide, by
    obtain ⟨⟨r, e1, e2⟩, _⟩ := C6_list_equality ⟨0, 1⟩ ⟨2, 1⟩
      ([some ⟨some 1, some 1, none⟩, some ⟨some 0, some 0, some 7⟩,
        some ⟨some 3, some 3, none⟩, some ⟨some 2, some 2, some 8⟩] : NodeMem Nat)
      [1] [3] [7] [8] 1 (by decide) (by decide) (by decide)
    rw [e1]
    cases r with
    | false => rfl
    | true =>
      have := (e2.mp rfl).2 0 (by decide)
      simp at this⟩

end NodeList

end MiniSTL
namespace MiniSTL

namespace Mem

variable {T : Type}

/-- The loop of `shrink_to_fit`: each element is constructed in the new block from the old
block, whose slot is destroyed right after. -/
theorem relocate_loop (m : Mem T) (src dst : Option Nat) (bs bd : List (Option T))
    (xs : List T) (n : Nat)
    (hs : m.block src = some bs) (hd : m.block dst = some bd) (hne : src ≠ dst)
    (hn : n = xs.length) (hbd : n ≤ bd.length)
    (hp : ∀ i, i < n → bs[i]? = some xs[i]?) :
    ∃ m' bs' bd', forUp 0 n
        (fun i mm => (mm.read src i).bind fun x =>
          (mm.construct_at dst i x).bind fun mm1 => mm1.destroy_at src i) m = some m' ∧
      m'.block src = some bs' ∧ bs'.length = bs.length ∧
      m'.block dst = some bd' ∧ bd'.length = bd.length ∧
      (∀ i, bd'[i]? = if i < n then some xs[i]? else bd[i]?) ∧
      ∀ q, q ≠ src → q ≠ dst → m'.block q = m.block q := by
  have key := forUp_spec
    (fun i (mm : Mem T) => (mm.read src i).bind fun x =>
      (mm.construct_at dst i x).bind fun mm1 => mm1.destroy_at src i)
    (fun j mm => ∃ bs' bd', mm.block src = some bs' ∧ bs'.length = bs.length ∧
      (∀ i, bs'[i]? = if i < j then some none else bs[i]?) ∧
      mm.block dst = some bd' ∧ bd'.length = bd.length ∧
      (∀ i, bd'[i]? = if i < j then some xs[i]? else bd[i]?) ∧
      ∀ q, q ≠ src → q ≠ dst → mm.block q = m.block q)
    0 n m (Nat.zero_le _)
    ⟨bs, bd, hs, rfl, fun i => by simp, hd, rfl, fun i => by simp, fun _ _ _ => rfl⟩
    (by
      rintro j t _ h2 ⟨bs', bd', s1, s2, s3, d1, d2, d3, hf⟩
      have hlt : j < xs.length := by omega
      have hx : bs'[j]? = some (some xs[j]) := by
        rw [s3 j, if_neg (Nat.lt_irrefl j), hp j h2, List.getElem?_eq_getElem hlt]
      have hr : t.read src j = some xs[j] := read_of_slot t src bs' j _ s1 hx
      obtain ⟨t1, e1, e2, e3⟩ := construct_at_spec t dst bd' j xs[j] d1 (by omega)
      have s1' : t1.block src = some bs' := by rw [e3 src hne]; exact s1
      obtain ⟨t2, g1, g2, g3⟩ := destroy_at_spec t1 src bs' j _ s1' hx
      have hjs : j < bs'.length := by
        by_contra hc
        simp [List.getElem?_eq_none (Nat.le_of_not_lt hc)] at hx
      refine ⟨t2, by simp [hr, e1, g1], bs'.set j none, bd'.set j (some xs[j]), g2,
        by simp [s2], ?_, by rw [g3 dst (Ne.symm hne)]; exact e2, by simp [d2], ?_, ?_⟩
      · intro i
        rw [getElem?_set_slot bs' j i _ hjs, s3 i]
        by_cases hij : i = j
        · subst hij; simp
        · by_cases c : i < j
          · have : i < j + 1 := by omega
            simp [hij, c, this]
          · have : ¬ i < j + 1 := by omega
            simp [hij, c, this]
      · intro i
        rw [getElem?_set_slot bd' j i _ (by omega), d3 i]
        by_cases hij : i = j
        · subst hij; simp [List.getElem?_eq_getElem hlt]
        · by_cases c : i < j
          · have : i < j + 1 := by omega
            simp [hij, c, this]
          · have : ¬ i < j + 1 := by omega
            simp [hij, c, this]
      · intro q hq1 hq2
        rw [g3 q hq1, e3 q hq2, hf q hq1 hq2])
  obtain ⟨m', h1, bs', bd', s1, s2, _, d1, d2, d3, hf⟩ := key
  exact ⟨m', bs', bd', h1, s1, s2, d1, d2, d3, hf⟩

theorem forUp_empty {σ : Type} (lo : Nat) (body : Nat → σ → Option σ) (s : σ) :
    forUp lo lo body s = some s := by
  simp [forUp, forUp.go]

end Mem

namespace Vector

variable {T : Type}

/-- A well-formed vector of capacity 0 has no elements. -/
theorem holds_of_cap_zero (v : Vector) (m : Mem T) (xs : List T) (h : v.Holds m xs)
    (hc : v.m_cap = 0) : xs = [] ∧ v.m_size = 0 := by
  obtain ⟨hsz, hcap⟩ := size_of_holds v m xs h
  exact ⟨List.length_eq_zero.mp (by omega), by omega⟩

/-- Source `clear()` on a well-formed vector. -/
theorem clear_spec (v : Vector) (m : Mem T) (xs : List T) (h : v.Holds m xs) :
    ∃ m', v.clear m = some ({ v with m_size := 0 }, m') ∧
      Holds { v with m_size := 0 } m' [] ∧
      (∀ q, q ≠ v.m_data → m'.block q = m.block q) := by
  obtain ⟨hsz, hcap⟩ := size_of_holds v m xs h
  by_cases hc : v.m_cap = 0
  · obtain ⟨hx, hs0⟩ := holds_of_cap_zero v m xs h hc
    refine ⟨m, by simp [clear, hs0, Mem.forUp_empty], ?_, fun _ _ => rfl⟩
    subst hx
    have : ({ v with m_size := 0 } : Vector) = v := by cases v; simp_all
    rw [this]; exact h
  · obtain ⟨b, hb, hbl, hne, hp⟩ := block_of_holds v m xs h hc
    obtain ⟨m1, b1, e1, e2, e3, _, e5⟩ := Mem.destroy_loop m v.m_data b 0 v.m_size hb
      (Nat.zero_le _) (fun i _ hi => live_of_slots b xs v.m_size hsz hp i hi)
    refine ⟨m1, by simp [clear, e1], ?_, e5⟩
    apply holds_of_block { v with m_size := 0 } m1 [] b1 e2
    · simp [e3, hbl]
    · rfl
    · simp
    · intro i hi; simp at hi

/-- Source `pop_back()` on a well-formed non-empty vector. -/
theorem pop_back_spec (v : Vector) (m : Mem T) (xs : List T) (h : v.Holds m xs)
    (hpos : 0 < v.m_size) :
    ∃ m', v.pop_back m = some ({ v with m_size := v.m_size - 1 }, m') ∧
      Holds { v with m_size := v.m_size - 1 } m' xs.dropLast ∧
      (∀ q, q ≠ v.m_data → m'.block q = m.block q) := by
  obtain ⟨hsz, hcap⟩ := size_of_holds v m xs h
  obtain ⟨b, hb, hbl, hne, hp⟩ := block_of_holds v m xs h (by omega)
  obtain ⟨x, hx⟩ := live_of_slots b xs v.m_size hsz hp (v.m_size - 1) (by omega)
  obtain ⟨m1, e1, e2, e3⟩ := Mem.destroy_at_spec m v.m_data b (v.m_size - 1) x hb hx
  have hs0 : v.m_size ≠ 0 := by omega
  refine ⟨m1, by simp [pop_back, hs0, e1], ?_, e3⟩
  apply holds_of_block { v with m_size := v.m_size - 1 } m1 _ _ e2
  · simp [hbl]
  · simp [hsz]
  · simp only; omega
  · intro i hi
    simp only at hi
    rw [Mem.getElem?_set_slot b _ i _ (by omega), if_neg (by omega), hp i (by omega),
      List.dropLast_eq_take, List.getElem?_take, if_pos (by omega)]

/-- Source `erase(begin() + i)` on a well-formed vector, for `i < size()`. -/
theorem erase_spec (v : Vector) (m : Mem T) (xs : List T) (i : Nat) (h : v.Holds m xs)
    (hi : i < v.m_size) :
    ∃ m', v.erase (v.begin_.add i) m =
        some (({ v with m_size := v.m_size - 1 }, m'), v.begin_.add i) ∧
      Holds { v with m_size := v.m_size - 1 } m' (xs.take i ++ xs.drop (i + 1)) ∧
      (∀ q, q ≠ v.m_data → m'.block q = m.block q) := by
  obtain ⟨hsz, hcap⟩ := size_of_holds v m xs h
  obtain ⟨b, hb, hbl, hne, hp⟩ := block_of_holds v m xs h (by omega)
  have hlive := live_of_slots b xs v.m_size hsz hp
  obtain ⟨m1, b1, e1, e2, e3, e4, e5⟩ := Mem.shift_down_loop m v.m_data b v.m_size (i + 1) 1
    hb (by omega) (by omega) hlive
  obtain ⟨x, hx⟩ := hlive (v.m_size - 1) (by omega)
  have hx1 : ∃ y, b1[v.m_size - 1]? = some (some y) := by
    rw [e4]
    have c : ¬ (i + 1 - 1 ≤ v.m_size - 1 ∧ v.m_size - 1 < v.m_size - 1) := by omega
    rw [if_neg c]; exact ⟨x, hx⟩
  obtain ⟨y, hy⟩ := hx1
  obtain ⟨m2, f1, f2, f3⟩ := Mem.destroy_at_spec m1 v.m_data b1 (v.m_size - 1) y e2 hy
  have hs0 : v.m_size ≠ 0 := by omega
  refine ⟨m2, ?_, ?_, fun q hq => by rw [f3 q hq, e5 q hq]⟩
  · simp [erase, begin_, Pointer.add, Pointer.diff, e1, hs0, f1]
  · apply holds_of_block { v with m_size := v.m_size - 1 } m2 _ _ f2
    · simp [e3, hbl]
    · simp [hsz, List.length_take]; omega
    · simp only; omega
    · intro k hk
      simp only at hk
      rw [Mem.getElem?_set_slot b1 _ k _ (by omega), if_neg (by omega), e4 k,
        getElem?_cut xs i (i + 1) k (by omega) (by omega)]
      by_cases c1 : k < i
      · have c2 : ¬ (i + 1 - 1 ≤ k ∧ k < v.m_size - 1) := by omega
        rw [if_neg c2, if_pos c1, hp k (by omega)]
      · have c2 : i + 1 - 1 ≤ k ∧ k < v.m_size - 1 := by omega
        rw [if_pos c2, if_neg c1, hp _ (by omega)]
        congr 2
        omega

end Vector

end MiniSTL
namespace MiniSTL

namespace Vector

variable {T : Type}

/-- Constructors that allocate `n` slots and fill every one of them. -/
theorem ctor_fill_spec (m : Mem T) (zs : List T) (body : Nat → Mem T → Option (Mem T))
    (hbody : ∀ i mm, i < zs.length → (∀ q, q ≠ some m.length → mm.block q = m.block q) →
      ∃ x, zs[i]? = some x ∧ body i mm = mm.construct_at (some m.length) i x) :
    ∃ m', forUp 0 zs.length body (m.allocate zs.length).2 = some m' ∧
      Holds ⟨some m.length, zs.length, zs.length⟩ m' zs ∧
      (∀ q, q ≠ some m.length → m'.block q = m.block q) := by
  obtain ⟨ha1, ha2, _, ha4⟩ := Mem.allocate_spec m zs.length
  rw [ha1] at ha2 ha4
  obtain ⟨m1, b1, e1, e2, e3, e4, e5⟩ := Mem.write_loop (m.allocate zs.length).2
    (some m.length) (List.replicate zs.length none) 0 zs.length (fun i => zs[i]?) body ha2
    (Nat.zero_le _) (by simp)
    (fun i mm _ hi hf => hbody i mm hi (fun q hq => by rw [hf q hq, ha4 q hq]))
  refine ⟨m1, e1, ?_, fun q hq => by rw [e5 q hq, ha4 q hq]⟩
  apply holds_of_block ⟨some m.length, zs.length, zs.length⟩ m1 zs b1 e2
  · simp [e3]
  · rfl
  · exact Nat.le_refl _
  · intro i hi
    simp only at hi
    rw [e4 i, if_pos ⟨Nat.zero_le _, hi⟩]

/-- Source `Vector(n, val)`. -/
theorem ctor_n_val_spec (n : Nat) (val : T) (m : Mem T) :
    ∃ m', ctor_n_val n val m = some (⟨some m.length, n, n⟩, m') ∧
      Holds ⟨some m.length, n, n⟩ m' (List.replicate n val) ∧
      (∀ q, q ≠ some m.length → m'.block q = m.block q) := by
  obtain ⟨m', e1, e2, e3⟩ := ctor_fill_spec m (List.replicate n val)
    (fun i mm => mm.construct_at (some m.length) i val)
    (fun i mm hi _ => ⟨val, by
      simp only [List.length_replicate] at hi
      simp [List.getElem?_replicate, hi], rfl⟩)
  simp only [List.length_replicate] at e1 e2
  exact ⟨m', by simp [ctor_n_val, Mem.allocate_spec, e1], e2, e3⟩

/-- Source `Vector(n)`. -/
theorem ctor_n_spec [Inhabited T] (n : Nat) (m : Mem T) :
    ∃ m', ctor_n n m = some (⟨some m.length, n, n⟩, m') ∧
      Holds ⟨some m.length, n, n⟩ m' (List.replicate n (default : T)) ∧
      (∀ q, q ≠ some m.length → m'.block q = m.block q) := by
  obtain ⟨m', e1, e2, e3⟩ := ctor_fill_spec m (List.replicate n (default : T))
    (fun i mm => mm.construct_at (some m.length) i (default : T))
    (fun i mm hi _ => ⟨default, by
      simp only [List.length_replicate] at hi
      simp [List.getElem?_replicate, hi], rfl⟩)
  simp only [List.length_replicate] at e1 e2
  exact ⟨m', by simp [ctor_n, Mem.allocate_spec, e1], e2, e3⟩

/-- Source `Vector(first, last)` over the sequence `ys`. -/
theorem ctor_range_spec (ys : List T) (m : Mem T) :
    ∃ m', ctor_range ys m = some (⟨some m.length, ys.length, ys.length⟩, m') ∧
      Holds ⟨some m.length, ys.length, ys.length⟩ m' ys ∧
      (∀ q, q ≠ some m.length → m'.block q = m.block q) := by
  obtain ⟨m', e1, e2, e3⟩ := ctor_fill_spec m ys
    (fun i mm => (ys[i]?).bind fun x => mm.construct_at (some m.length) i x)
    (fun i mm hi _ => ⟨ys[i], List.getElem?_eq_getElem hi, by
      simp [List.getElem?_eq_getElem hi]⟩)
  exact ⟨m', by simp [ctor_range, Mem.allocate_spec, e1], e2, e3⟩

/-- Lowering `m_size` keeps the representation invariant, on the shortened contents. -/
theorem holds_truncate (v : Vector) (m : Mem T) (xs : List T) (k : Nat) (h : v.Holds m xs)
    (hk : k ≤ v.m_size) : Holds { v with m_size := k } m (xs.take k) := by
  obtain ⟨hsz, hcap⟩ := size_of_holds v m xs h
  by_cases hc : v.m_cap = 0
  · obtain ⟨hx, hs0⟩ := holds_of_cap_zero v m xs h hc
    have hk0 : k = 0 := by omega
    subst hx hk0
    have : ({ v with m_size := 0 } : Vector) = v := by cases v; simp_all
    rw [this]; simpa using h
  · obtain ⟨b, hb, hbl, hne, hp⟩ := block_of_holds v m xs h hc
    apply holds_of_block { v with m_size := k } m _ b hb hbl
    · simp [List.length_take]; omega
    · simp only; omega
    · intro i hi
      simp only at hi
      rw [hp i (by omega), List.getElem?_take, if_pos hi]

/-- Source `resize(n, val)` on a well-formed vector. -/
theorem resize_val_spec (v : Vector) (m : Mem T) (xs : List T) (n : Nat) (val : Ref T)
    (x : T) (h : v.Holds m xs) (hval : n ≤ v.m_size ∨ v.Outside val m x) :
    ∃ v' m', v.resize_val n val m = some (v', m') ∧
      v'.Holds m' (xs.take n ++ List.replicate (n - v.m_size) x) ∧
      v'.m_size = n ∧ v'.m_cap = max v.m_cap n := by
  obtain ⟨hsz, hcap⟩ := size_of_holds v m xs h
  rcases Nat.lt_trichotomy n v.m_size with hlt | heq | hgt
  · obtain ⟨b, hb, hbl, hne, hp⟩ := block_of_holds v m xs h (by omega)
    obtain ⟨m1, b1, e1, e2, e3, e4, _⟩ := Mem.destroy_loop m v.m_data b n v.m_size hb
      (by omega) (fun i _ hi => live_of_slots b xs v.m_size hsz hp i hi)
    refine ⟨{ v with m_size := n }, m1, by simp [resize_val, hlt, e1], ?_, rfl,
      by simp only; omega⟩
    have h0 : n - v.m_size = 0 := by omega
    rw [h0, List.replicate_zero, List.append_nil]
    apply holds_of_block { v with m_size := n } m1 _ b1 e2
    · simp [e3, hbl]
    · simp [List.length_take]; omega
    · simp only; omega
    · intro i hi
      simp only at hi
      have c : ¬ (n ≤ i ∧ i < v.m_size) := by omega
      rw [e4 i, if_neg c, hp i (by omega), List.getElem?_take, if_pos hi]
  · subst heq
    refine ⟨v, m, ?_, ?_, rfl, (Nat.max_eq_left hcap).symm⟩
    · simp [resize_val]
    · have h0 : v.m_size - v.m_size = 0 := by omega
      rw [h0, List.replicate_zero, List.append_nil, hsz, List.take_length]; exact h
  · obtain ⟨v1, m1, b1, e1, e2, e3, e4, e5, e6, _, e7⟩ :=
      reserve_ensure v m xs n h (by omega)
    have hout : v1.Outside val m1 x := by
      rcases hval with hv | hv
      · omega
      · exact (deref_outside v v1 val m m1 x hv (reserve_data v v1 m m1 xs _ h e1) e7).2
    obtain ⟨m2, b2, f1, f2, f3, f4, _⟩ := Mem.write_loop m1 v1.m_data b1 v1.m_size n
      (fun _ => some x)
      (fun i mm => (mm.deref val).bind fun y => mm.construct_at v1.m_data i y) e4 (by omega)
      (by rw [e5, e3]; omega)
      (fun i mm _ _ hfr => ⟨x, rfl, by
        simp only [deref_frame v1 val m1 mm x hout hfr, Option.some_bind]⟩)
    have c1 : ¬ n < v.m_size := by omega
    refine ⟨{ v1 with m_size := n }, m2, by simp [resize_val, c1, hgt, e1, f1], ?_, rfl,
      by simp [e3]⟩
    apply holds_of_block { v1 with m_size := n } m2 _ b2 f2
    · simp [f3, e5]
    · simp [List.length_take]; omega
    · simp only [e3]; omega
    · intro i hi
      simp only at hi
      rw [f4 i, e2, List.take_of_length_le (by omega)]
      by_cases c : i < v.m_size
      · have c2 : ¬ (v.m_size ≤ i ∧ i < n) := by omega
        rw [if_neg c2, e6 i c, List.getElem?_append_left (by omega)]
      · have c2 : v.m_size ≤ i ∧ i < n := by omega
        rw [if_pos c2, List.getElem?_append_right (by omega)]
        simp [List.getElem?_replicate]
        omega

/-- Source `resize(n)` on a well-formed vector. -/
theorem resize_spec [Inhabited T] (v : Vector) (m : Mem T) (xs : List T) (n : Nat)
    (h : v.Holds m xs) :
    ∃ v' m', v.resize n m = some (v', m') ∧
      v'.Holds m' (xs.take n ++ List.replicate (n - v.m_size) (default : T)) ∧
      v'.m_size = n ∧ v'.m_cap = max v.m_cap n := by
  have e : v.resize n m = v.resize_val n (.temp (default : T)) m := rfl
  rw [e]
  exact resize_val_spec v m xs n (.temp default) default h (Or.inr rfl)

end Vector

end MiniSTL
namespace MiniSTL

namespace Vector

variable {T : Type}

/-- Source `shrink_to_fit()` on a well-formed vector. -/
theorem shrink_to_fit_spec (v : Vector) (m : Mem T) (xs : List T) (h : v.Holds m xs) :
    ∃ v' m', v.shrink_to_fit m = some (v', m') ∧ v'.Holds m' xs ∧
      v'.m_size = v.m_size ∧ v'.m_cap = v.m_size ∧
      (v.m_size = 0 → v'.m_data = none) := by
  obtain ⟨hsz, hcap⟩ := size_of_holds v m xs h
  by_cases hs : v.m_size = 0
  · have hx : xs = [] := List.length_eq_zero.mp (by omega)
    subst hx
    by_cases hc : v.m_cap = 0
    · refine ⟨{ v with m_cap := v.m_size, m_data := none }, m, by simp [shrink_to_fit, hs, hc],
        ?_, rfl, rfl, fun _ => rfl⟩
      exact ⟨by simp, fun _ => by simp [hs], fun hne => absurd rfl hne, by simp [toList, hs]⟩
    · obtain ⟨b, hb, hbl, hne, _⟩ := block_of_holds v m [] h hc
      obtain ⟨m1, g1, _, _⟩ := Mem.deallocate_spec m v.m_data b v.m_cap hb hbl
      refine ⟨{ v with m_cap := v.m_size, m_data := none }, m1,
        by simp [shrink_to_fit, hs, hc, Mem.forUp_empty, g1], ?_, rfl, rfl, fun _ => rfl⟩
      exact ⟨by simp, fun _ => by simp [hs], fun hne => absurd rfl hne, by simp [toList, hs]⟩
  · have hc : v.m_cap ≠ 0 := by omega
    obtain ⟨b, hb, hbl, hne, hp⟩ := block_of_holds v m xs h hc
    obtain ⟨ha1, ha2, ha3, ha4⟩ := Mem.allocate_spec m v.m_size
    rw [ha1] at ha2 ha3 ha4
    have hdiff : v.m_data ≠ some m.length := by
      intro e; rw [e, ha3] at hb; cases hb
    have hb1 : (m.allocate v.m_size).2.block v.m_data = some b := by
      rw [ha4 _ hdiff]; exact hb
    obtain ⟨m1, bs', bd', e1, e2, e3, e4, e5, e6, _⟩ := Mem.relocate_loop
      (m.allocate v.m_size).2 v.m_data (some m.length) b (List.replicate v.m_size none) xs
      v.m_size hb1 ha2 hdiff hsz (by simp) hp
    obtain ⟨m2, g1, _, g3⟩ := Mem.deallocate_spec m1 v.m_data bs' v.m_cap e2 (by omega)
    refine ⟨{ v with m_cap := v.m_size, m_data := some m.length }, m2, ?_, ?_, rfl, rfl,
      fun e => absurd e hs⟩
    · simp [shrink_to_fit, hs, hc, ha1, e1, g1]
    · apply holds_of_block { v with m_cap := v.m_size, m_data := some m.length } m2 xs bd'
      · rw [g3 _ (Ne.symm hdiff)]; exact e4
      · simp [e5]
      · exact hsz
      · exact Nat.le_refl _
      · intro i hi
        simp only at hi
        rw [e6 i, if_pos hi]

/-- Source `assign(n, val)` on a well-formed vector. -/
theorem assign_spec (v : Vector) (m : Mem T) (xs : List T) (n : Nat) (val : T)
    (h : v.Holds m xs) :
    ∃ v' m', v.assign n (.temp val) m = some (v', m') ∧ v'.Holds m' (List.replicate n val) ∧
      v'.m_size = n ∧ v'.m_cap = max v.m_cap n := by
  obtain ⟨m0, c1, c2, _⟩ := clear_spec v m xs h
  by_cases hn : n = 0
  · subst hn
    refine ⟨{ v with m_size := 0 }, m0, ?_, by simpa using c2, rfl, by simp⟩
    simp [assign, c1, reserve_noop, Mem.forUp_empty]
  · obtain ⟨v1, m1, b1, e1, e2, e3, e4, e5, _, _, _⟩ :=
      reserve_ensure { v with m_size := 0 } m0 [] n c2 (by omega)
    obtain ⟨m2, b2, f1, f2, f3, f4, _⟩ := Mem.write_loop m1 v1.m_data b1 0 n
      (fun _ => some val)
      (fun i mm => (mm.deref (.temp val)).bind fun y => mm.construct_at v1.m_data i y) e4
      (Nat.zero_le _) (by rw [e5, e3]; simp) (fun i mm _ _ _ => ⟨val, rfl, rfl⟩)
    refine ⟨{ v1 with m_size := n }, m2, by simp [assign, c1, e1, f1], ?_, rfl,
      by simpa using e3⟩
    apply holds_of_block { v1 with m_size := n } m2 _ b2 f2
    · simp [f3, e5]
    · simp
    · simp only [e3]; simp
    · intro i hi
      simp only at hi
      rw [f4 i, if_pos ⟨Nat.zero_le _, hi⟩]
      simp [List.getElem?_replicate, hi]

/-- Source `Vector(Vector const& that)`: the copy owns a fresh block (or none when `that` is empty),
and `that` is untouched. -/
theorem ctor_copy_spec (that : Vector) (m : Mem T) (zs : List T) (h : that.Holds m zs) :
    ∃ v' m', ctor_copy that m = some (v', m') ∧ v'.Holds m' zs ∧
      v'.m_size = that.m_size ∧ v'.m_cap = that.m_size ∧
      (v'.m_data = none ∨ v'.m_data = some m.length) ∧
      (∀ q, q ≠ some m.length → m'.block q = m.block q) := by
  obtain ⟨hsz, hcap⟩ := size_of_holds that m zs h
  by_cases hs : that.m_size = 0
  · have hx : zs = [] := List.length_eq_zero.mp (by omega)
    subst hx
    refine ⟨⟨none, that.m_size, that.m_size⟩, m, by simp [ctor_copy, hs], ?_, rfl, rfl,
      Or.inl rfl, fun _ _ => rfl⟩
    exact ⟨by simp, fun _ => by simp [hs], fun hne => absurd rfl hne, by simp [toList, hs]⟩
  · obtain ⟨b, hb, hbl, hne, hp⟩ := block_of_holds that m zs h (by omega)
    have hdiff : that.m_data ≠ some m.length := by
      intro e
      rw [e] at hb
      exact absurd (Mem.block_lt m m.length b hb) (Nat.lt_irrefl _)
    obtain ⟨m1, e1, e2, e3⟩ := ctor_fill_spec m zs
      (fun i mm => (mm.read that.m_data i).bind fun x => mm.construct_at (some m.length) i x)
      (fun i mm hi hf => ⟨zs[i], List.getElem?_eq_getElem hi, by
        have hr : mm.read that.m_data i = some zs[i] := by
          apply Mem.read_of_slot mm _ b
          · rw [hf _ hdiff]; exact hb
          · rw [hp i (by omega), List.getElem?_eq_getElem hi]
        simp [hr]⟩)
    rw [← hsz] at e1 e2
    refine ⟨⟨some m.length, that.m_size, that.m_size⟩, m1, ?_, e2, rfl, rfl, Or.inr rfl, e3⟩
    simp [ctor_copy, hs, Mem.allocate_spec, e1]

/-- Source `operator=(Vector const& that)` between two distinct well-formed vectors, which own
distinct blocks. -/
theorem assign_copy_spec (v that : Vector) (m : Mem T) (xs zs : List T)
    (h1 : v.Holds m xs) (h2 : that.Holds m zs) (hd : v.m_data = that.m_data → v.m_data = none) :
    ∃ v' m', v.assign_copy that false m = some (v', m') ∧ v'.Holds m' zs ∧
      v'.m_size = that.m_size ∧ v'.m_cap = max v.m_cap that.m_size := by
  obtain ⟨hsz, hcap⟩ := size_of_holds v m xs h1
  obtain ⟨hsz2, hcap2⟩ := size_of_holds that m zs h2
  by_cases hs : that.m_size = 0
  · have hx : zs = [] := List.length_eq_zero.mp (by omega)
    subst hx
    refine ⟨{ v with m_size := that.m_size }, m, ?_, ?_, rfl, by simp [hs]⟩
    · simp [assign_copy, hs, reserve_noop, Mem.forUp_empty]
    · have := holds_truncate v m xs 0 h1 (Nat.zero_le _)
      rw [hs]; simpa using this
  · obtain ⟨bt, hbt, _, hnet, hpt⟩ := block_of_holds that m zs h2 (by omega)
    obtain ⟨v1, m1, b1, e1, e2, e3, e4, e5, _, _, e7⟩ :=
      reserve_ensure v m xs that.m_size h1 (by omega)
    have hne1 : that.m_data ≠ v.m_data := by
      intro e
      exact hnet (e ▸ hd e.symm)
    have hne2 : that.m_data ≠ v1.m_data := by
      rcases reserve_data v v1 m m1 xs that.m_size h1 e1 with e | e
      · rw [e]; exact hne1
      · rw [e]
        intro e'
        rw [e'] at hbt
        exact absurd (Mem.block_lt m m.length bt hbt) (Nat.lt_irrefl _)
    have hbt1 : m1.block that.m_data = some bt := by rw [e7 _ hne1 hne2]; exact hbt
    obtain ⟨m2, b2, f1, f2, f3, f4, _⟩ := Mem.write_loop m1 v1.m_data b1 0 that.m_size
      (fun i => zs[i]?)
      (fun i mm => (mm.read that.m_data i).bind fun x => mm.construct_at v1.m_data i x) e4
      (Nat.zero_le _) (by rw [e5, e3]; simp)
      (fun i mm _ hi hf => by
        have hlt : i < zs.length := by omega
        refine ⟨zs[i], List.getElem?_eq_getElem hlt, ?_⟩
        have hr : mm.read that.m_data i = some zs[i] := by
          apply Mem.read_of_slot mm _ bt
          · rw [hf _ hne2]; exact hbt1
          · rw [hpt i hi, List.getElem?_eq_getElem hlt]
        simp [hr])
    refine ⟨{ v1 with m_size := that.m_size }, m2, by simp [assign_copy, e1, f1], ?_, rfl,
      by simpa using e3⟩
    apply holds_of_block { v1 with m_size := that.m_size } m2 zs b2 f2
    · simp [f3, e5]
    · exact hsz2
    · simp only [e3]; simp
    · intro i hi
      simp only at hi
      rw [f4 i, if_pos ⟨Nat.zero_le _, hi⟩]

/-- Source `insert(begin() + j, first, last)` over the sequence `ys`, for `j <= size()`. -/
theorem insert_range_spec (v : Vector) (m : Mem T) (xs ys : List T) (j : Nat)
    (h : v.Holds m xs) (hj : j ≤ v.m_size) :
    ∃ v' m', v.insert_range (v.begin_.add j) ys m = some ((v', m'), v'.begin_.add j) ∧
      v'.Holds m' (xs.take j ++ ys ++ xs.drop j) ∧
      v'.m_size = v.m_size + ys.length ∧ (ys = [] → v' = v ∧ m' = m) := by
  obtain ⟨hsz, hcap⟩ := size_of_holds v m xs h
  by_cases hn : ys.length = 0
  · have hy : ys = [] := List.length_eq_zero.mp hn
    subst hy
    refine ⟨v, m, ?_, by simpa using h, by simp, fun _ => ⟨rfl, rfl⟩⟩
    simp [insert_range, begin_, Pointer.add, Pointer.diff]
  · obtain ⟨v1, m1, b1, e1, e2, e3, e4, e5, e6, _, _⟩ :=
      reserve_ensure v m xs (v.m_size + ys.length) h (by omega)
    obtain ⟨m2, b2, f1, f2, f3, f4, _⟩ := Mem.shift_up_loop m1 v1.m_data b1 v1.m_size j
      ys.length e4 (by omega) (by omega) (by rw [e5, e3, e2]; omega)
      (live_of_slots b1 xs v1.m_size (by omega) (by rw [e2]; exact e6))
    obtain ⟨m3, b3, g1, g2, g3, g4, _⟩ := Mem.write_loop m2 v1.m_data b2 j (j + ys.length)
      (fun i => ys[i - j]?)
      (fun i mm => (ys[i - j]?).bind fun x => mm.construct_at v1.m_data i x) f2
      (by omega) (by rw [f3, e5, e3]; omega)
      (fun i mm h1 h2 _ => by
        have hlt : i - j < ys.length := by omega
        exact ⟨ys[i - j], List.getElem?_eq_getElem hlt, by
          simp [List.getElem?_eq_getElem hlt]⟩)
    refine ⟨{ v1 with m_size := v1.m_size + ys.length }, m3, ?_, ?_, by simp [e2],
      fun e => absurd (by simp [e]) hn⟩
    · simp [insert_range, begin_, Pointer.add, Pointer.diff, hn, e1, f1, g1]
    · apply holds_of_block { v1 with m_size := v1.m_size + ys.length } m3 _ b3 g2
      · simp [g3, f3, e5]
      · simp [e2, hsz, List.length_take]; omega
      · simp only [e3, e2]; omega
      · intro i hi
        simp only [e2] at hi
        rw [g4 i, f4 i, getElem?_splice xs ys j i (by omega), e2]
        by_cases c1 : i < j
        · have c2 : ¬ (j ≤ i ∧ i < j + ys.length) := by omega
          have c3 : ¬ (j + ys.length ≤ i ∧ i < v.m_size + ys.length) := by omega
          have c4 : ¬ (j ≤ i ∧ i < v.m_size) := by omega
          rw [if_neg c2, if_neg c3, if_neg c4, if_pos c1, e6 i (by omega)]
        · by_cases c2 : i < j + ys.length
          · have c3 : j ≤ i ∧ i < j + ys.length := by omega
            rw [if_pos c3, if_neg c1, if_pos c2]
          · have c3 : ¬ (j ≤ i ∧ i < j + ys.length) := by omega
            have c4 : j + ys.length ≤ i ∧ i < v.m_size + ys.length := by omega
            rw [if_neg c3, if_pos c4, if_neg c1, if_neg c2, e6 _ (by omega)]

/-- The move constructor hands the representation over and leaves an empty vector. -/
theorem ctor_move_spec (that : Vector) (m : Mem T) (zs : List T) (h : that.Holds m zs) :
    (ctor_move that).1.Holds m zs ∧ (ctor_move that).2.Holds m ([] : List T) := by
  constructor
  · have : (ctor_move that).1 = that := by cases that; rfl
    rw [this]; exact h
  · exact holds_ctor m

/-- Source `swap` exchanges the two representations. -/
theorem swap_spec (v that : Vector) (m : Mem T) (xs zs : List T) (h1 : v.Holds m xs)
    (h2 : that.Holds m zs) : (swap v that).1.Holds m zs ∧ (swap v that).2.Holds m xs := by
  have e1 : (swap v that).1 = that := by cases that; rfl
  have e2 : (swap v that).2 = v := by cases v; rfl
  rw [e1, e2]; exact ⟨h2, h1⟩

end Vector

end MiniSTL
namespace MiniSTL

namespace Vector

variable {T : Type}

theorem keeps_of_holds (r : Option (Vector × Mem T)) (v' : Vector) (m' : Mem T) (xs' : List T)
    (e : r = some (v', m')) (h : v'.Holds m' xs') : KeepsInvariant r :=
  ⟨v', m', e, (size_of_holds v' m' xs' h).2, xs', h⟩

theorem reserve_holds (v : Vector) (m : Mem T) (xs : List T) (n : Nat) (h : v.Holds m xs) :
    ∃ v' m', v.reserve n m = some (v', m') ∧ v'.Holds m' xs := by
  by_cases hn : n ≤ v.m_cap
  · exact ⟨v, m, reserve_noop v m n hn, h⟩
  · obtain ⟨v', m', e1, e2, _⟩ := reserve_grow_holds v m xs n h (by omega)
    exact ⟨v', m', e1, e2⟩

/-- C10: `size() <= capacity()` is established by every constructor and kept by every
mutating operation: each constructor returns a vector with `size() <= capacity()`, and on a
vector that satisfies the representation invariant (so `size() <= capacity()`) each of
`push_back`, `pop_back` (non-empty), `reserve`, `resize`, `shrink_to_fit`, `clear`,
`assign(n, v)`, `insert` at `begin() + j` with `j <= size()` (the value arguments being
objects outside the store), `erase` at `begin() + i` with
`i < size()`, `erase` of `[begin() + f, begin() + l)` with `f <= l <= size()`, copy
assignment (from itself, or from another well-formed vector, which owns a different block)
and `swap` returns and leaves `size() <= capacity()`, the vector again satisfying the
representation invariant. -/
theorem C10_size_le_capacity [Inhabited T] [MoveAssign T] :
    ((ctor : Vector).size ≤ (ctor : Vector).capacity) ∧
    (∀ (n : Nat) (m : Mem T), KeepsInvariant (ctor_n n m)) ∧
    (∀ (n : Nat) (val : T) (m : Mem T), KeepsInvariant (ctor_n_val n val m)) ∧
    (∀ (ys : List T) (m : Mem T), KeepsInvariant (ctor_range ys m)) ∧
    (∀ (that : Vector) (m : Mem T) (zs : List T), that.Holds m zs →
      KeepsInvariant (ctor_copy that m) ∧
      KeepsInvariant (some ((ctor_move that).1, m)) ∧
      KeepsInvariant (some ((ctor_move that).2, m))) ∧
    (∀ (v : Vector) (m : Mem T) (xs : List T), v.Holds m xs →
      (∀ x, KeepsInvariant (v.push_back (.temp x) m)) ∧
      (0 < v.size → KeepsInvariant (v.pop_back m)) ∧
      (∀ n, KeepsInvariant (v.reserve n m)) ∧
      (∀ n, KeepsInvariant (v.resize n m)) ∧
      (∀ n val, KeepsInvariant (v.resize_val n (.temp val) m)) ∧
      KeepsInvariant (v.shrink_to_fit m) ∧
      KeepsInvariant (v.clear m) ∧
      (∀ n val, KeepsInvariant (v.assign n (.temp val) m)) ∧
      (∀ j x, j ≤ v.size →
        KeepsInvariant ((v.insert (v.begin_.add j) (.temp x) m).map Prod.fst)) ∧
      (∀ j ys, j ≤ v.size →
        KeepsInvariant ((v.insert_range (v.begin_.add j) ys m).map Prod.fst)) ∧
      (∀ i, i < v.size → KeepsInvariant ((v.erase (v.begin_.add i) m).map Prod.fst)) ∧
      (∀ f l, f ≤ l → l ≤ v.size →
        KeepsInvariant ((v.erase_range (v.begin_.add f) (v.begin_.add l) m).map Prod.fst)) ∧
      KeepsInvariant (v.assign_copy v true m) ∧
      (∀ (that : Vector) (zs : List T), that.Holds m zs →
        (v.m_data = that.m_data → v.m_data = none) →
        KeepsInvariant (v.assign_copy that false m) ∧
        KeepsInvariant (some ((v.swap that).1, m)) ∧
        KeepsInvariant (some ((v.swap that).2, m)))) := by
  refine ⟨Nat.le_refl _, ?_, ?_, ?_, ?_, ?_⟩
  · intro n m
    obtain ⟨m', e1, e2, _⟩ := ctor_n_spec (T := T) n m
    exact keeps_of_holds _ _ m' _ e1 e2
  · intro n val m
    obtain ⟨m', e1, e2, _⟩ := ctor_n_val_spec n val m
    exact keeps_of_holds _ _ m' _ e1 e2
  · intro ys m
    obtain ⟨m', e1, e2, _⟩ := ctor_range_spec ys m
    exact keeps_of_holds _ _ m' _ e1 e2
  · intro that m zs h
    obtain ⟨v', m', e1, e2, _⟩ := ctor_copy_spec that m zs h
    obtain ⟨f1, f2⟩ := ctor_move_spec that m zs h
    exact ⟨keeps_of_holds _ v' m' _ e1 e2, keeps_of_holds _ _ m _ rfl f1,
      keeps_of_holds _ _ m _ rfl f2⟩
  · intro v m xs h
    refine ⟨?_, ?_, ?_, ?_, ?_, ?_, ?_, ?_, ?_, ?_, ?_, ?_, ?_, ?_⟩
    · intro x
      obtain ⟨v', m', e1, e2, _⟩ := push_back_spec v m xs (.temp x) x h (Or.inl rfl)
      exact keeps_of_holds _ v' m' _ e1 e2
    · intro hpos
      obtain ⟨m', e1, e2, _⟩ := pop_back_spec v m xs h hpos
      exact keeps_of_holds _ _ m' _ e1 e2
    · intro n
      obtain ⟨v', m', e1, e2⟩ := reserve_holds v m xs n h
      exact keeps_of_holds _ v' m' _ e1 e2
    · intro n
      obtain ⟨v', m', e1, e2, _⟩ := resize_spec v m xs n h
      exact keeps_of_holds _ v' m' _ e1 e2
    · intro n val
      obtain ⟨v', m', e1, e2, _⟩ := resize_val_spec v m xs n (.temp val) val h (Or.inr rfl)
      exact keeps_of_holds _ v' m' _ e1 e2
    · obtain ⟨v', m', e1, e2, _⟩ := shrink_to_fit_spec v m xs h
      exact keeps_of_holds _ v' m' _ e1 e2
    · obtain ⟨m', e1, e2, _⟩ := clear_spec v m xs h
      exact keeps_of_holds _ _ m' _ e1 e2
    · intro n val
      obtain ⟨v', m', e1, e2, _⟩ := assign_spec v m xs n val h
      exact keeps_of_holds _ v' m' _ e1 e2
    · intro j x hj
      obtain ⟨v', m', e1, e2, _⟩ := insert_spec v m xs j (.temp x) x h hj rfl
      exact keeps_of_holds _ v' m' _ (by rw [e1]; rfl) e2
    · intro j ys hj
      obtain ⟨v', m', e1, e2, _⟩ := insert_range_spec v m xs ys j h hj
      exact keeps_of_holds _ v' m' _ (by rw [e1]; rfl) e2
    · intro i hi
      obtain ⟨m', e1, e2, _⟩ := erase_spec v m xs i h hi
      exact keeps_of_holds _ _ m' _ (by rw [e1]; rfl) e2
    · intro f l hf hl
      obtain ⟨v', m', e1, e2, _⟩ := erase_range_spec v m xs f l h hf hl
      exact keeps_of_holds _ v' m' _ (by rw [e1]; rfl) e2
    · exact keeps_of_holds _ v m xs rfl h
    · intro that zs h2 hd
      obtain ⟨v', m', e1, e2, _⟩ := assign_copy_spec v that m xs zs h h2 hd
      obtain ⟨f1, f2⟩ := swap_spec v that m xs zs h h2
      exact ⟨keeps_of_holds _ v' m' _ e1 e2, keeps_of_holds _ _ m _ rfl f1,
        keeps_of_holds _ _ m _ rfl f2⟩

/-- Instance of C10: a `push_back` on the full vector `[3, 4]` keeps `size() <= capacity()`. -/
theorem C10_size_le_capacity_witness :
    Holds ⟨some 0, 2, 2⟩ ([some [some 3, some 4]] : Mem Nat) [3, 4] ∧
    ∃ v' m', push_back ⟨some 0, 2, 2⟩ (Ref.temp 5) ([some [some 3, some 4]] : Mem Nat) =
        some (v', m') ∧
      v'.size ≤ v'.capacity :=
  ⟨by decide, by
    obtain ⟨v', m', e1, e2, _⟩ := ((C10_size_le_capacity (T := Nat)).2.2.2.2.2
      ⟨some 0, 2, 2⟩ [some [some 3, some 4]] [3, 4] (by decide)).1 5
    exact ⟨v', m', e1, e2⟩⟩

end Vector

end MiniSTL
namespace MiniSTL

namespace NodeMem

variable {T : Type}

/-- Effect of destroying the constructed value of node `p`. -/
theorem destroy_value_spec (m : NodeMem T) (p : Nat) (x : T) (h : m.value p = some x) :
    ∃ m', m.destroy_value p = some m' ∧
      (∀ c, m'.next c = m.next c) ∧ (∀ c, m'.prev c = m.prev c) ∧
      (∀ c, m'.value c = if c = p then none else m.value c) ∧
      (∀ c, (m'.node c).isSome = (m.node c).isSome) := by
  cases hn : m.node p with
  | none => simp [value, hn] at h
  | some n =>
    have hv : n.m_value = some x := by simpa [value, hn] using h
    refine ⟨m.set p (some { n with m_value := none }), by simp [destroy_value, hn, hv],
      ?_, ?_, ?_, ?_⟩
    all_goals
      intro c
      by_cases hc : c = p
      · subst hc; simp [next, prev, value, node_set m c c n _ hn, hn]
      · simp [next, prev, value, node_set m p c n _ hn, hc]

/-- Effect of `deleteNode(p)` on a live node. -/
theorem deleteNode_spec (m : NodeMem T) (p : Nat) (h : (m.node p).isSome = true) :
    ∃ m', m.deleteNode p = some m' ∧ m'.node p = none ∧
      (∀ c, c ≠ p → m'.node c = m.node c) := by
  obtain ⟨n, hn⟩ := (live_iff m p).mp h
  refine ⟨m.set p none, by simp [deleteNode, hn], ?_, ?_⟩
  · rw [node_set m p p n _ hn]; simp
  · intro c hc
    rw [node_set m p c n _ hn]; simp [hc]

theorem fields_of_node_none (m : NodeMem T) (p : Nat) (h : m.node p = none) :
    m.next p = none ∧ m.prev p = none ∧ m.value p = none := by
  simp [next, prev, value, h]

end NodeMem

namespace NodeList

variable {T : Type}

theorem linked_append_iff (m : NodeMem T) (a : Nat) (l2 : List Nat) :
    ∀ l1 : List Nat, Linked m (l1 ++ a :: l2) ↔ Linked m (l1 ++ [a]) ∧ Linked m (a :: l2)
  | [] => by simp [Linked]
  | [x] => by
    show (Link m x a ∧ Linked m (a :: l2)) ↔ (Link m x a ∧ True) ∧ Linked m (a :: l2)
    tauto
  | x :: y :: r => by
    have ih := linked_append_iff m a l2 (y :: r)
    show (Link m x y ∧ Linked m (y :: r ++ a :: l2)) ↔
      (Link m x y ∧ Linked m (y :: r ++ [a])) ∧ Linked m (a :: l2)
    rw [ih]; tauto

/-- Splicing the fresh node `new` between the consecutive nodes `pv` and `nx` of a chain:
`F` ends in `pv`, `G` starts with `nx`. -/
theorem ring_insert (m m' : NodeMem T) (A B : List Nat) (pv nx new : Nat)
    (hlk : Linked m (A ++ pv :: nx :: B))
    (hnd1 : (A ++ pv :: (nx :: B).dropLast).Nodup)
    (hnd2 : ((A ++ [pv]).tail ++ nx :: B).Nodup)
    (hfresh : new ∉ A ++ pv :: nx :: B)
    (hnext : ∀ c, m'.next c = if c = new then some nx else if c = pv then some new
      else m.next c)
    (hprev : ∀ c, m'.prev c = if c = nx then some new else if c = new then some pv
      else m.prev c) :
    Linked m' (A ++ pv :: new :: nx :: B) := by
  obtain ⟨h1, h2⟩ := (linked_append_iff m pv (nx :: B) A).mp hlk
  obtain ⟨_, h3⟩ := (linked_cons_cons m pv nx B).mp h2
  have hnew : ∀ c ∈ A ++ pv :: nx :: B, c ≠ new := fun c hc e => hfresh (e ▸ hc)
  rw [linked_append_iff m' pv (new :: nx :: B) A, linked_cons_cons, linked_cons_cons]
  refine ⟨?_, ⟨?_, ?_⟩, ⟨?_, ?_⟩, ?_⟩
  · apply linked_frame m m' (A ++ [pv]) _ _ h1
    · intro a ha
      rw [List.dropLast_concat] at ha
      have hne : a ≠ pv := by
        intro e
        rw [List.nodup_append] at hnd1
        exact hnd1.2.2 ha (by simp [e])
      rw [hnext a, if_neg (hnew a (by simp [ha])), if_neg hne]
    · intro b hb
      have hne : b ≠ nx := by
        intro e
        rw [List.nodup_append] at hnd2
        exact hnd2.2.2 hb (by simp [e])
      have hmem : b ∈ A ++ [pv] := List.mem_of_mem_tail hb
      rw [hprev b, if_neg hne, if_neg (hnew b (by
        simp only [List.mem_append, List.mem_singleton] at hmem
        rcases hmem with h | h
        · simp [h]
        · simp [h]))]
  · rw [hnext pv, if_neg (hnew pv (by simp)), if_pos rfl]
  · have : new ≠ nx := fun e => hnew nx (by simp) e.symm
    rw [hprev new, if_neg this, if_pos rfl]
  · rw [hnext new, if_pos rfl]
  · rw [hprev nx, if_pos rfl]
  · apply linked_frame m m' (nx :: B) _ _ h3
    · intro a ha
      have hne : a ≠ pv := by
        intro e
        rw [List.nodup_append] at hnd1
        have : a ∈ pv :: (nx :: B).dropLast := by simp [ha]
        rw [List.nodup_cons] at hnd1
        exact hnd1.2.1.1 (e ▸ ha)
      have hmem : a ∈ nx :: B := List.mem_of_mem_dropLast ha
      rw [hnext a, if_neg (hnew a (by
        simp only [List.mem_append, List.mem_cons]
        right; right; simpa using hmem)), if_neg hne]
    · intro b hb
      simp only [List.tail_cons] at hb
      have hne : b ≠ nx := by
        intro e
        rw [List.nodup_append, List.nodup_cons] at hnd2
        exact hnd2.2.1.1 (e ▸ hb)
      rw [hprev b, if_neg hne, if_neg (hnew b (by simp [hb]))]

end NodeList

end MiniSTL
namespace MiniSTL

namespace NodeList

variable {T : Type}

/-- Unlinking the node `p` that sits between the consecutive nodes `pv` and `nx` of a chain. -/
theorem ring_remove (m m' : NodeMem T) (A B : List Nat) (pv p nx : Nat)
    (hlk : Linked m (A ++ pv :: p :: nx :: B))
    (hnd1 : (A ++ pv :: p :: (nx :: B).dropLast).Nodup)
    (hnd2 : ((A ++ [pv]).tail ++ p :: nx :: B).Nodup)
    (hnext : ∀ c, c ≠ p → m'.next c = if c = pv then some nx else m.next c)
    (hprev : ∀ c, c ≠ p → m'.prev c = if c = nx then some pv else m.prev c) :
    Linked m' (A ++ pv :: nx :: B) := by
  obtain ⟨h1, h2⟩ := (linked_append_iff m pv (p :: nx :: B) A).mp hlk
  obtain ⟨_, h3⟩ := (linked_cons_cons m pv p (nx :: B)).mp h2
  obtain ⟨_, h4⟩ := (linked_cons_cons m p nx B).mp h3
  have hpvp : pv ≠ p := by
    intro e
    rw [List.nodup_append, List.nodup_cons] at hnd1
    exact hnd1.2.1.1 (by simp [e])
  have hnxp : nx ≠ p := by
    intro e
    rw [List.nodup_append, List.nodup_cons] at hnd2
    exact hnd2.2.1.1 (by simp [e])
  rw [linked_append_iff m' pv (nx :: B) A, linked_cons_cons]
  refine ⟨?_, ⟨?_, ?_⟩, ?_⟩
  · apply linked_frame m m' (A ++ [pv]) _ _ h1
    · intro a ha
      rw [List.dropLast_concat] at ha
      rw [List.nodup_append] at hnd1
      have hne : a ≠ pv := fun e => hnd1.2.2 ha (by simp [e])
      have hnp : a ≠ p := fun e => hnd1.2.2 ha (by simp [e])
      rw [hnext a hnp, if_neg hne]
    · intro b hb
      rw [List.nodup_append] at hnd2
      have hne : b ≠ nx := fun e => hnd2.2.2 hb (by simp [e])
      have hnp : b ≠ p := fun e => hnd2.2.2 hb (by simp [e])
      rw [hprev b hnp, if_neg hne]
  · rw [hnext pv hpvp, if_pos rfl]
  · rw [hprev nx hnxp, if_pos rfl]
  · apply linked_frame m m' (nx :: B) _ _ h4
    · intro a ha
      rw [List.nodup_append, List.nodup_cons, List.nodup_cons] at hnd1
      have hne : a ≠ pv := fun e => hnd1.2.1.1 (by simp [← e, ha])
      have hnp : a ≠ p := fun e => hnd1.2.1.2.1 (e ▸ ha)
      rw [hnext a hnp, if_neg hne]
    · intro b hb
      simp only [List.tail_cons] at hb
      rw [List.nodup_append, List.nodup_cons, List.nodup_cons] at hnd2
      have hne : b ≠ nx := fun e => hnd2.2.1.2.1 (e ▸ hb)
      have hnp : b ≠ p := fun e => hnd2.2.1.1 (by simp [← e, hb])
      rw [hprev b hnp, if_neg hne]

/-- Effect of `emplace(pos, val)` on the store, `pv` being the predecessor of `pos`. -/
theorem emplace_effect (l : NodeList) (m : NodeMem T) (pos pv : Nat) (val : T)
    (hpv : m.prev pos = some pv) (hlive : (m.node pv).isSome = true) :
    ∃ m', l.emplace { m_curr := pos } val m =
        some (({ l with m_size := l.m_size + 1 }, m'), { m_curr := m.length }) ∧
      (∀ c, m'.next c = if c = m.length then some pos else if c = pv then some m.length
        else m.next c) ∧
      (∀ c, m'.prev c = if c = pos then some m.length else if c = m.length then some pv
        else m.prev c) ∧
      (∀ c, m'.value c = if c = m.length then some val else m.value c) ∧
      (∀ c, (m.node c).isSome = true → (m'.node c).isSome = true) := by
  have hposlive : (m.node pos).isSome = true := NodeMem.live_of_prev m pos pv hpv
  obtain ⟨n1, n0, n2, n3⟩ := NodeMem.newNode_spec m
  have hv0 : ∀ c, c ≠ m.length → m.newNode.2.next c = m.next c ∧
      m.newNode.2.prev c = m.prev c ∧ m.newNode.2.value c = m.value c :=
    fun c hcn => NodeMem.next_congr m m.newNode.2 c (n3 c hcn)
  have hl0 : ∀ c, (m.node c).isSome = true → (m.newNode.2.node c).isSome = true := by
    intro c hcl
    rw [n3 c (fresh_of_live m c hcl)]; exact hcl
  have hnew0 := NodeMem.fields_of_node_none m m.length n0
  obtain ⟨m1, e1, a1, b1, c1, d1⟩ := NodeMem.set_prev_spec m.newNode.2 m.length pv n2
  obtain ⟨m2, e2, a2, b2, c2, d2⟩ := NodeMem.set_next_spec m1 pv m.length
    (by rw [d1]; exact hl0 pv hlive)
  obtain ⟨m3, e3, a3, b3, c3, d3⟩ := NodeMem.set_next_spec m2 m.length pos
    (by rw [d2, d1]; exact n2)
  obtain ⟨m4, e4, a4, b4, c4, d4⟩ := NodeMem.set_prev_spec m3 pos m.length
    (by rw [d3, d2, d1]; exact hl0 pos hposlive)
  obtain ⟨m5, e5, a5, b5, c5, d5⟩ := NodeMem.construct_value_spec m4 m.length val
    (by rw [d4, d3, d2, d1]; exact n2)
  have hp0 : m.newNode.2.prev pos = some pv := by
    rw [(hv0 pos (fresh_of_live m pos hposlive)).2.1]; exact hpv
  refine ⟨m5, ?_, ?_, ?_, ?_, ?_⟩
  · simp [emplace, n1, hp0, e1, e2, e3, e4, e5]
  · intro c
    rw [a5, a4, a3, a2, a1]
    by_cases h1 : c = m.length
    · simp [h1]
    · simp [h1, (hv0 c h1).1]
  · intro c
    rw [b5, b4, b3, b2, b1]
    by_cases h1 : c = m.length
    · subst h1; simp
    · simp [h1, (hv0 c h1).2.1]
  · intro c
    rw [c5, c4, c3, c2, c1]
    by_cases h1 : c = m.length
    · simp [h1]
    · simp [h1, (hv0 c h1).2.2]
  · intro c hc
    rw [d5, d4, d3, d2, d1]; exact hl0 c hc

/-- Effect of `erase(pos)` on the store, `pv` and `nx` being the neighbours of the node `p`
that `pos` points to. -/
theorem erase_effect (l : NodeList) (m : NodeMem T) (p pv nx : Nat) (x : T)
    (hnx : m.next p = some nx) (hpv : m.prev p = some pv) (hx : m.value p = some x)
    (hlpv : (m.node pv).isSome = true) (hlnx : (m.node nx).isSome = true) :
    ∃ m', l.erase { m_curr := p } m =
        some (({ l with m_size := size_decr l.m_size }, m'), { m_curr := nx }) ∧
      m'.node p = none ∧
      (∀ c, c ≠ p → m'.next c = if c = pv then some nx else m.next c) ∧
      (∀ c, c ≠ p → m'.prev c = if c = nx then some pv else m.prev c) ∧
      (∀ c, c ≠ p → m'.value c = m.value c) ∧
      (∀ c, c ≠ p → (m'.node c).isSome = (m.node c).isSome) := by
  have hlp : (m.node p).isSome = true := NodeMem.live_of_next m p nx hnx
  obtain ⟨m1, e1, a1, b1, c1, d1⟩ := NodeMem.set_next_spec m pv nx hlpv
  obtain ⟨m2, e2, a2, b2, c2, d2⟩ := NodeMem.set_prev_spec m1 nx pv (by rw [d1]; exact hlnx)
  obtain ⟨m3, e3, a3, b3, c3, d3⟩ := NodeMem.destroy_value_spec m2 p x
    (by rw [c2, c1]; exact hx)
  obtain ⟨m4, e4, f1, f2⟩ := NodeMem.deleteNode_spec m3 p (by rw [d3, d2, d1]; exact hlp)
  refine ⟨m4, by simp [erase, hnx, hpv, e1, e2, e3, e4], f1, ?_, ?_, ?_, ?_⟩
  · intro c hc
    rw [(NodeMem.next_congr m3 m4 c (f2 c hc)).1, a3, a2, a1]
  · intro c hc
    rw [(NodeMem.next_congr m3 m4 c (f2 c hc)).2.1, b3, b2, b1]
  · intro c hc
    rw [(NodeMem.next_congr m3 m4 c (f2 c hc)).2.2, c3, if_neg hc, c2, c1]
  · intro c hc
    rw [f2 c hc, d3, d2, d1]

end NodeList

end MiniSTL
namespace MiniSTL

namespace NodeList

variable {T : Type}

theorem values_split (m : NodeMem T) (l1 l2 : List Nat) (x1 x2 : List T)
    (h : (l1 ++ l2).map (fun p => m.value p) = (x1 ++ x2).map some)
    (hx : x1.length = l1.length) :
    l1.map (fun p => m.value p) = x1.map some ∧ l2.map (fun p => m.value p) = x2.map some := by
  rw [List.map_append, List.map_append] at h
  exact List.append_inj h (by simp [hx])

theorem nodup_concat_of_cons (d : Nat) (ns : List Nat) (h : (d :: ns).Nodup) :
    (ns ++ [d]).Nodup :=
  (List.perm_append_singleton d ns).nodup_iff.mpr h

/-- `emplace(pos, val)` on a well-formed list whose nodes are `l1 ++ l2`, `pos` pointing to
the first node of `l2` (to the sentinel when `l2` is empty). -/
theorem list_emplace_split (l : NodeList) (m : NodeMem T) (l1 l2 : List Nat)
    (x1 x2 : List T) (val : T) (pos : Nat)
    (h : l.Holds m (l1 ++ l2) (x1 ++ x2)) (hx : x1.length = l1.length)
    (hpos : (l2 ++ [l.m_dummy]).head? = some pos) :
    ∃ m', l.emplace { m_curr := pos } val m =
        some (({ l with m_size := l.m_size + 1 }, m'), { m_curr := m.length }) ∧
      Holds { l with m_size := l.m_size + 1 } m' (l1 ++ m.length :: l2) (x1 ++ val :: x2) ∧
      m.length ∉ l.m_dummy :: (l1 ++ l2) ∧
      m'.next m.length = some pos ∧
      (∀ p, (m.node p).isSome = true → m'.value p = m.value p ∧
        (m'.node p).isSome = true) := by
  obtain ⟨hnd, hlk, hval, hsz⟩ := h
  obtain ⟨B, hB⟩ : ∃ B, l2 ++ [l.m_dummy] = pos :: B := by
    cases hl : l2 ++ [l.m_dummy] with
    | nil => simp at hl
    | cons a r =>
      rw [hl] at hpos
      simp only [List.head?_cons, Option.some.injEq] at hpos
      exact ⟨r, by rw [hpos]⟩
  obtain ⟨A, pv, hA⟩ : ∃ A pv, l.m_dummy :: l1 = A ++ [pv] :=
    ⟨(l.m_dummy :: l1).dropLast, (l.m_dummy :: l1).getLast (by simp),
      (List.dropLast_append_getLast (by simp)).symm⟩
  have hfull : l.m_dummy :: (l1 ++ l2) ++ [l.m_dummy] = A ++ pv :: pos :: B := by
    have : l.m_dummy :: (l1 ++ l2) ++ [l.m_dummy] = (l.m_dummy :: l1) ++ (l2 ++ [l.m_dummy]) := by
      simp
    rw [this, hA, hB]; simp
  have hlk' : Linked m (A ++ pv :: pos :: B) := by rw [← hfull]; exact hlk
  have hGdl : (pos :: B).dropLast = l2 := by rw [← hB, List.dropLast_concat]
  have hFtl : (A ++ [pv]).tail = l1 := by rw [← hA]; rfl
  have hnd1 : (A ++ pv :: (pos :: B).dropLast).Nodup := by
    have : A ++ pv :: (pos :: B).dropLast = l.m_dummy :: (l1 ++ l2) := by
      rw [hGdl]
      have : A ++ pv :: l2 = (A ++ [pv]) ++ l2 := by simp
      rw [this, ← hA]; simp
    rw [this]; exact hnd
  have hnd2 : ((A ++ [pv]).tail ++ pos :: B).Nodup := by
    rw [hFtl, ← hB, ← List.append_assoc]
    exact nodup_concat_of_cons _ _ hnd
  have hlive : ∀ a ∈ l.m_dummy :: (l1 ++ l2), (m.node a).isSome = true :=
    fun a ha => linked_live m l.m_dummy (l.m_dummy :: (l1 ++ l2)) hlk a ha
  have hfresh : ∀ a ∈ l.m_dummy :: (l1 ++ l2), a ≠ m.length :=
    fun a ha => fresh_of_live m a (hlive a ha)
  have hpvmem : pv ∈ l.m_dummy :: (l1 ++ l2) := by
    have : pv ∈ l.m_dummy :: l1 := by rw [hA]; simp
    simp only [List.mem_cons, List.mem_append] at this ⊢
    tauto
  have hlinkpv : Link m pv pos :=
    ((linked_cons_cons m pv pos B).mp ((linked_append_iff m pv (pos :: B) A).mp hlk').2).1
  obtain ⟨m', e1, e2, e3, e4, e5⟩ := emplace_effect l m pos pv val hlinkpv.2
    (hlive pv hpvmem)
  have hnewfull : m.length ∉ A ++ pv :: pos :: B := by
    rw [← hfull]
    intro hmem
    simp only [List.mem_append, List.mem_cons, List.mem_singleton, List.not_mem_nil,
      or_false] at hmem
    rcases hmem with hmem | hmem
    · exact hfresh _ (by simpa using hmem) rfl
    · exact hfresh _ (by simp) hmem.symm
  have hring := ring_insert m m' A B pv pos m.length hlk' hnd1 hnd2 hnewfull e2 e3
  have hnotin : m.length ∉ l.m_dummy :: (l1 ++ l2) := fun hmem => hfresh _ hmem rfl
  obtain ⟨hv1, hv2⟩ := values_split m l1 l2 x1 x2 hval hx
  refine ⟨m', e1, ⟨?_, ?_, ?_, ?_⟩, hnotin, by rw [e2]; simp, ?_⟩
  · show (l.m_dummy :: (l1 ++ m.length :: l2)).Nodup
    have hp : (l.m_dummy :: (l1 ++ m.length :: l2)).Perm
        (m.length :: l.m_dummy :: (l1 ++ l2)) :=
      ((@List.perm_middle _ m.length l1 l2).cons l.m_dummy).trans
        (List.Perm.swap _ _ _)
    rw [hp.nodup_iff, List.nodup_cons]
    exact ⟨hnotin, hnd⟩
  · show Linked m' (l.m_dummy :: (l1 ++ m.length :: l2) ++ [l.m_dummy])
    have : l.m_dummy :: (l1 ++ m.length :: l2) ++ [l.m_dummy] =
        A ++ pv :: m.length :: pos :: B := by
      have : l.m_dummy :: (l1 ++ m.length :: l2) ++ [l.m_dummy] =
          (l.m_dummy :: l1) ++ m.length :: (l2 ++ [l.m_dummy]) := by simp
      rw [this, hA, hB]; simp
    rw [this]; exact hring
  · rw [List.map_append, List.map_append, List.map_cons, List.map_cons, ← hv1, ← hv2]
    have hv : ∀ p ∈ l1 ++ l2, m'.value p = m.value p := by
      intro p hp
      rw [e4 p, if_neg (hfresh p (by simp [List.mem_append] at hp ⊢; tauto))]
    congr 1
    · exact List.map_congr_left fun p hp => hv p (by simp [hp])
    · congr 1
      · rw [e4]; simp
      · exact List.map_congr_left fun p hp => hv p (by simp [hp])
  · simp [hsz]; omega
  · intro p hp
    exact ⟨by rw [e4 p, if_neg (fresh_of_live m p hp)], e5 p hp⟩

end NodeList

end MiniSTL
namespace MiniSTL

namespace NodeList

variable {T : Type}

theorem size_decr_succ (n : Nat) (h : 0 < n) : size_decr n = n - 1 := by
  unfold size_decr
  rw [if_neg (by omega)]

/-- `erase(pos)` on a well-formed list whose nodes are `l1 ++ p :: l2`, `pos` pointing to
`p`: the node is unlinked and released, the other nodes are left as they were. -/
theorem list_erase_split (l : NodeList) (m : NodeMem T) (l1 l2 : List Nat) (p : Nat)
    (x1 x2 : List T) (x : T)
    (h : l.Holds m (l1 ++ p :: l2) (x1 ++ x :: x2)) (hx : x1.length = l1.length) :
    ∃ m' nx, (l2 ++ [l.m_dummy]).head? = some nx ∧
      l.erase { m_curr := p } m =
        some (({ l with m_size := l.m_size - 1 }, m'), { m_curr := nx }) ∧
      Holds { l with m_size := l.m_size - 1 } m' (l1 ++ l2) (x1 ++ x2) ∧
      m'.node p = none ∧
      (∀ c, c ≠ p → m'.value c = m.value c ∧ (m'.node c).isSome = (m.node c).isSome) := by
  obtain ⟨hnd, hlk, hval, hsz⟩ := h
  obtain ⟨nx, B, hB⟩ : ∃ nx B, l2 ++ [l.m_dummy] = nx :: B := by
    cases hl : l2 ++ [l.m_dummy] with
    | nil => simp at hl
    | cons a r => exact ⟨a, r, rfl⟩
  obtain ⟨A, pv, hA⟩ : ∃ A pv, l.m_dummy :: l1 = A ++ [pv] :=
    ⟨(l.m_dummy :: l1).dropLast, (l.m_dummy :: l1).getLast (by simp),
      (List.dropLast_append_getLast (by simp)).symm⟩
  have hfull : l.m_dummy :: (l1 ++ p :: l2) ++ [l.m_dummy] = A ++ pv :: p :: nx :: B := by
    have : l.m_dummy :: (l1 ++ p :: l2) ++ [l.m_dummy] =
        (l.m_dummy :: l1) ++ p :: (l2 ++ [l.m_dummy]) := by simp
    rw [this, hA, hB]; simp
  have hlk' : Linked m (A ++ pv :: p :: nx :: B) := by rw [← hfull]; exact hlk
  have hGdl : (nx :: B).dropLast = l2 := by rw [← hB, List.dropLast_concat]
  have hFtl : (A ++ [pv]).tail = l1 := by rw [← hA]; rfl
  have hnd1 : (A ++ pv :: p :: (nx :: B).dropLast).Nodup := by
    have : A ++ pv :: p :: (nx :: B).dropLast = l.m_dummy :: (l1 ++ p :: l2) := by
      rw [hGdl]
      have : A ++ pv :: p :: l2 = (A ++ [pv]) ++ p :: l2 := by simp
      rw [this, ← hA]; simp
    rw [this]; exact hnd
  have hnd2 : ((A ++ [pv]).tail ++ p :: nx :: B).Nodup := by
    rw [hFtl, ← hB]
    have : l1 ++ p :: (l2 ++ [l.m_dummy]) = (l1 ++ p :: l2) ++ [l.m_dummy] := by simp
    rw [this]
    exact nodup_concat_of_cons _ _ hnd
  have hlive : ∀ a ∈ l.m_dummy :: (l1 ++ p :: l2), (m.node a).isSome = true :=
    fun a ha => linked_live m l.m_dummy (l.m_dummy :: (l1 ++ p :: l2)) hlk a ha
  have hpvmem : pv ∈ l.m_dummy :: (l1 ++ p :: l2) := by
    have : pv ∈ l.m_dummy :: l1 := by rw [hA]; simp
    simp only [List.mem_cons, List.mem_append] at this ⊢
    tauto
  have hnxmem : nx ∈ l.m_dummy :: (l1 ++ p :: l2) := by
    have : nx ∈ l2 ++ [l.m_dummy] := by rw [hB]; simp
    simp only [List.mem_cons, List.mem_append, List.mem_singleton, List.not_mem_nil,
      or_false] at this ⊢
    tauto
  have h2 := ((linked_append_iff m pv (p :: nx :: B) A).mp hlk').2
  obtain ⟨hl1, h3⟩ := (linked_cons_cons m pv p (nx :: B)).mp h2
  obtain ⟨hl2, _⟩ := (linked_cons_cons m p nx B).mp h3
  obtain ⟨hv1, hv2⟩ := values_split m l1 (p :: l2) x1 (x :: x2) hval hx
  have hvp : m.value p = some x := by
    simp only [List.map_cons, List.cons.injEq] at hv2
    exact hv2.1
  obtain ⟨m', e1, e2, e3, e4, e5, e6⟩ := erase_effect l m p pv nx x hl2.1 hl1.2 hvp
    (hlive pv hpvmem) (hlive nx hnxmem)
  have hring := ring_remove m m' A B pv p nx hlk' hnd1 hnd2 e3 e4
  have hpos : 0 < l.m_size := by rw [hsz]; simp
  have hpnot : p ∉ l1 ++ l2 := by
    have hp : (l.m_dummy :: (l1 ++ p :: l2)).Perm (p :: l.m_dummy :: (l1 ++ l2)) :=
      ((@List.perm_middle _ p l1 l2).cons l.m_dummy).trans (List.Perm.swap _ _ _)
    have := hp.nodup_iff.mp hnd
    rw [List.nodup_cons] at this
    intro hmem
    exact this.1 (by simp [hmem])
  refine ⟨m', nx, by rw [hB]; rfl, ?_, ⟨?_, ?_, ?_, ?_⟩, e2,
    fun c hc => ⟨e5 c hc, e6 c hc⟩⟩
  · rw [e1, size_decr_succ _ hpos]
  · show (l.m_dummy :: (l1 ++ l2)).Nodup
    have hp : (l.m_dummy :: (l1 ++ p :: l2)).Perm (p :: l.m_dummy :: (l1 ++ l2)) :=
      ((@List.perm_middle _ p l1 l2).cons l.m_dummy).trans (List.Perm.swap _ _ _)
    have := hp.nodup_iff.mp hnd
    rw [List.nodup_cons] at this
    exact this.2
  · show Linked m' (l.m_dummy :: (l1 ++ l2) ++ [l.m_dummy])
    have : l.m_dummy :: (l1 ++ l2) ++ [l.m_dummy] = A ++ pv :: nx :: B := by
      have : l.m_dummy :: (l1 ++ l2) ++ [l.m_dummy] =
          (l.m_dummy :: l1) ++ (l2 ++ [l.m_dummy]) := by simp
      rw [this, hA, hB]; simp
    rw [this]; exact hring
  · have hv2' : l2.map (fun q => m.value q) = x2.map some := by
      simp only [List.map_cons, List.cons.injEq] at hv2
      exact hv2.2
    rw [List.map_append, List.map_append, ← hv1, ← hv2']
    have hv : ∀ q ∈ l1 ++ l2, m'.value q = m.value q := by
      intro q hq
      exact e5 q (fun e => hpnot (e ▸ hq))
    congr 1
    · exact List.map_congr_left fun q hq => hv q (by simp [hq])
    · exact List.map_congr_left fun q hq => hv q (by simp [hq])
  · simp [hsz]

end NodeList

end MiniSTL
namespace MiniSTL

namespace NodeList

variable {T : Type}

theorem holds_lengths (l : NodeList) (m : NodeMem T) (ns : List Nat) (xs : List T)
    (h : l.Holds m ns xs) : xs.length = ns.length ∧ l.m_size = ns.length := by
  have := holds_length l m ns xs h
  exact ⟨by rw [this, h.2.2.2], h.2.2.2⟩

theorem head_drop_concat (ns : List Nat) (d j p : Nat) (h : (ns ++ [d])[j]? = some p) :
    j ≤ ns.length ∧ (ns.drop j ++ [d]).head? = some p := by
  have hj : j ≤ ns.length := by
    by_contra hc
    rw [List.getElem?_eq_none (by simp; omega)] at h
    cases h
  refine ⟨hj, ?_⟩
  rw [← List.drop_append_of_le_length hj, List.head?_drop]
  exact h

theorem iterator_eq_iff (a b : Nat) :
    (({ m_curr := a } : iterator) = { m_curr := b }) ↔ a = b :=
  ⟨fun e => congrArg iterator.m_curr e, fun e => by rw [e]⟩

/-- `emplace(pos, val)` with `pos` at index `j` of a well-formed list (`j = size()` for
`end()`). -/
theorem list_emplace_spec (l : NodeList) (m : NodeMem T) (ns : List Nat) (xs : List T)
    (val : T) (j pos : Nat) (h : l.Holds m ns xs)
    (hpos : (ns ++ [l.m_dummy])[j]? = some pos) :
    ∃ m', l.emplace { m_curr := pos } val m =
        some (({ l with m_size := l.m_size + 1 }, m'), { m_curr := m.length }) ∧
      Holds { l with m_size := l.m_size + 1 } m' (ns.take j ++ [m.length] ++ ns.drop j)
        (xs.take j ++ [val] ++ xs.drop j) ∧
      m.length ∉ l.m_dummy :: ns ∧ m'.next m.length = some pos ∧
      (∀ p, (m.node p).isSome = true → m'.value p = m.value p ∧
        (m'.node p).isSome = true) := by
  obtain ⟨hj, hhead⟩ := head_drop_concat ns l.m_dummy j pos hpos
  obtain ⟨hlen, _⟩ := holds_lengths l m ns xs h
  have h' : l.Holds m (ns.take j ++ ns.drop j) (xs.take j ++ xs.drop j) := by
    rw [List.take_append_drop, List.take_append_drop]; exact h
  obtain ⟨m', e1, e2, e3, e4, e5⟩ := list_emplace_split l m (ns.take j) (ns.drop j)
    (xs.take j) (xs.drop j) val pos h' (by simp [List.length_take]; omega) hhead
  rw [List.take_append_drop] at e3
  refine ⟨m', e1, ?_, e3, e4, e5⟩
  simpa using e2

/-- `erase(pos)` with `pos` at index `j < size()` of a well-formed list. -/
theorem list_erase_spec (l : NodeList) (m : NodeMem T) (ns : List Nat) (xs : List T)
    (j p : Nat) (h : l.Holds m ns xs) (hpos : ns[j]? = some p) :
    ∃ m' nx, (ns ++ [l.m_dummy])[j + 1]? = some nx ∧
      l.erase { m_curr := p } m =
        some (({ l with m_size := l.m_size - 1 }, m'), { m_curr := nx }) ∧
      Holds { l with m_size := l.m_size - 1 } m' (ns.take j ++ ns.drop (j + 1))
        (xs.take j ++ xs.drop (j + 1)) ∧
      0 < l.m_size ∧ m'.node p = none ∧
      (∀ c, c ≠ p → m'.value c = m.value c ∧ (m'.node c).isSome = (m.node c).isSome) := by
  obtain ⟨hlen, hsz⟩ := holds_lengths l m ns xs h
  have hj : j < ns.length := by
    by_contra hc
    rw [List.getElem?_eq_none (by omega)] at hpos
    cases hpos
  have hjx : j < xs.length := by omega
  have hp : ns[j] = p := by
    rw [List.getElem?_eq_getElem hj] at hpos
    exact Option.some.inj hpos
  have hns : ns = ns.take j ++ p :: ns.drop (j + 1) := by
    rw [← hp, ← List.drop_eq_getElem_cons hj, List.take_append_drop]
  have hxs : xs = xs.take j ++ xs[j] :: xs.drop (j + 1) := by
    rw [← List.drop_eq_getElem_cons hjx, List.take_append_drop]
  have h' : l.Holds m (ns.take j ++ p :: ns.drop (j + 1))
      (xs.take j ++ xs[j] :: xs.drop (j + 1)) := by
    rw [← hns, ← hxs]; exact h
  obtain ⟨m', nx, e0, e1, e2, e3, e4⟩ := list_erase_split l m (ns.take j) (ns.drop (j + 1)) p
    (xs.take j) (xs.drop (j + 1)) xs[j] h' (by simp [List.length_take]; omega)
  refine ⟨m', nx, ?_, e1, e2, by omega, e3, e4⟩
  rw [← List.head?_drop, List.drop_append_of_le_length (by omega)]
  exact e0

end NodeList

end MiniSTL
namespace MiniSTL

namespace NodeList

variable {T : Type}

/-- Source `erase(first, last)` on the run `r` of consecutive value nodes starting at `first`
and ending just before `last`: the loop needs `r.length` iterations, frees exactly the nodes
of `r` and returns `last`. -/
theorem list_erase_range_split (r : List Nat) :
    ∀ (l : NodeList) (m : NodeMem T) (l1 l2 : List Nat) (x1 xr x2 : List T) (fuel : Nat)
      (first last : Nat),
      l.Holds m (l1 ++ r ++ l2) (x1 ++ xr ++ x2) → x1.length = l1.length →
      xr.length = r.length → r.length ≤ fuel →
      (r ++ l2 ++ [l.m_dummy]).head? = some first →
      (l2 ++ [l.m_dummy]).head? = some last →
      ∃ m', l.erase_range { m_curr := first } { m_curr := last } m fuel =
          some (({ l with m_size := l.m_size - r.length }, m'), { m_curr := last }) ∧
        Holds { l with m_size := l.m_size - r.length } m' (l1 ++ l2) (x1 ++ x2) ∧
        (∀ p ∈ r, m'.node p = none) ∧
        (∀ c, c ∉ r → m'.value c = m.value c ∧ (m'.node c).isSome = (m.node c).isSome) := by
  induction r with
  | nil =>
    intro l m l1 l2 x1 xr x2 fuel first last h hx hxr _ hf hl
    have hxr0 : xr = [] := List.length_eq_zero.mp (by simpa using hxr)
    subst hxr0
    simp only [List.nil_append] at hf
    rw [hf] at hl
    have e : first = last := Option.some.inj hl
    subst e
    refine ⟨m, ?_, ?_, ?_, ?_⟩
    · unfold erase_range
      simp
    · simpa using h
    · intro p hp; cases hp
    · intro c _; exact ⟨rfl, rfl⟩
  | cons p r ih =>
    intro l m l1 l2 x1 xr x2 fuel first last h hx hxr hfuel hf hl
    rcases xr with _ | ⟨x, xr⟩
    · simp at hxr
    have hxr' : xr.length = r.length := by simpa using hxr
    have e : first = p := by
      simp only [List.cons_append, List.head?_cons] at hf
      exact (Option.some.inj hf).symm
    subst e
    have hnd : (l.m_dummy :: (l1 ++ first :: r ++ l2)).Nodup := h.1
    have hmem : last ∈ l2 ++ [l.m_dummy] := List.mem_of_mem_head? hl
    have hnd2 : (first :: (r ++ (l2 ++ [l.m_dummy]))).Nodup := by
      have h0 := nodup_concat_of_cons l.m_dummy _ hnd
      have h1 : l1 ++ (first :: (r ++ (l2 ++ [l.m_dummy]))) =
          l1 ++ first :: r ++ l2 ++ [l.m_dummy] := by simp
      rw [← h1] at h0
      exact (List.nodup_append.mp h0).2.1
    have hnot := (List.nodup_cons.mp hnd2).1
    have hne : first ≠ last := by
      intro e
      rw [← e] at hmem
      exact hnot (List.mem_append_right _ hmem)
    rcases fuel with _ | k
    · simp at hfuel
    have h' : l.Holds m (l1 ++ first :: (r ++ l2)) (x1 ++ x :: (xr ++ x2)) := by
      simpa using h
    obtain ⟨m1, nx, e0, e1, e2, e3, e4⟩ :=
      list_erase_split l m l1 (r ++ l2) first x1 (xr ++ x2) x h' hx
    have h2' : Holds { l with m_size := l.m_size - 1 } m1 (l1 ++ r ++ l2) (x1 ++ xr ++ x2) := by
      simpa using e2
    obtain ⟨m', f1, f2, f3, f4⟩ := ih { l with m_size := l.m_size - 1 } m1 l1 l2 x1 xr x2 k
      nx last h2' hx hxr' (by simpa using hfuel) e0 hl
    have hsz : l.m_size - 1 - r.length = l.m_size - (first :: r).length := by
      simp only [List.length_cons]; omega
    simp only [hsz] at f1 f2
    have hpr : first ∉ r := fun hc => hnot (List.mem_append_left _ hc)
    refine ⟨m', ?_, f2, ?_, ?_⟩
    · unfold erase_range
      rw [if_neg (fun hc => hne ((iterator_eq_iff first last).mp hc))]
      simp only [e1, Option.bind_some]
      exact f1
    · intro q hq
      rcases List.mem_cons.mp hq with e | e
      · subst e
        have := (f4 q hpr).2
        rw [e3] at this
        cases hn : m'.node q with
        | none => rfl
        | some _ => rw [hn] at this; simp at this
      · exact f3 q e
    · intro c hc
      have hc1 : c ≠ first := fun e => hc (by rw [e]; simp)
      have hc2 : c ∉ r := fun e => hc (List.mem_cons_of_mem _ e)
      obtain ⟨a1, a2⟩ := f4 c hc2
      obtain ⟨b1, b2⟩ := e4 c hc1
      exact ⟨a1.trans b1, a2.trans b2⟩

/-- Source `pop_front()` on a well-formed list with first node `p`. -/
theorem list_pop_front_spec (l : NodeList) (m : NodeMem T) (p : Nat) (ns : List Nat) (x : T)
    (xs : List T) (h : l.Holds m (p :: ns) (x :: xs)) :
    ∃ m', l.pop_front m = some ({ l with m_size := l.m_size - 1 }, m') ∧
      Holds { l with m_size := l.m_size - 1 } m' ns xs ∧ m'.node p = none ∧
      (∀ c, c ≠ p → m'.value c = m.value c ∧ (m'.node c).isSome = (m.node c).isSome) := by
  have hn : m.next l.m_dummy = some p := h.2.1.1.1
  obtain ⟨m', nx, _, e1, e2, e3, e4⟩ :=
    list_erase_split l m [] ns p [] xs x (by simpa using h) rfl
  refine ⟨m', ?_, by simpa using e2, e3, e4⟩
  unfold pop_front begin_
  simp [hn, e1]

/-- Source `pop_back()` on a well-formed list with last node `p`. -/
theorem list_pop_back_spec (l : NodeList) (m : NodeMem T) (p : Nat) (ns : List Nat) (x : T)
    (xs : List T) (h : l.Holds m (ns ++ [p]) (xs ++ [x])) :
    ∃ m', l.pop_back m = some ({ l with m_size := l.m_size - 1 }, m') ∧
      Holds { l with m_size := l.m_size - 1 } m' ns xs ∧ m'.node p = none ∧
      (∀ c, c ≠ p → m'.value c = m.value c ∧ (m'.node c).isSome = (m.node c).isSome) := by
  have hl : Linked m ((l.m_dummy :: ns) ++ [p, l.m_dummy]) := by
    have := h.2.1
    simpa using this
  have hp : m.prev l.m_dummy = some p :=
    ((linked_concat m p l.m_dummy (l.m_dummy :: ns)).mp hl).2.2
  have hlen := (holds_lengths l m _ _ h).1
  obtain ⟨m', nx, _, e1, e2, e3, e4⟩ :=
    list_erase_split l m ns [] p xs [] x h (by simpa using hlen)
  refine ⟨m', ?_, by simpa using e2, e3, e4⟩
  unfold pop_back end_ iterator.decr
  simp [hp, e1]

end NodeList

end MiniSTL
namespace MiniSTL

namespace NodeList

variable {T : Type}

/-- The loop of `clear()` over the run `r` of nodes that ends at the sentinel `d`: it needs
`r.length` iterations and frees exactly the nodes of `r`. -/
theorem clear_loop_spec (d : Nat) (r : List Nat) :
    ∀ (m : NodeMem T) (fuel curr : Nat), (r ++ [d]).Nodup → Linked m (r ++ [d]) →
      (∀ p ∈ r, ∃ x, m.value p = some x) → (r ++ [d]).head? = some curr → r.length ≤ fuel →
      ∃ m', clear.loop d curr m fuel = some m' ∧ (∀ p ∈ r, m'.node p = none) ∧
        (∀ c, c ∉ r → m'.node c = m.node c) := by
  induction r with
  | nil =>
    intro m fuel curr _ _ _ hh _
    have e : curr = d := by simpa using hh.symm
    subst e
    refine ⟨m, ?_, fun p hp => (by cases hp), fun c _ => rfl⟩
    unfold clear.loop
    simp
  | cons p r ih =>
    intro m fuel curr hnd hl hv hh hfuel
    have e : curr = p := by simpa using hh.symm
    subst e
    have hnd' := List.nodup_cons.mp hnd
    have hne : curr ≠ d := fun e => hnd'.1 (by rw [e]; simp)
    rcases fuel with _ | k
    · simp at hfuel
    obtain ⟨x, hx⟩ := hv curr (by simp)
    obtain ⟨m1, e1, n1, p1, v1, a1⟩ := NodeMem.destroy_value_spec m curr x hx
    obtain ⟨nx, hnx, hl'⟩ : ∃ nx, (r ++ [d]).head? = some nx ∧ m.next curr = some nx ∧
        Linked m (r ++ [d]) := by
      rcases r with _ | ⟨q, r⟩
      · exact ⟨d, rfl, hl.1.1, trivial⟩
      · exact ⟨q, rfl, hl.1.1, hl.2⟩
    have hlive : (m1.node curr).isSome = true := by
      rw [a1]; exact NodeMem.live_of_next m curr nx hl'.1
    obtain ⟨m2, e2, d2, f2⟩ := NodeMem.deleteNode_spec m1 curr hlive
    have hfr : ∀ c, c ≠ curr → m2.next c = m.next c ∧ m2.prev c = m.prev c ∧
        m2.value c = m.value c := by
      intro c hc
      obtain ⟨b1, b2, b3⟩ := NodeMem.next_congr m1 m2 c (f2 c hc)
      refine ⟨b1.trans (n1 c), b2.trans (p1 c), ?_⟩
      rw [b3, v1 c, if_neg hc]
    have hl2 : Linked m2 (r ++ [d]) := by
      apply linked_frame m m2 (r ++ [d]) _ _ hl'.2
      · intro a ha
        have : a ∈ r ++ [d] := List.mem_of_mem_dropLast ha
        exact (hfr a (fun e => hnd'.1 (by rw [← e]; exact this))).1
      · intro b hb
        have : b ∈ r ++ [d] := List.mem_of_mem_tail hb
        exact (hfr b (fun e => hnd'.1 (by rw [← e]; exact this))).2.1
    have hv2 : ∀ q ∈ r, ∃ y, m2.value q = some y := by
      intro q hq
      obtain ⟨y, hy⟩ := hv q (List.mem_cons_of_mem _ hq)
      refine ⟨y, ?_⟩
      rw [(hfr q (fun e => hnd'.1 (by rw [← e]; simp [hq]))).2.2]; exact hy
    obtain ⟨m', g1, g2, g3⟩ := ih m2 k nx hnd'.2 hl2 hv2 hnx (by simpa using hfuel)
    have hcr : curr ∉ r := fun hc => hnd'.1 (List.mem_append_left _ hc)
    refine ⟨m', ?_, ?_, ?_⟩
    · unfold clear.loop
      rw [if_neg hne]
      simp only [e1, Option.some_bind, n1, hl'.1, e2]
      exact g1
    · intro q hq
      rcases List.mem_cons.mp hq with e | e
      · subst e; rw [g3 q hcr]; exact d2
      · exact g2 q e
    · intro c hc
      have hc1 : c ≠ curr := fun e => hc (by rw [e]; simp)
      have hc2 : c ∉ r := fun e => hc (List.mem_cons_of_mem _ e)
      rw [g3 c hc2, f2 c hc1]
      have := a1 c
      cases h1 : m1.node c with
      | none => 
        cases h0 : m.node c with
        | none => rfl
        | some _ => rw [h1, h0] at this; simp at this
      | some n1' =>
        cases h0 : m.node c with
        | none => rw [h1, h0] at this; simp at this
        | some n0 =>
          have w1 := n1 c
          have w2 := p1 c
          have w3 := v1 c
          rw [if_neg hc1] at w3
          simp only [NodeMem.next, NodeMem.prev, NodeMem.value, h1, h0, Option.bind_some] at w1 w2 w3
          cases n1'; cases n0
          simp at w1 w2 w3
          simp [w1, w2, w3]

end NodeList

end MiniSTL
namespace MiniSTL

namespace NodeList

variable {T : Type}

/-- In a well-formed list the sentinel's `m_next` is the first node of `ns ++ [m_dummy]` and
its `m_prev` the last node of `m_dummy :: ns`. -/
theorem holds_sentinel_links (l : NodeList) (m : NodeMem T) (ns : List Nat) (xs : List T)
    (h : l.Holds m ns xs) :
    m.next l.m_dummy = (ns ++ [l.m_dummy]).head? ∧
      m.prev l.m_dummy = (l.m_dummy :: ns).getLast? := by
  constructor
  · rcases ns with _ | ⟨p, ns⟩
    · exact h.2.1.1.1
    · exact h.2.1.1.1
  · rcases List.eq_nil_or_concat ns with e | ⟨ns', q, e⟩
    · subst e
      exact h.2.1.1.2
    · subst e
      have hl : Linked m ((l.m_dummy :: ns') ++ [q, l.m_dummy]) := by
        have := h.2.1
        simpa using this
      have := ((linked_concat m q l.m_dummy (l.m_dummy :: ns')).mp hl).2.2
      rw [this]
      rw [List.concat_eq_append, ← List.cons_append, List.getLast?_append]
      simp

/-- Source `empty()` on a well-formed list: the comparison `m_dummy.m_prev == m_dummy.m_next`
is true exactly when the list has at most one element. -/
theorem empty_of_holds (l : NodeList) (m : NodeMem T) (ns : List Nat) (xs : List T)
    (h : l.Holds m ns xs) : l.empty m = some (decide (l.m_size ≤ 1)) := by
  obtain ⟨hn, hp⟩ := holds_sentinel_links l m ns xs h
  have hsz := h.2.2.2
  have hnd := h.1
  unfold empty
  rw [hn, hp, hsz]
  rcases ns with _ | ⟨p, ns⟩
  · simp
  · rcases ns with _ | ⟨q, ns⟩
    · simp
    · have hlast : (l.m_dummy :: p :: q :: ns).getLast? = (q :: ns).getLast? := by
        simp [List.getLast?_cons_cons]
      rw [hlast]
      obtain ⟨z, hz⟩ : ∃ z, (q :: ns).getLast? = some z := by
        cases hq : (q :: ns).getLast? with
        | none => simp at hq
        | some z => exact ⟨z, rfl⟩
      have hzm : z ∈ q :: ns := List.mem_of_getLast?_eq_some hz
      have hpz : z ≠ p := by
        intro e
        rw [e] at hzm
        simp only [List.nodup_cons] at hnd
        exact hnd.2.1 hzm
      rw [hz]
      simp [hpz]

/-- Source `clear()` on a well-formed list, given fuel for `size()` iterations: every value
node is freed and the sentinel is linked to itself. -/
theorem list_clear_spec (l : NodeList) (m : NodeMem T) (ns : List Nat) (xs : List T)
    (fuel : Nat) (h : l.Holds m ns xs) (hf : ns.length ≤ fuel) :
    ∃ m', l.clear m fuel = some ({ l with m_size := 0 }, m') ∧
      Holds { l with m_size := 0 } m' [] [] ∧ (∀ p ∈ ns, m'.node p = none) ∧
      (∀ c, c ∉ l.m_dummy :: ns → m'.value c = m.value c ∧
        (m'.node c).isSome = (m.node c).isSome) := by
  obtain ⟨hn, _⟩ := holds_sentinel_links l m ns xs h
  obtain ⟨curr, hcurr⟩ : ∃ c, (ns ++ [l.m_dummy]).head? = some c := by
    rcases ns with _ | ⟨p, ns⟩
    · exact ⟨_, rfl⟩
    · exact ⟨_, rfl⟩
  rw [hcurr] at hn
  have hl : Linked m (l.m_dummy :: (ns ++ [l.m_dummy])) := h.2.1
  have hl' : Linked m (ns ++ [l.m_dummy]) := by
    rcases ns with _ | ⟨p, ns⟩
    · trivial
    · exact hl.2
  have hv : ∀ p ∈ ns, ∃ x, m.value p = some x := by
    intro p hp
    have h3 := h.2.2.1
    obtain ⟨i, hi, e⟩ := List.mem_iff_getElem.mp hp
    have hlen := (holds_lengths l m ns xs h).1
    have := congrArg (fun z => z[i]?) h3
    simp only [List.getElem?_map, List.getElem?_eq_getElem hi, Option.map_some,
      List.getElem?_eq_getElem (show i < xs.length by omega)] at this
    rw [e] at this
    exact ⟨xs[i], Option.some.inj this⟩
  obtain ⟨m1, e1, d1, f1⟩ := clear_loop_spec l.m_dummy ns m fuel curr
    (nodup_concat_of_cons l.m_dummy ns h.1) hl' hv hcurr hf
  have hdn : l.m_dummy ∉ ns := (List.nodup_cons.mp h.1).1
  have hlive : (m1.node l.m_dummy).isSome = true := by
    rw [f1 l.m_dummy hdn]; exact NodeMem.live_of_next m _ _ hn
  obtain ⟨m2, e2, n2, p2, v2, a2⟩ := NodeMem.set_next_spec m1 l.m_dummy l.m_dummy hlive
  obtain ⟨m3, e3, n3, p3, v3, a3⟩ := NodeMem.set_prev_spec m2 l.m_dummy l.m_dummy
    (by rw [a2]; exact hlive)
  refine ⟨m3, ?_, ⟨by simp, ?_, rfl, rfl⟩, ?_, ?_⟩
  · unfold clear
    simp only [hn, Option.some_bind, e1, e2, e3]
  · refine ⟨⟨?_, ?_⟩, trivial⟩
    · rw [n3, n2, if_pos rfl]
    · rw [p3, if_pos rfl]
  · intro p hp
    have := a3 p
    rw [a2, d1 p hp] at this
    cases hn3 : m3.node p with
    | none => rfl
    | some _ => rw [hn3] at this; simp at this
  · intro c hc
    have hc2 : c ∉ ns := fun e => hc (List.mem_cons_of_mem _ e)
    obtain ⟨_, _, b3⟩ := NodeMem.next_congr m m1 c (f1 c hc2)
    exact ⟨by rw [v3, v2, b3], by rw [a3, a2, f1 c hc2]⟩

/-- Source `erase(first, last)` with `first` at index `i` and `last` at index `k` of a
well-formed list, `i ≤ k ≤ size()` (index `size()` being `end()`). -/
theorem list_erase_range_spec (l : NodeList) (m : NodeMem T) (ns : List Nat) (xs : List T)
    (i k first last fuel : Nat) (h : l.Holds m ns xs) (hik : i ≤ k)
    (hfirst : (ns ++ [l.m_dummy])[i]? = some first)
    (hlast : (ns ++ [l.m_dummy])[k]? = some last) (hfuel : k - i ≤ fuel) :
    ∃ m', l.erase_range { m_curr := first } { m_curr := last } m fuel =
        some (({ l with m_size := l.m_size - (k - i) }, m'), { m_curr := last }) ∧
      Holds { l with m_size := l.m_size - (k - i) } m' (ns.take i ++ ns.drop k)
        (xs.take i ++ xs.drop k) ∧
      k - i ≤ l.m_size ∧
      (∀ p ∈ (ns.take k).drop i, m'.node p = none) ∧
      (∀ c, c ∉ (ns.take k).drop i → m'.value c = m.value c ∧
        (m'.node c).isSome = (m.node c).isSome) := by
  obtain ⟨hk, hlh⟩ := head_drop_concat ns l.m_dummy k last hlast
  obtain ⟨hi, hfh⟩ := head_drop_concat ns l.m_dummy i first hfirst
  obtain ⟨hlen, hsz⟩ := holds_lengths l m ns xs h
  have hns : ns = ns.take i ++ (ns.take k).drop i ++ ns.drop k := by
    rw [List.append_assoc]
    conv_lhs => rw [← List.take_append_drop i ns]
    congr 1
    conv_lhs => rw [← List.take_append_drop (k - i) (ns.drop i)]
    rw [List.drop_drop, List.drop_take]
    congr 2
    omega
  have hxs : xs = xs.take i ++ (xs.take k).drop i ++ xs.drop k := by
    rw [List.append_assoc]
    conv_lhs => rw [← List.take_append_drop i xs]
    congr 1
    conv_lhs => rw [← List.take_append_drop (k - i) (xs.drop i)]
    rw [List.drop_drop, List.drop_take]
    congr 2
    omega
  have hrl : ((ns.take k).drop i).length = k - i := by
    simp [List.length_drop, List.length_take]; omega
  have h' : l.Holds m (ns.take i ++ (ns.take k).drop i ++ ns.drop k)
      (xs.take i ++ (xs.take k).drop i ++ xs.drop k) := by
    rw [← hns, ← hxs]; exact h
  have hfh' : ((ns.take k).drop i ++ ns.drop k ++ [l.m_dummy]).head? = some first := by
    have e : (ns.take k).drop i ++ ns.drop k = ns.drop i := by
      conv_rhs => rw [hns]
      rw [List.append_assoc, List.drop_append_of_le_length (by simp; omega)]
      simp [List.drop_take]
    rw [e]; exact hfh
  obtain ⟨m', e1, e2, e3, e4⟩ := list_erase_range_split ((ns.take k).drop i) l m (ns.take i)
    (ns.drop k) (xs.take i) ((xs.take k).drop i) (xs.drop k) fuel first last h'
    (by simp [List.length_take]; omega)
    (by simp [List.length_drop, List.length_take]; omega)
    (by rw [hrl]; exact hfuel) hfh' hlh
  rw [hrl] at e1 e2
  exact ⟨m', e1, e2, by omega, e3, e4⟩

end NodeList

end MiniSTL
namespace MiniSTL

namespace NodeList

variable {T : Type}

/-- The loop of `_uninit_assign(first, last)`: starting behind the live node `prev`, it
appends one fresh node per element of `ys`, linked both ways in a chain that starts at
`prev`, and counts them in `m_size`. -/
theorem build_loop_spec (ys : List T) :
    ∀ (prev sz : Nat) (m : NodeMem T), (m.node prev).isSome = true →
      ∃ last m' built, _uninit_assign_range.loop prev sz m ys =
          some (last, sz + ys.length, m') ∧
        built.length = ys.length ∧ built.Nodup ∧ (∀ p ∈ built, m.node p = none) ∧
        (prev :: built).getLast? = some last ∧ Linked m' (prev :: built) ∧
        built.map (fun p => m'.value p) = ys.map some ∧
        (∀ c, (m.node c).isSome = true → (m'.node c).isSome = true ∧
          m'.prev c = m.prev c ∧ m'.value c = m.value c ∧
          (c ≠ prev → m'.next c = m.next c)) := by
  induction ys with
  | nil =>
    intro prev sz m _
    exact ⟨prev, m, [], rfl, rfl, List.nodup_nil, fun p hp => (by cases hp), rfl, trivial,
      rfl, fun c hc => ⟨hc, rfl, rfl, fun _ => rfl⟩⟩
  | cons y ys ih =>
    intro prev sz m hprev
    obtain ⟨hnew, hfresh, hlive, hold⟩ := NodeMem.newNode_spec m
    have hpn : prev ≠ m.length := fresh_of_live m prev hprev
    have hprev0 : (m.newNode.2.node prev).isSome = true := by rw [hold prev hpn]; exact hprev
    obtain ⟨m1, e1, n1, p1, v1, a1⟩ := NodeMem.set_next_spec m.newNode.2 prev m.length hprev0
    obtain ⟨m2, e2, n2, p2, v2, a2⟩ := NodeMem.set_prev_spec m1 m.length prev
      (by rw [a1]; exact hlive)
    obtain ⟨m3, e3, n3, p3, v3, a3⟩ := NodeMem.construct_value_spec m2 m.length y
      (by rw [a2, a1]; exact hlive)
    have hl3 : (m3.node m.length).isSome = true := by rw [a3, a2, a1]; exact hlive
    obtain ⟨last, m', built, f1, f2, f3, f4, f5, f6, f7, f8⟩ := ih m.length (sz + 1) m3 hl3
    have hold3 : ∀ c, (m.node c).isSome = true → (m3.node c).isSome = true ∧ c ≠ m.length ∧
        m3.prev c = m.prev c ∧ m3.value c = m.value c ∧ (c ≠ prev → m3.next c = m.next c) := by
      intro c hc
      have hcn : c ≠ m.length := fresh_of_live m c hc
      obtain ⟨b1, b2, b3⟩ := NodeMem.next_congr m m.newNode.2 c (hold c hcn)
      refine ⟨by rw [a3, a2, a1, hold c hcn]; exact hc, hcn, ?_, ?_, ?_⟩
      · rw [p3, p2, if_neg hcn, p1, b2]
      · rw [v3, if_neg hcn, v2, v1, b3]
      · intro hcp
        rw [n3, n2, n1, if_neg hcp, b1]
    have hdead : ∀ p ∈ built, m.node p = none := by
      intro p hp
      have h3 := f4 p hp
      cases hm : m.node p with
      | none => rfl
      | some _ =>
        have := (hold3 p (by rw [hm]; rfl)).1
        rw [h3] at this
        simp at this
    have hnb : m.length ∉ built := by
      intro hc
      have := f4 _ hc
      rw [this] at hl3
      simp at hl3
    refine ⟨last, m', m.length :: built, ?_, by simp [f2], List.nodup_cons.mpr ⟨hnb, f3⟩, ?_,
      ?_, ?_, ?_, ?_⟩
    · show (_uninit_assign_range.loop prev sz m (y :: ys)) = _
      unfold _uninit_assign_range.loop
      simp only [hnew, e1, e2, e3, Option.some_bind, f1, List.length_cons]
      congr 3
      omega
    · intro p hp
      rcases List.mem_cons.mp hp with e | e
      · rw [e]; exact hfresh
      · exact hdead p e
    · rw [List.getLast?_cons_cons]; exact f5
    · refine (linked_cons_cons m' prev m.length built).mpr ⟨⟨?_, ?_⟩, f6⟩
      · obtain ⟨_, _, _, _, b5⟩ := hold3 prev hprev
        have := (f8 prev (hold3 prev hprev).1).2.2.2 hpn
        rw [this, n3, n2, n1, if_pos rfl]
      · rw [(f8 m.length hl3).2.1, p3, p2, if_pos rfl]
    · simp only [List.map_cons]
      rw [f7, (f8 m.length hl3).2.2.1, v3, if_pos rfl]
    · intro c hc
      obtain ⟨b1, b2, b3, b4, b5⟩ := hold3 c hc
      obtain ⟨c1, c2, c3, c4⟩ := f8 c b1
      exact ⟨c1, c2.trans b3, c3.trans b4, fun hcp => (c4 b2).trans (b5 hcp)⟩

/-- Source `_uninit_assign(first, last)` on an object whose sentinel storage is live:
the result is a well-formed list holding the range, with `m_size` its length. -/
theorem uninit_assign_range_spec (dummy : Nat) (ys : List T) (m : NodeMem T)
    (hd : (m.node dummy).isSome = true) :
    ∃ m' ns, _uninit_assign_range dummy ys m =
        some ({ m_dummy := dummy, m_size := ys.length }, m') ∧
      Holds { m_dummy := dummy, m_size := ys.length } m' ns ys ∧
      (∀ p ∈ ns, m.node p = none) ∧
      (∀ c, (m.node c).isSome = true → c ≠ dummy → m'.value c = m.value c ∧
        (m'.node c).isSome = true) := by
  obtain ⟨last, m0, built, f1, f2, f3, f4, f5, f6, f7, f8⟩ := build_loop_spec ys dummy 0 m hd
  have hd0 : (m0.node dummy).isSome = true := (f8 dummy hd).1
  have hdb : dummy ∉ built := by
    intro hc
    rw [f4 dummy hc] at hd
    simp at hd
  have hnd : (dummy :: built).Nodup := List.nodup_cons.mpr ⟨hdb, f3⟩
  have hlm : last ∈ dummy :: built := List.mem_of_getLast?_eq_some f5
  have hlast0 : (m0.node last).isSome = true := by
    rcases List.mem_cons.mp hlm with e | e
    · rw [e]; exact hd0
    · obtain ⟨i, hi, e'⟩ := List.mem_iff_getElem.mp e
      have := congrArg (fun z => z[i]?) f7
      simp only [List.getElem?_map, List.getElem?_eq_getElem hi, Option.map_some,
        List.getElem?_eq_getElem (show i < ys.length by omega)] at this
      rw [e'] at this
      cases hn : m0.node last with
      | none =>
        have hv := (NodeMem.fields_of_node_none m0 last hn).2.2
        simp [hv] at this
      | some _ => rfl
  obtain ⟨m1, e1, n1, p1, v1, a1⟩ := NodeMem.set_prev_spec m0 dummy last hd0
  obtain ⟨m2, e2, n2, p2, v2, a2⟩ := NodeMem.set_next_spec m1 last dummy
    (by rw [a1]; exact hlast0)
  have hsplit : dummy :: built = (dummy :: built).dropLast ++ [last] :=
    (List.dropLast_append_getLast? last f5).symm
  have hnl : last ∉ (dummy :: built).dropLast := by
    intro hc
    rw [hsplit] at hnd
    exact (List.disjoint_of_nodup_append hnd) hc (by simp)
  refine ⟨m2, built, ?_, ⟨hnd, ?_, ?_, f2.symm⟩, f4, ?_⟩
  · unfold _uninit_assign_range
    simp only [f1, Option.some_bind, e1, e2, Nat.zero_add]
  · have hl2 : Linked m2 (dummy :: built) := by
      apply linked_frame m0 m2 (dummy :: built) _ _ f6
      · intro a ha
        rw [n2, if_neg (fun e => hnl (by rw [← e]; exact ha)), n1]
      · intro b hb
        rw [p2, p1, if_neg (fun e => hdb (by rw [← e]; exact hb))]
    have hgoal : dummy :: built ++ [dummy] = (dummy :: built).dropLast ++ [last, dummy] := by
      conv_lhs => rw [hsplit]
      simp
    show Linked m2 (dummy :: built ++ [dummy])
    rw [hgoal, linked_concat]
    rw [hsplit] at hl2
    refine ⟨hl2, ?_, ?_⟩
    · rw [n2, if_pos rfl]
    · rw [p2, p1, if_pos rfl]
  · rw [← f7]
    apply map_value_congr
    intro p _
    rw [v2, v1]
  · intro c hc hcd
    obtain ⟨b1, _, b3, _⟩ := f8 c hc
    exact ⟨by rw [v2, v1, b3], by rw [a2, a1]; exact b1⟩

/-- The loop of `_uninit_assign(n, val)` does what the loop of the range form does on `n`
copies of `val`, except that its counter ends at `0`. -/
theorem uninit_assign_n_loop_eq (val : T) :
    ∀ (n prev sz : Nat) (m : NodeMem T),
      _uninit_assign_n.loop val n prev m =
        (_uninit_assign_range.loop prev sz m (List.replicate n val)).map
          fun r => (r.1, 0, r.2.2)
  | 0, prev, sz, m => rfl
  | n + 1, prev, sz, m => by
    unfold _uninit_assign_n.loop
    simp only [List.replicate_succ]
    unfold _uninit_assign_range.loop
    dsimp only
    cases h1 : m.newNode.2.set_next prev m.newNode.1 with
    | none => simp
    | some m1 =>
      simp only [Option.some_bind]
      cases h2 : m1.set_prev m.newNode.1 prev with
      | none => simp
      | some m2 =>
        simp only [Option.some_bind]
        cases h3 : m2.construct_value m.newNode.1 val with
        | none => simp
        | some m3 =>
          simp only [Option.some_bind]
          exact uninit_assign_n_loop_eq val n m.newNode.1 (sz + 1) m3

/-- Source `_uninit_assign(n, val)` builds the ring that `_uninit_assign(first, last)` builds
from `n` copies of `val`, and stores `0` in `m_size`. -/
theorem uninit_assign_n_val_eq (dummy n : Nat) (val : T) (m : NodeMem T) :
    _uninit_assign_n_val dummy n val m =
      (_uninit_assign_range dummy (List.replicate n val) m).map
        fun r => ({ r.1 with m_size := 0 }, r.2) := by
  unfold _uninit_assign_n_val _uninit_assign_range
  rw [uninit_assign_n_loop_eq val n dummy 0 m]
  cases h0 : _uninit_assign_range.loop dummy 0 m (List.replicate n val) with
  | none => simp
  | some r =>
    cases h1 : r.2.2.set_prev dummy r.1 with
    | none => simp [h1]
    | some m1 =>
      cases h2 : m1.set_next r.1 dummy with
      | none => simp [h1, h2]
      | some m2 => simp [h1, h2]

/-- Source `List(first, last)`: a well-formed list holding the range. -/
theorem list_ctor_range_spec (ys : List T) (m : NodeMem T) :
    ∃ m' ns, ctor_range ys m = some ({ m_dummy := m.length, m_size := ys.length }, m') ∧
      Holds { m_dummy := m.length, m_size := ys.length } m' ns ys := by
  obtain ⟨hnew, _, hlive, _⟩ := NodeMem.newNode_spec m
  obtain ⟨m', ns, e1, e2, _⟩ := uninit_assign_range_spec m.length ys m.newNode.2 hlive
  refine ⟨m', ns, ?_, e2⟩
  unfold ctor_range
  rw [hnew]; exact e1

/-- Source `List(n, val)`: the ring holds `n` copies of `val`, and `m_size` is `0`. -/
theorem list_ctor_n_val_spec (n : Nat) (val : T) (m : NodeMem T) :
    ∃ m' ns, ctor_n_val n val m = some ({ m_dummy := m.length, m_size := 0 }, m') ∧
      Holds { m_dummy := m.length, m_size := n } m' ns (List.replicate n val) := by
  obtain ⟨m', ns, e1, e2⟩ := list_ctor_range_spec (List.replicate n val) m
  refine ⟨m', ns, ?_, by simpa using e2⟩
  unfold ctor_n_val
  unfold ctor_range at e1
  rw [uninit_assign_n_val_eq, e1]
  rfl

end NodeList

end MiniSTL
namespace MiniSTL

namespace NodeList

variable {T : Type}

theorem nth_next_succ (m : NodeMem T) :
    ∀ (k p : Nat), nth_next m (k + 1) p = (nth_next m k p).bind fun q => m.next q
  | 0, p => by simp [nth_next]
  | k + 1, p => by
    show (m.next p).bind (nth_next m (k + 1)) = ((m.next p).bind (nth_next m k)).bind _
    cases h : m.next p with
    | none => rfl
    | some q => exact nth_next_succ m k q

/-- Along a linked chain, `k` steps of `m_next` from its first node reach its `k`-th node. -/
theorem nth_next_chain (m : NodeMem T) :
    ∀ (c : List Nat) (a k : Nat), Linked m (a :: c) → k ≤ c.length →
      nth_next m k a = (a :: c)[k]?
  | _, a, 0, _, _ => by simp [nth_next]
  | [], a, k + 1, _, hk => by simp at hk
  | b :: c, a, k + 1, h, hk => by
    rw [List.getElem?_cons_succ]
    show (m.next a).bind (nth_next m k) = (b :: c)[k]?
    rw [h.1.1]
    exact nth_next_chain m c b k h.2 (by simpa using hk)

/-- Along a linked chain, `k` steps of `m_prev` from its last node reach its `k`-th node
from the end. -/
theorem nth_prev_chain (m : NodeMem T) :
    ∀ (c : List Nat) (a k : Nat), Linked m ((a :: c).reverse) → k ≤ c.length →
      nth_prev m k a = (a :: c)[k]?
  | _, a, 0, _, _ => by simp [nth_prev]
  | [], a, k + 1, _, hk => by simp at hk
  | b :: c, a, k + 1, h, hk => by
    have h' : Linked m (c.reverse ++ [b, a]) := by simpa using h
    obtain ⟨h1, h2⟩ := (linked_concat m b a c.reverse).mp h'
    rw [List.getElem?_cons_succ]
    show (m.prev a).bind (nth_prev m k) = (b :: c)[k]?
    rw [h2.2]
    exact nth_prev_chain m c b k (by simpa using h1) (by simpa using hk)

theorem linked_get (m : NodeMem T) :
    ∀ (ch : List Nat) (i a b : Nat), Linked m ch → ch[i]? = some a → ch[i + 1]? = some b →
      Link m a b
  | [], i, a, b, _, h1, _ => by simp at h1
  | [x], i, a, b, _, _, h2 => by simp at h2
  | x :: y :: c, 0, a, b, h, h1, h2 => by
    simp only [List.getElem?_cons_zero, List.getElem?_cons_succ, Option.some.injEq] at h1 h2
    rw [← h1, ← h2]; exact h.1
  | x :: y :: c, i + 1, a, b, h, h1, h2 => by
    simp only [List.getElem?_cons_succ] at h1 h2
    exact linked_get m (y :: c) i a b h.2 h1 (by simpa using h2)

theorem exists_values (os : List (Option T)) (h : ∀ o ∈ os, o.isSome = true) :
    ∃ xs : List T, os = xs.map some := by
  induction os with
  | nil => exact ⟨[], rfl⟩
  | cons o os ih =>
    obtain ⟨xs, e⟩ := ih (fun o' ho => h o' (List.mem_cons_of_mem _ ho))
    have := h o (by simp)
    cases o with
    | none => simp at this
    | some x => exact ⟨x :: xs, by rw [e]; rfl⟩

/-- A well-formed list satisfies the ring invariant. -/
theorem holds_ring (l : NodeList) (m : NodeMem T) (ns : List Nat) (xs : List T)
    (h : l.Holds m ns xs) : l.RingInvariant m := by
  obtain ⟨hnd, hl, hv, hsz⟩ := h
  have hxl : xs.length = ns.length := by
    have := congrArg List.length hv
    simpa using this.symm
  have hdn : l.m_dummy ∉ ns := (List.nodup_cons.mp hnd).1
  have hl1 : Linked m (l.m_dummy :: (ns ++ [l.m_dummy])) := hl
  have hl2 : Linked m ((l.m_dummy :: (ns.reverse ++ [l.m_dummy])).reverse) := by
    simpa using hl
  have hnx : ∀ k, k ≤ ns.length + 1 →
      nth_next m k l.m_dummy = (l.m_dummy :: (ns ++ [l.m_dummy]))[k]? :=
    fun k hk => nth_next_chain m _ _ k hl1 (by simpa using hk)
  have hpv : ∀ k, k ≤ ns.length + 1 →
      nth_prev m k l.m_dummy = (l.m_dummy :: (ns.reverse ++ [l.m_dummy]))[k]? :=
    fun k hk => nth_prev_chain m _ _ k hl2 (by simpa using hk)
  have hring : ∀ k, 0 < k → k ≤ ns.length →
      (l.m_dummy :: (ns ++ [l.m_dummy]))[k]? = ns[k - 1]? := by
    intro k hk1 hk2
    obtain ⟨j, rfl⟩ : ∃ j, k = j + 1 := ⟨k - 1, by omega⟩
    simp only [List.getElem?_cons_succ, Nat.add_sub_cancel]
    rw [List.getElem?_append_left (by omega)]
  have hlast : (l.m_dummy :: (ns ++ [l.m_dummy]))[ns.length + 1]? = some l.m_dummy := by
    simp
  refine ⟨?_, ?_, ?_⟩
  · rw [hsz, hnx _ (le_refl _)]; exact hlast
  · rw [hsz, hpv _ (le_refl _)]; simp
  · intro k hk
    rw [hsz] at hk
    have hk' : k ≤ ns.length := by
      have := List.mem_range.mp hk; omega
    have hlen : (l.m_dummy :: (ns ++ [l.m_dummy])).length = ns.length + 2 := by simp
    obtain ⟨n, hn⟩ : ∃ n, (l.m_dummy :: (ns ++ [l.m_dummy]))[k]? = some n :=
      ⟨_, List.getElem?_eq_getElem (by omega)⟩
    obtain ⟨a, ha⟩ : ∃ a, (l.m_dummy :: (ns ++ [l.m_dummy]))[k + 1]? = some a :=
      ⟨_, List.getElem?_eq_getElem (by omega)⟩
    have hna := linked_get m _ k n a hl1 hn ha
    refine ⟨⟨n, ?_, ?_, ?_, ?_⟩, ?_⟩
    · rw [Option.mem_def, hnx k (by omega)]; exact hn
    · rw [hna.1]; exact hna.2
    · rcases Nat.eq_zero_or_pos k with e | e
      · subst e
        have hn0 : n = l.m_dummy := by simpa using hn.symm
        subst hn0
        obtain ⟨q, hq⟩ : ∃ q, (l.m_dummy :: (ns ++ [l.m_dummy]))[ns.length]? = some q :=
          ⟨_, List.getElem?_eq_getElem (by omega)⟩
        have := linked_get m _ ns.length q l.m_dummy hl1 hq hlast
        rw [this.2]; exact this.1
      · obtain ⟨j, rfl⟩ : ∃ j, k = j + 1 := ⟨k - 1, by omega⟩
        obtain ⟨q, hq⟩ : ∃ q, (l.m_dummy :: (ns ++ [l.m_dummy]))[j]? = some q :=
          ⟨_, List.getElem?_eq_getElem (by omega)⟩
        have := linked_get m _ j q n hl1 hq hn
        rw [this.2]; exact this.1
    · intro hk0
      rw [hring k hk0 hk'] at hn
      have hmem : n ∈ ns := List.getElem?_mem hn
      refine ⟨fun e => hdn (by rw [← e]; exact hmem), ?_⟩
      have := congrArg (fun z => z[k - 1]?) hv
      simp only [List.getElem?_map, hn, Option.map_some'] at this
      rw [List.getElem?_eq_getElem (show k - 1 < xs.length by omega)] at this
      simp only [Option.map_some', Option.some.injEq] at this
      rw [this]; rfl
    · intro hk0 hc
      rw [hpv k (by omega)] at hc
      obtain ⟨j, rfl⟩ : ∃ j, k = j + 1 := ⟨k - 1, by omega⟩
      simp only [List.getElem?_cons_succ] at hc
      rw [List.getElem?_append_left (by simp; omega)] at hc
      have hmem : l.m_dummy ∈ ns.reverse := List.getElem?_mem hc
      exact hdn (List.mem_reverse.mp hmem)

end NodeList

end MiniSTL
namespace MiniSTL

namespace NodeList

variable {T : Type}

theorem linked_of_steps (m : NodeMem T) (nd : Nat → Nat) :
    ∀ (K s : Nat), (∀ k, s ≤ k → k < s + K → Link m (nd k) (nd (k + 1))) →
      Linked m ((List.range' s (K + 1)).map nd)
  | 0, s, _ => by simp [List.range', Linked]
  | K + 1, s, h => by
    have ih := linked_of_steps m nd K (s + 1)
      (fun k h1 h2 => h k (by omega) (by omega))
    rw [List.range'_succ] at ih ⊢
    rw [List.range'_succ]
    simp only [List.map_cons] at ih ⊢
    exact ⟨h s (le_refl _) (by omega), ih⟩

/-- A list that satisfies the ring invariant is well-formed: its value nodes are the nodes
met on the walk along `m_next` from the sentinel. -/
theorem ring_holds (l : NodeList) (m : NodeMem T) (h : l.RingInvariant m) :
    ∃ ns xs, l.Holds m ns xs := by
  obtain ⟨hN, _, hk⟩ := h
  have hsome : ∀ k, k ≤ l.m_size → ∃ n, nth_next m k l.m_dummy = some n ∧
      ((m.next n).bind fun a => m.prev a) = some n ∧
      (0 < k → n ≠ l.m_dummy ∧ (m.value n).isSome = true) := by
    intro k hk'
    obtain ⟨⟨n, hn, c1, _, c3⟩, _⟩ := hk k (List.mem_range.mpr (by omega))
    exact ⟨n, hn, c1, c3⟩
  let nd : Nat → Nat := fun k => (nth_next m k l.m_dummy).getD l.m_dummy
  have hnd : ∀ k, k ≤ l.m_size + 1 → nth_next m k l.m_dummy = some (nd k) := by
    intro k hk'
    rcases Nat.lt_or_ge k (l.m_size + 1) with h1 | h1
    · obtain ⟨n, hn, _⟩ := hsome k (by omega)
      show _ = some ((nth_next m k l.m_dummy).getD l.m_dummy)
      rw [hn]; rfl
    · have : k = l.m_size + 1 := by omega
      subst this
      show _ = some ((nth_next m (l.m_size + 1) l.m_dummy).getD l.m_dummy)
      rw [hN]; rfl
  have hnd0 : nd 0 = l.m_dummy := rfl
  have hndN : nd (l.m_size + 1) = l.m_dummy := by
    show (nth_next m (l.m_size + 1) l.m_dummy).getD l.m_dummy = _
    rw [hN]; rfl
  have hlink : ∀ k, k ≤ l.m_size → Link m (nd k) (nd (k + 1)) := by
    intro k hk'
    obtain ⟨n, hn, c1, _⟩ := hsome k hk'
    have e1 := hnd k (by omega)
    have e2 := hnd (k + 1) (by omega)
    rw [nth_next_succ, e1] at e2
    simp only [Option.some_bind] at e2
    rw [e1] at hn
    have hn' : n = nd k := (Option.some.inj hn).symm
    subst hn'
    rw [e2] at c1
    exact ⟨e2, c1⟩
  have hval : ∀ k, 0 < k → k ≤ l.m_size → nd k ≠ l.m_dummy ∧ (m.value (nd k)).isSome = true := by
    intro k hk0 hk'
    obtain ⟨n, hn, _, c3⟩ := hsome k hk'
    rw [hnd k (by omega)] at hn
    rw [Option.some.inj hn]
    exact c3 hk0
  have hback : ∀ j e, 0 < e → j + e ≤ l.m_size → nd j ≠ nd (j + e) := by
    intro j
    induction j with
    | zero =>
      intro e he hle hc
      rw [Nat.zero_add] at hc hle
      exact (hval e he hle).1 (hc.symm.trans hnd0)
    | succ j ih =>
      intro e he hle hc
      have h1 := (hlink j (by omega)).2
      have h2 := (hlink (j + e) (by omega)).2
      have e' : j + 1 + e = j + e + 1 := by omega
      rw [e'] at hc
      rw [hc, h2] at h1
      exact ih e he (by omega) (Option.some.inj h1).symm
  have hmem : ∀ p, p ∈ (List.range' 1 l.m_size).map nd → ∃ k, 0 < k ∧ k ≤ l.m_size ∧ p = nd k := by
    intro p hp
    obtain ⟨k, hk1, hk2⟩ := List.mem_map.mp hp
    have := List.mem_range'_1.mp hk1
    exact ⟨k, by omega, by omega, hk2.symm⟩
  obtain ⟨xs, hxs⟩ := exists_values (((List.range' 1 l.m_size).map nd).map fun p => m.value p)
    (by
      intro o ho
      obtain ⟨p, hp, e⟩ := List.mem_map.mp ho
      obtain ⟨k, hk0, hk1, e2⟩ := hmem p hp
      rw [← e, e2]
      exact (hval k hk0 hk1).2)
  refine ⟨(List.range' 1 l.m_size).map nd, xs, ?_, ?_, hxs, by simp⟩
  · refine List.nodup_cons.mpr ⟨?_, ?_⟩
    · intro hc
      obtain ⟨k, hk0, hk1, e2⟩ := hmem _ hc
      exact (hval k hk0 hk1).1 e2.symm
    · apply List.Nodup.map_on _ (List.nodup_range' 1 l.m_size)
      intro x hx y hy hxy
      have hx' := List.mem_range'_1.mp hx
      have hy' := List.mem_range'_1.mp hy
      rcases Nat.lt_trichotomy x y with h1 | h1 | h1
      · exfalso
        have := hback x (y - x) (by omega) (by omega)
        rw [show x + (y - x) = y by omega] at this
        exact this hxy
      · exact h1
      · exfalso
        have := hback y (x - y) (by omega) (by omega)
        rw [show y + (x - y) = x by omega] at this
        exact this hxy.symm
  · have hchain := linked_of_steps m nd (l.m_size + 1) 0
      (fun k _ h2 => hlink k (by omega))
    have hr : List.range' 0 (l.m_size + 1 + 1) = 0 :: (List.range' 1 l.m_size ++ [l.m_size + 1]) := by
      rw [List.range'_succ, List.range'_concat]
      simp [Nat.add_comm]
    rw [hr] at hchain
    simp only [List.map_cons, List.map_append, List.map_nil, hnd0, hndN] at hchain
    exact hchain

/-- The ring invariant and well-formedness describe the same lists. -/
theorem ring_iff_holds (l : NodeList) (m : NodeMem T) :
    l.RingInvariant m ↔ ∃ ns xs, l.Holds m ns xs :=
  ⟨ring_holds l m, fun ⟨ns, xs, h⟩ => holds_ring l m ns xs h⟩

end NodeList

end MiniSTL
namespace MiniSTL

namespace Vector

variable {T : Type}

/-- Source `shrink_to_fit()` on a well-formed vector with `capacity() != 0`: the block that
held the elements before the call is released. -/
theorem shrink_to_fit_release (v : Vector) (m : Mem T) (xs : List T) (h : v.Holds m xs)
    (hc : v.m_cap ≠ 0) :
    ∃ v' m', v.shrink_to_fit m = some (v', m') ∧ m'.block v.m_data = none := by
  obtain ⟨hsz, hcap⟩ := size_of_holds v m xs h
  obtain ⟨b, hb, hbl, hne, hp⟩ := block_of_holds v m xs h hc
  by_cases hs : v.m_size = 0
  · obtain ⟨m1, g1, g2, _⟩ := Mem.deallocate_spec m v.m_data b v.m_cap hb hbl
    exact ⟨{ v with m_cap := v.m_size, m_data := none }, m1,
      by simp [shrink_to_fit, hs, hc, Mem.forUp_empty, g1], g2⟩
  · obtain ⟨ha1, ha2, ha3, ha4⟩ := Mem.allocate_spec m v.m_size
    rw [ha1] at ha2 ha3 ha4
    have hdiff : v.m_data ≠ some m.length := by
      intro e; rw [e, ha3] at hb; cases hb
    have hb1 : (m.allocate v.m_size).2.block v.m_data = some b := by
      rw [ha4 _ hdiff]; exact hb
    obtain ⟨m1, bs', bd', e1, e2, e3, e4, e5, e6, _⟩ := Mem.relocate_loop
      (m.allocate v.m_size).2 v.m_data (some m.length) b (List.replicate v.m_size none) xs
      v.m_size hb1 ha2 hdiff hsz (by simp) hp
    obtain ⟨m2, g1, g2, _⟩ := Mem.deallocate_spec m1 v.m_data bs' v.m_cap e2 (by omega)
    exact ⟨{ v with m_cap := v.m_size, m_data := some m.length }, m2,
      by simp [shrink_to_fit, hs, hc, ha1, e1, g1], g2⟩

/-- C15: on a vector holding `xs`, `shrink_to_fit()` returns with `capacity() == size()`,
`size()` unchanged and the same elements at indices `0 .. size()-1`; when `size() == 0` the
storage pointer is null and `capacity() == 0`, and the block the vector had, if its capacity
was not `0`, has been released. -/
theorem C15_shrink_to_fit (v : Vector) (m : Mem T) (xs : List T) (h : v.Holds m xs) :
    ∃ v' m', v.shrink_to_fit m = some (v', m') ∧
      v'.capacity = v'.size ∧ v'.size = v.size ∧
      v'.Holds m' xs ∧ v'.toList m' = v.toList m ∧
      (∀ i, i < v.size → v'.index i m' = v.index i m) ∧
      (v.size = 0 → v'.m_data = none ∧ v'.capacity = 0) ∧
      (v.capacity ≠ 0 → m'.block v.m_data = none) := by
  obtain ⟨v', m', e1, e2, e3, e4, e5⟩ := shrink_to_fit_spec v m xs h
  refine ⟨v', m', e1, by simp only [capacity, size]; omega, e3, e2, ?_, ?_, ?_, ?_⟩
  · rw [e2.2.2.2, h.2.2.2]
  · intro i hi
    simp only [size] at hi
    rw [index_of_holds v' m' xs i e2 (by omega), index_of_holds v m xs i h hi]
  · intro hs
    simp only [size] at hs
    exact ⟨e5 hs, by simp only [capacity]; omega⟩
  · intro hc
    obtain ⟨v2, m2, f1, f2⟩ := shrink_to_fit_release v m xs h hc
    rw [e1] at f1
    have hm : m' = m2 := congrArg Prod.snd (Option.some.inj f1)
    rw [hm]
    exact f2

/-- Instance of C15: `shrink_to_fit()` on the vector `[1, 2]` with capacity 4. -/
theorem C15_shrink_to_fit_witness :
    Holds ⟨some 0, 2, 4⟩ ([some [some 1, some 2, none, none]] : Mem Nat) [1, 2] ∧
    ∃ v' m', shrink_to_fit ⟨some 0, 2, 4⟩ ([some [some 1, some 2, none, none]] : Mem Nat) =
        some (v', m') ∧ v'.capacity = 2 ∧ v'.toList m' = [some 1, some 2] :=
  ⟨by decide, by
    obtain ⟨v', m', e1, e2, e3, e4, _⟩ :=
      C15_shrink_to_fit ⟨some 0, 2, 4⟩ ([some [some 1, some 2, none, none]] : Mem Nat) [1, 2]
        (by decide)
    exact ⟨v', m', e1, by rw [e2, e3]; rfl, e4.2.2.2⟩⟩

/-- C16: on a vector holding `xs`, `insert(begin() + j, first, last)` with `j <= size()` and
the range `ys` of length `n` returns; the contents become the first `j` elements of `xs`, then
`ys`, then the remaining elements of `xs`; `size()` grows by `n`; the elements before index
`j` stay in place, the element that was at index `i >= j` is at index `i + n`, and the
elements of `ys` are at indices `j .. j+n-1`; the returned iterator is at index `j`; and for
`n == 0` the vector and the store are unchanged and the given position is returned. -/
theorem C16_insert_range (v : Vector) (m : Mem T) (xs ys : List T) (j : Nat)
    (h : v.Holds m xs) (hj : j ≤ v.size) :
    ∃ v' m' it, v.insert_range (v.begin_.add j) ys m = some ((v', m'), it) ∧
      v'.Holds m' (xs.take j ++ ys ++ xs.drop j) ∧
      v'.toList m' = (xs.take j ++ ys ++ xs.drop j).map some ∧
      v'.size = v.size + ys.length ∧
      it = v'.begin_.add j ∧
      (∀ i, i < j → v'.index i m' = v.index i m) ∧
      (∀ i, j ≤ i → i < v.size → v'.index (i + ys.length) m' = v.index i m) ∧
      (∀ k, k < ys.length → v'.index (j + k) m' = ys[k]?) ∧
      (ys = [] → v' = v ∧ m' = m ∧ it = v.begin_.add j) := by
  obtain ⟨v', m', e1, e2, e3, e4⟩ := insert_range_spec v m xs ys j h hj
  obtain ⟨hsz, _⟩ := size_of_holds v m xs h
  simp only [size] at hj
  refine ⟨v', m', _, e1, e2, e2.2.2.2, e3, rfl, ?_, ?_, ?_, ?_⟩
  · intro i hi
    rw [index_of_holds v' m' _ i e2 (by omega), index_of_holds v m xs i h (by omega),
      getElem?_splice xs ys j i (by omega), if_pos hi]
  · intro i hji hi
    simp only [size] at hi
    rw [index_of_holds v' m' _ (i + ys.length) e2 (by omega), index_of_holds v m xs i h hi,
      getElem?_splice xs ys j (i + ys.length) (by omega), if_neg (by omega), if_neg (by omega)]
    congr 1; omega
  · intro k hk
    rw [index_of_holds v' m' _ (j + k) e2 (by omega),
      getElem?_splice xs ys j (j + k) (by omega), if_neg (by omega), if_pos (by omega)]
    congr 1; omega
  · intro hy
    obtain ⟨a1, a2⟩ := e4 hy
    exact ⟨a1, a2, by rw [a1]⟩

/-- Instance of C16: inserting the range `[8, 9]` at index 1 of the vector `[1, 2]`. -/
theorem C16_insert_range_witness :
    Holds ⟨some 0, 2, 2⟩ ([some [some 1, some 2]] : Mem Nat) [1, 2] ∧
    ∃ v' m' it, insert_range ⟨some 0, 2, 2⟩ ((begin_ ⟨some 0, 2, 2⟩).add 1) [8, 9]
        ([some [some 1, some 2]] : Mem Nat) = some ((v', m'), it) ∧
      v'.toList m' = [some 1, some 8, some 9, some 2] ∧ it = v'.begin_.add 1 :=
  ⟨by decide, by
    obtain ⟨v', m', it, e1, _, e3, _, e5, _⟩ :=
      C16_insert_range ⟨some 0, 2, 2⟩ ([some [some 1, some 2]] : Mem Nat) [1, 2] [8, 9] 1
        (by decide) (by decide)
    exact ⟨v', m', it, e1, e3, e5⟩⟩

end Vector

end MiniSTL
namespace MiniSTL

namespace NodeList

variable {T : Type}

/-- C11: `List(n, val)` and `List(n)` return with a ring of `n` value nodes that hold `n`
copies of the value, which iteration from `begin()` to `end()` yields, but `size()` is `0`
whatever `n` is: the last statement `m_size = n` reads the counter after the loop has run it
down to `0`.  `List(3, 7)` has the contents `[7, 7, 7]` and `size() == 0`. -/
theorem C11_count_ctor_size_zero [Inhabited T] (n : Nat) (val : T) (m : NodeMem T) :
    (∃ l m' ns, ctor_n_val n val m = some (l, m') ∧ l.size = 0 ∧
      Holds { l with m_size := n } m' ns (List.replicate n val) ∧
      RingInvariant { l with m_size := n } m' ∧
      (∀ fuel, n ≤ fuel → l.toList m' fuel = some (List.replicate n val))) ∧
    (∃ l m' ns, ctor_n (T := T) n m = some (l, m') ∧ l.size = 0 ∧
      Holds { l with m_size := n } m' ns (List.replicate n (default : T)) ∧
      RingInvariant { l with m_size := n } m' ∧
      (∀ fuel, n ≤ fuel → l.toList m' fuel = some (List.replicate n (default : T)))) ∧
    (∃ (l : NodeList) (m' : NodeMem Nat), ctor_n_val 3 7 [] = some (l, m') ∧
      l.toList m' 3 = some [7, 7, 7] ∧ l.size = 0 ∧ ¬ l.RingInvariant m') := by
  have key : ∀ (w : T), ∃ l m' ns, ctor_n_val n w m = some (l, m') ∧ l.size = 0 ∧
      Holds { l with m_size := n } m' ns (List.replicate n w) ∧
      RingInvariant { l with m_size := n } m' ∧
      (∀ fuel, n ≤ fuel → l.toList m' fuel = some (List.replicate n w)) := by
    intro w
    obtain ⟨m', ns, e1, e2⟩ := list_ctor_n_val_spec n w m
    refine ⟨_, m', ns, e1, rfl, e2, holds_ring _ m' ns _ e2, ?_⟩
    intro fuel hf
    have hlen := (holds_lengths _ m' ns _ e2).1
    have := toList_of_holds _ m' ns _ fuel e2 (by rw [← hlen]; simpa using hf)
    exact this
  refine ⟨key val, key default, ⟨0, 0⟩,
    [some ⟨some 1, some 3, none⟩, some ⟨some 2, some 0, some 7⟩,
     some ⟨some 3, some 1, some 7⟩, some ⟨some 0, some 2, some 7⟩],
    by decide, by decide, rfl, by decide⟩

/-- C13: on a well-formed list `empty()` returns `true` exactly when `size() <= 1`, because it
compares `m_dummy.m_prev` with `m_dummy.m_next`, which are also equal when both point to the
only value node: on a list with one element it returns `true`. -/
theorem C13_empty_true_up_to_one_element (l : NodeList) (m : NodeMem T) (ns : List Nat)
    (xs : List T) (h : l.Holds m ns xs) :
    l.empty m = some (decide (l.size ≤ 1)) ∧
    (l.size = 1 → l.empty m = some true ∧ m.next l.m_dummy ≠ some l.m_dummy) := by
  have e := empty_of_holds l m ns xs h
  refine ⟨e, fun h1 => ⟨?_, ?_⟩⟩
  · simp only [size] at h1
    rw [e, h1]; rfl
  · simp only [size] at h1
    obtain ⟨hn, _⟩ := holds_sentinel_links l m ns xs h
    have hlen := h.2.2.2
    rcases ns with _ | ⟨p, ns⟩
    · simp at hlen; omega
    · rw [hn]
      intro hc
      simp only [List.cons_append, List.head?_cons, Option.some.injEq] at hc
      have := (List.nodup_cons.mp h.1).1
      exact this (by rw [hc]; simp)

/-- Instance of C13: the list built by `List()` and `push_back(7)` has `size() == 1` and
`empty()` returns `true` on it. -/
theorem C13_empty_true_up_to_one_element_witness :
    ∃ (l0 l1 : NodeList) (m0 m1 : NodeMem Nat), ctor [] = some (l0, m0) ∧
      l0.push_back 7 m0 = some (l1, m1) ∧ l1.Holds m1 [1] [7] ∧ l1.size = 1 ∧
      l1.toList m1 1 = some [7] ∧ l1.empty m1 = some true :=
  ⟨⟨0, 0⟩, ⟨0, 1⟩, [some ⟨some 0, some 0, none⟩],
    [some ⟨some 1, some 1, none⟩, some ⟨some 0, some 0, some 7⟩],
    by decide, by decide, by decide, rfl, by decide,
    ((C13_empty_true_up_to_one_element ⟨0, 1⟩
      ([some ⟨some 1, some 1, none⟩, some ⟨some 0, some 0, some 7⟩] : NodeMem Nat) [1] [7]
      (by decide)).2 rfl).1⟩

/-- C17: on a well-formed list with contents `xs` at the node addresses `ns`, `insert(pos, v)`
with `pos` at index `j` (`j == size()` for `end()`) returns; the contents become the first `j`
elements of `xs`, then `v`, then the remaining elements; `size()` grows by one; the returned
iterator refers to the new node, which is at a fresh address, holds `v` and has `pos` as its
`m_next`; the old nodes keep their addresses, order and values. -/
theorem C17_list_insert (l : NodeList) (m : NodeMem T) (ns : List Nat) (xs : List T)
    (j : Nat) (pos : iterator) (v : T) (h : l.Holds m ns xs)
    (hpos : (ns ++ [l.m_dummy])[j]? = some pos.m_curr) :
    ∃ l' m' it, l.insert pos v m = some ((l', m'), it) ∧
      l'.Holds m' (ns.take j ++ [it.m_curr] ++ ns.drop j) (xs.take j ++ [v] ++ xs.drop j) ∧
      (∀ fuel, l'.size ≤ fuel → l'.toList m' fuel = some (xs.take j ++ [v] ++ xs.drop j)) ∧
      l'.size = l.size + 1 ∧ l'.m_dummy = l.m_dummy ∧
      it.m_curr ∉ l.m_dummy :: ns ∧ it.deref m' = some v ∧
      (it.incr m' = some pos) ∧
      (∀ p ∈ ns, m'.value p = m.value p) := by
  have hlive : ∀ p ∈ ns, (m.node p).isSome = true :=
    fun p hp => linked_live m l.m_dummy (l.m_dummy :: ns) h.2.1 p (by simp [hp])
  obtain ⟨m', e1, e2, e3, e4, e5⟩ := list_emplace_spec l m ns xs v j pos.m_curr h hpos
  obtain ⟨hj, _⟩ := head_drop_concat ns l.m_dummy j pos.m_curr hpos
  refine ⟨_, m', { m_curr := m.length }, e1, e2, ?_, rfl, rfl, e3, ?_, ?_,
    fun p hp => (e5 p (hlive p hp)).1⟩
  · intro fuel hf
    apply toList_of_holds _ m' _ _ fuel e2
    have hlen : l.m_size + 1 = _ := e2.2.2.2
    rw [← hlen]; exact hf
  · have hv := e2.2.2.1
    have hlen := (holds_lengths l m ns xs h).1
    have := congrArg (fun z => z[j]?) hv
    simp only [List.map_append, List.map_cons, List.map_nil, List.append_assoc,
      List.singleton_append] at this
    rw [List.getElem?_append_right (by simp [List.length_take]),
      List.getElem?_append_right (by simp [List.length_take])] at this
    simp only [List.length_map, List.length_take] at this
    rw [show j - min j ns.length = 0 by omega, show j - min j xs.length = 0 by omega] at this
    simp only [List.getElem?_cons_zero, Option.some.injEq] at this
    exact this
  · show (m'.next m.length).map _ = some pos
    rw [e4]; rfl

/-- Instance of C17: inserting `9` before the only node of the list `[7]`. -/
theorem C17_list_insert_witness :
    Holds ⟨0, 1⟩ ([some ⟨some 1, some 1, none⟩, some ⟨some 0, some 0, some 7⟩] : NodeMem Nat)
      [1] [7] ∧
    ∃ l' m' it, insert ⟨0, 1⟩ ⟨1⟩ 9
        ([some ⟨some 1, some 1, none⟩, some ⟨some 0, some 0, some 7⟩] : NodeMem Nat) =
        some ((l', m'), it) ∧ l'.toList m' 2 = some [9, 7] ∧ l'.size = 2 :=
  ⟨by decide, by
    obtain ⟨l', m', it, e1, _, e2, e3, _⟩ := C17_list_insert ⟨0, 1⟩
      ([some ⟨some 1, some 1, none⟩, some ⟨some 0, some 0, some 7⟩] : NodeMem Nat) [1] [7] 0
      ⟨1⟩ 9 (by decide) (by decide)
    exact ⟨l', m', it, e1, e2 2 (by rw [e3]; decide), e3⟩⟩

/-- C18: on a well-formed list with contents `xs` at the node addresses `ns`, `erase(pos)`
with `pos` the value node at index `j` returns; that node is freed; the other nodes keep their
addresses, order and values, so the contents are `xs` without the element at index `j`;
`size()` drops by one; the returned iterator refers to the node that followed `pos`, which is
`end()` when `pos` was the last node. -/
theorem C18_list_erase (l : NodeList) (m : NodeMem T) (ns : List Nat) (xs : List T)
    (j : Nat) (pos : iterator) (h : l.Holds m ns xs) (hpos : ns[j]? = some pos.m_curr) :
    ∃ l' m' it, l.erase pos m = some ((l', m'), it) ∧
      l'.Holds m' (ns.take j ++ ns.drop (j + 1)) (xs.take j ++ xs.drop (j + 1)) ∧
      (∀ fuel, l'.size ≤ fuel → l'.toList m' fuel = some (xs.take j ++ xs.drop (j + 1))) ∧
      l'.size + 1 = l.size ∧ l'.m_dummy = l.m_dummy ∧
      (ns ++ [l.m_dummy])[j + 1]? = some it.m_curr ∧
      (j + 1 = l.size → it = l.end_) ∧
      m'.node pos.m_curr = none ∧
      (∀ p ∈ ns, p ≠ pos.m_curr → m'.value p = m.value p ∧ (m'.node p).isSome = true) := by
  have hlive : ∀ p ∈ ns, (m.node p).isSome = true :=
    fun p hp => linked_live m l.m_dummy (l.m_dummy :: ns) h.2.1 p (by simp [hp])
  obtain ⟨m', nx, e0, e1, e2, e3, e4, e5⟩ := list_erase_spec l m ns xs j pos.m_curr h hpos
  refine ⟨_, m', { m_curr := nx }, e1, e2, ?_, ?_, rfl, e0, ?_, e4, ?_⟩
  · intro fuel hf
    apply toList_of_holds _ m' _ _ fuel e2
    have hlen : l.m_size - 1 = _ := e2.2.2.2
    rw [← hlen]; exact hf
  · simp only [size]; omega
  · intro hj
    simp only [size] at hj
    have hsz := h.2.2.2
    rw [List.getElem?_append_right (by omega)] at e0
    rw [show j + 1 - ns.length = 0 by omega] at e0
    simp only [List.getElem?_cons_zero, Option.some.injEq] at e0
    show ({ m_curr := nx } : iterator) = { m_curr := l.m_dummy }
    rw [e0]
  · intro p hp hne
    obtain ⟨a1, a2⟩ := e5 p hne
    exact ⟨a1, by rw [a2]; exact hlive p hp⟩

/-- Instance of C18: erasing the first node of the list `[7, 8]`. -/
theorem C18_list_erase_witness :
    Holds ⟨0, 2⟩ ([some ⟨some 1, some 2, none⟩, some ⟨some 2, some 0, some 7⟩,
      some ⟨some 0, some 1, some 8⟩] : NodeMem Nat) [1, 2] [7, 8] ∧
    ∃ l' m' it, erase ⟨0, 2⟩ ⟨1⟩ ([some ⟨some 1, some 2, none⟩, some ⟨some 2, some 0, some 7⟩,
        some ⟨some 0, some 1, some 8⟩] : NodeMem Nat) = some ((l', m'), it) ∧
      l'.toList m' 1 = some [8] ∧ l'.size + 1 = 2 ∧ it = ⟨2⟩ :=
  ⟨by decide, by
    obtain ⟨l', m', it, e1, _, e2, e3, _, e5, _⟩ := C18_list_erase ⟨0, 2⟩
      ([some ⟨some 1, some 2, none⟩, some ⟨some 2, some 0, some 7⟩,
        some ⟨some 0, some 1, some 8⟩] : NodeMem Nat) [1, 2] [7, 8] 0 ⟨1⟩ (by decide)
      (by decide)
    refine ⟨l', m', it, e1, e2 1 ?_, e3, ?_⟩
    · have : l'.size + 1 = 2 := e3
      omega
    · have : some (2 : Nat) = some it.m_curr := e5
      cases it
      simp only [Option.some.injEq] at this
      rw [this]⟩

end NodeList

end MiniSTL
namespace MiniSTL

namespace NodeList

variable {T : Type}

/-- C19: on a well-formed list with contents `xs` at the node addresses `ns`,
`erase(first, last)` with `first` at index `i` and `last` at index `k`, `i <= k <= size()`
(index `size()` being `end()`), returns after `k - i` iterations; exactly the nodes at the
indices `i .. k-1` are freed; the other nodes keep their addresses, order and values;
`size()` drops by `k - i`; and the returned iterator equals `last`. -/
theorem C19_list_erase_range (l : NodeList) (m : NodeMem T) (ns : List Nat) (xs : List T)
    (i k : Nat) (first last : iterator) (fuel : Nat) (h : l.Holds m ns xs) (hik : i ≤ k)
    (hfirst : (ns ++ [l.m_dummy])[i]? = some first.m_curr)
    (hlast : (ns ++ [l.m_dummy])[k]? = some last.m_curr) (hfuel : k - i ≤ fuel) :
    ∃ l' m' it, l.erase_range first last m fuel = some ((l', m'), it) ∧ it = last ∧
      l'.Holds m' (ns.take i ++ ns.drop k) (xs.take i ++ xs.drop k) ∧
      (∀ f, l'.size ≤ f → l'.toList m' f = some (xs.take i ++ xs.drop k)) ∧
      l'.size + (k - i) = l.size ∧ l'.m_dummy = l.m_dummy ∧
      (∀ p ∈ (ns.take k).drop i, m'.node p = none) ∧
      (∀ p ∈ ns.take i ++ ns.drop k, m'.value p = m.value p ∧
        (m'.node p).isSome = true) := by
  have hlive : ∀ p ∈ ns, (m.node p).isSome = true :=
    fun p hp => linked_live m l.m_dummy (l.m_dummy :: ns) h.2.1 p (by simp [hp])
  obtain ⟨m', e1, e2, e3, e4, e5⟩ := list_erase_range_spec l m ns xs i k first.m_curr
    last.m_curr fuel h hik hfirst hlast hfuel
  refine ⟨_, m', last, e1, rfl, e2, ?_, ?_, rfl, e4, ?_⟩
  · intro f hf
    apply toList_of_holds _ m' _ _ f e2
    have hlen : l.m_size - (k - i) = _ := e2.2.2.2
    rw [← hlen]; exact hf
  · simp only [size]; omega
  · intro p hp
    have hnd : (ns.take i ++ ((ns.take k).drop i ++ ns.drop k)).Nodup := by
      have h1 : ns.take i ++ ((ns.take k).drop i ++ ns.drop k) = ns := by
        have e : (ns.take k).drop i = (ns.drop i).take (k - i) := by
          rw [List.drop_take]
        rw [e]
        have e' : ns.drop k = (ns.drop i).drop (k - i) := by
          rw [List.drop_drop]; congr 1; omega
        rw [e', List.take_append_drop, List.take_append_drop]
      rw [h1]
      exact (List.nodup_cons.mp h.1).2
    have hns : p ∈ ns := by
      rcases List.mem_append.mp hp with hp1 | hp1
      · exact List.mem_of_mem_take hp1
      · exact List.mem_of_mem_drop hp1
    have hnr : p ∉ (ns.take k).drop i := by
      intro hc
      rcases List.mem_append.mp hp with hp1 | hp1
      · exact (List.disjoint_of_nodup_append hnd) hp1 (List.mem_append_left _ hc)
      · exact (List.disjoint_of_nodup_append (List.nodup_append.mp hnd).2.1) hc hp1
    obtain ⟨a1, a2⟩ := e5 p hnr
    exact ⟨a1, by rw [a2]; exact hlive p hns⟩

/-- Instance of C19: erasing the range of the first two nodes of the list `[7, 8, 9]`. -/
theorem C19_list_erase_range_witness :
    Holds ⟨0, 3⟩ ([some ⟨some 1, some 3, none⟩, some ⟨some 2, some 0, some 7⟩,
      some ⟨some 3, some 1, some 8⟩, some ⟨some 0, some 2, some 9⟩] : NodeMem Nat)
      [1, 2, 3] [7, 8, 9] ∧
    ∃ l' m' it, erase_range ⟨0, 3⟩ ⟨1⟩ ⟨3⟩ ([some ⟨some 1, some 3, none⟩,
        some ⟨some 2, some 0, some 7⟩, some ⟨some 3, some 1, some 8⟩,
        some ⟨some 0, some 2, some 9⟩] : NodeMem Nat) 2 = some ((l', m'), it) ∧
      it = ⟨3⟩ ∧ l'.toList m' 1 = some [9] ∧ l'.size + 2 = 3 :=
  ⟨by decide, by
    obtain ⟨l', m', it, e1, e2, _, e3, e4, _⟩ := C19_list_erase_range ⟨0, 3⟩
      ([some ⟨some 1, some 3, none⟩, some ⟨some 2, some 0, some 7⟩,
        some ⟨some 3, some 1, some 8⟩, some ⟨some 0, some 2, some 9⟩] : NodeMem Nat)
      [1, 2, 3] [7, 8, 9] 0 2 ⟨1⟩ ⟨3⟩ 2 (by decide) (by decide) (by decide) (by decide)
      (by decide)
    have hs : l'.size + 2 = 3 := e4
    exact ⟨l', m', it, e1, e2, e3 1 (by omega), hs⟩⟩

/-- The position reached by `k > 0` steps of `m_next` from the sentinel of a well-formed
list is the entry at index `k - 1` of `ns ++ [m_dummy]`. -/
theorem nth_next_of_holds (l : NodeList) (m : NodeMem T) (ns : List Nat) (xs : List T)
    (k : Nat) (h : l.Holds m ns xs) (hk : k ≤ l.m_size) :
    nth_next m (k + 1) l.m_dummy = (ns ++ [l.m_dummy])[k]? := by
  have hl : Linked m (l.m_dummy :: (ns ++ [l.m_dummy])) := h.2.1
  rw [nth_next_chain m _ _ (k + 1) hl (by simp; rw [← h.2.2.2]; omega)]
  simp

/-- C12: the ring invariant is preserved by the public mutations: on a list that satisfies
it, `push_back`, `push_front`, `insert(pos, v)` with `pos` a node of the ring or `end()`,
`erase(pos)` with `pos` a value node, `pop_front` and `pop_back` on a non-empty list, and
`clear` return and leave a list that satisfies it. -/
theorem C12_ring_invariant_preserved (l : NodeList) (m : NodeMem T)
    (h : l.RingInvariant m) :
    (∀ v, ∃ l' m', l.push_back v m = some (l', m') ∧ l'.RingInvariant m' ∧
      l'.size = l.size + 1) ∧
    (∀ v, ∃ l' m', l.push_front v m = some (l', m') ∧ l'.RingInvariant m' ∧
      l'.size = l.size + 1) ∧
    (∀ (pos : iterator) (v : T) (k : Nat), k ≤ l.size →
      nth_next m (k + 1) l.m_dummy = some pos.m_curr →
      ∃ l' m' it, l.insert pos v m = some ((l', m'), it) ∧ l'.RingInvariant m' ∧
        l'.size = l.size + 1) ∧
    (∀ (pos : iterator) (k : Nat), k < l.size →
      nth_next m (k + 1) l.m_dummy = some pos.m_curr →
      ∃ l' m' it, l.erase pos m = some ((l', m'), it) ∧ l'.RingInvariant m' ∧
        l'.size + 1 = l.size) ∧
    (0 < l.size → ∃ l' m', l.pop_front m = some (l', m') ∧ l'.RingInvariant m' ∧
      l'.size + 1 = l.size) ∧
    (0 < l.size → ∃ l' m', l.pop_back m = some (l', m') ∧ l'.RingInvariant m' ∧
      l'.size + 1 = l.size) ∧
    (∀ fuel, l.size ≤ fuel → ∃ l' m', l.clear m fuel = some (l', m') ∧
      l'.RingInvariant m' ∧ l'.size = 0) := by
  obtain ⟨ns, xs, hh⟩ := ring_holds l m h
  obtain ⟨hxl, hsz⟩ := holds_lengths l m ns xs hh
  refine ⟨?_, ?_, ?_, ?_, ?_, ?_, ?_⟩
  · intro v
    obtain ⟨m', e1, e2, _⟩ := emplace_back_spec l m ns xs v hh
    exact ⟨_, m', e1, holds_ring _ m' _ _ e2, rfl⟩
  · intro v
    obtain ⟨m', e1, e2, _⟩ := emplace_front_spec l m ns xs v hh
    exact ⟨_, m', e1, holds_ring _ m' _ _ e2, rfl⟩
  · intro pos v k hk hp
    simp only [size] at hk
    rw [nth_next_of_holds l m ns xs k hh hk] at hp
    obtain ⟨m', e1, e2, _⟩ := list_emplace_spec l m ns xs v k pos.m_curr hh hp
    exact ⟨_, m', _, e1, holds_ring _ m' _ _ e2, rfl⟩
  · intro pos k hk hp
    simp only [size] at hk
    rw [nth_next_of_holds l m ns xs k hh (by omega),
      List.getElem?_append_left (by omega)] at hp
    obtain ⟨m', nx, _, e1, e2, _⟩ := list_erase_spec l m ns xs k pos.m_curr hh hp
    refine ⟨_, m', _, e1, holds_ring _ m' _ _ e2, ?_⟩
    simp only [size]; omega
  · intro h0
    simp only [size] at h0
    rcases ns with _ | ⟨p, ns⟩
    · simp at hsz; omega
    rcases xs with _ | ⟨x, xs⟩
    · simp at hxl
    obtain ⟨m', e1, e2, _⟩ := list_pop_front_spec l m p ns x xs hh
    refine ⟨_, m', e1, holds_ring _ m' _ _ e2, ?_⟩
    simp only [size]; omega
  · intro h0
    simp only [size] at h0
    rcases List.eq_nil_or_concat ns with e | ⟨ns', p, e⟩
    · subst e; simp at hsz; omega
    rcases List.eq_nil_or_concat xs with e' | ⟨xs', x, e'⟩
    · subst e e'; simp at hxl
    subst e e'
    rw [List.concat_eq_append, List.concat_eq_append] at hh
    obtain ⟨m', e1, e2, _⟩ := list_pop_back_spec l m p ns' x xs' hh
    refine ⟨_, m', e1, holds_ring _ m' _ _ e2, ?_⟩
    simp only [size]; omega
  · intro fuel hf
    simp only [size] at hf
    obtain ⟨m', e1, e2, _⟩ := list_clear_spec l m ns xs fuel hh (by omega)
    exact ⟨_, m', e1, holds_ring _ m' _ _ e2, rfl⟩

/-- Instance of C12 on the one-element list `[7]`: `pop_back()` returns and leaves a list
that satisfies the ring invariant. -/
theorem C12_ring_invariant_preserved_witness :
    RingInvariant ⟨0, 1⟩
      ([some ⟨some 1, some 1, none⟩, some ⟨some 0, some 0, some 7⟩] : NodeMem Nat) ∧
    ∃ l' m', pop_back ⟨0, 1⟩
        ([some ⟨some 1, some 1, none⟩, some ⟨some 0, some 0, some 7⟩] : NodeMem Nat) =
        some (l', m') ∧ l'.RingInvariant m' ∧ l'.size + 1 = 1 :=
  ⟨by decide,
    (C12_ring_invariant_preserved ⟨0, 1⟩
      ([some ⟨some 1, some 1, none⟩, some ⟨some 0, some 0, some 7⟩] : NodeMem Nat)
      (by decide)).2.2.2.2.2.1 (by decide)⟩

end NodeList

/-- C20: for every sequence `ys`, the range constructor (to which the initializer-list
constructor delegates) returns a container with `size() == ys.length` whose front-to-back
iteration yields exactly `ys`: for `Vector`, reading the indices `0 .. size()-1`; for `List`,
walking from `begin()` to `end()` with `++`, which takes `ys.length` steps. -/
theorem C20_range_ctor_roundtrip {T : Type} (ys : List T) :
    (∀ m : Mem T, ∃ v m', Vector.ctor_range ys m = some (v, m') ∧ v.size = ys.length ∧
      v.toList m' = ys.map some ∧ ∀ i, i < v.size → v.index i m' = ys[i]?) ∧
    (∀ m : NodeMem T, ∃ l m', NodeList.ctor_range ys m = some (l, m') ∧
      l.size = ys.length ∧ ∀ fuel, ys.length ≤ fuel → l.toList m' fuel = some ys) ∧
    (∃ (v : Vector) (m1 : Mem Nat) (l : NodeList) (m2 : NodeMem Nat),
      Vector.ctor_range [4, 5, 6] [] = some (v, m1) ∧
      v.toList m1 = [some 4, some 5, some 6] ∧ v.size = 3 ∧
      NodeList.ctor_range [4, 5, 6] [] = some (l, m2) ∧
      l.toList m2 3 = some [4, 5, 6] ∧ l.size = 3) := by
  refine ⟨?_, ?_, ⟨some 0, 3, 3⟩, [some [some 4, some 5, some 6]], ⟨0, 3⟩,
    [some ⟨some 1, some 3, none⟩, some ⟨some 2, some 0, some 4⟩,
     some ⟨some 3, some 1, some 5⟩, some ⟨some 0, some 2, some 6⟩],
    by decide, by decide, rfl, by decide, by decide, rfl⟩
  · intro m
    obtain ⟨m', e1, e2, _⟩ := Vector.ctor_range_spec ys m
    exact ⟨_, m', e1, rfl, e2.2.2.2, fun i hi => Vector.index_of_holds _ m' ys i e2 hi⟩
  · intro m
    obtain ⟨m', ns, e1, e2⟩ := NodeList.list_ctor_range_spec ys m
    refine ⟨_, m', e1, rfl, fun fuel hf => ?_⟩
    apply NodeList.toList_of_holds _ m' ns ys fuel e2
    have hlen : ys.length = ns.length := e2.2.2.2
    omega

end MiniSTL
namespace MiniSTL

namespace Vector

variable {T : Type}

/-- Source `~Vector()` on a vector with `size() == 0` and `capacity() == 0` leaves the store
as it is: nothing is destroyed and `deallocate` is not called. -/
theorem dtor_of_cap_zero (v : Vector) (m : Mem T) (hs : v.m_size = 0) (hc : v.m_cap = 0) :
    v.dtor m = some m := by
  simp [dtor, hs, hc, Mem.forUp_empty]

/-- A vector's view of the store depends on its own block only. -/
theorem holds_frame (v : Vector) (m m' : Mem T) (xs : List T) (h : v.Holds m xs)
    (hb : m'.block v.m_data = m.block v.m_data) : v.Holds m' xs := by
  obtain ⟨h1, h2, h3, h4⟩ := h
  refine ⟨h1, h2, fun hne => by rw [hb]; exact h3 hne, ?_⟩
  rw [← h4]
  simp only [toList, index, Mem.read, hb]

/-- After `push_back` the storage pointer is the old one or the fresh block. -/
theorem push_back_data (v v' : Vector) (m m' : Mem T) (xs : List T) (x : Ref T)
    (h : v.Holds m xs) (e : v.push_back x m = some (v', m')) :
    v'.m_data = v.m_data ∨ v'.m_data = some m.length := by
  unfold push_back at e
  rw [push_back_reserve] at e
  cases hr : v.reserve (v.m_size + 1) m with
  | none => rw [hr] at e; cases e
  | some s =>
    rw [hr] at e
    simp only [Option.some_bind] at e
    cases hx : s.2.deref x with
    | none => rw [hx] at e; cases e
    | some y =>
      rw [hx] at e
      simp only [Option.some_bind] at e
      cases hc : s.2.construct_at s.1.m_data s.1.m_size y with
      | none => rw [hc] at e; cases e
      | some m1 =>
        rw [hc] at e
        simp only [Option.some_bind, Option.some.injEq, Prod.mk.injEq] at e
        rw [← e.1]
        exact reserve_data v s.1 m s.2 xs _ h hr

/-- After `insert(it, val)` the storage pointer is the old one or the fresh block. -/
theorem insert_data (v v' : Vector) (m m' : Mem T) (xs : List T) (it it' : Pointer)
    (x : Ref T) (h : v.Holds m xs) (e : v.insert it x m = some ((v', m'), it')) :
    v'.m_data = v.m_data ∨ v'.m_data = some m.length := by
  unfold insert at e
  cases hj : it.diff v.m_data with
  | none => rw [hj] at e; cases e
  | some j =>
    rw [hj] at e
    simp only [Option.some_bind] at e
    cases hr : v.reserve (v.m_size + 1) m with
    | none => rw [hr] at e; cases e
    | some s =>
      rw [hr] at e
      simp only [Option.some_bind] at e
      cases h1 : forDown s.1.m_size j
          (fun i mm => (mm.read s.1.m_data (i - 1)).bind fun x =>
            (mm.construct_at s.1.m_data i x).bind fun mm1 =>
              mm1.destroy_at s.1.m_data (i - 1)) s.2 with
      | none => rw [h1] at e; cases e
      | some m1 =>
        rw [h1] at e
        simp only [Option.some_bind] at e
        cases hx : m1.deref x with
        | none => rw [hx] at e; cases e
        | some y =>
          rw [hx] at e
          simp only [Option.some_bind] at e
          cases h2 : m1.construct_at s.1.m_data j y with
          | none => rw [h2] at e; cases e
          | some m2 =>
            rw [h2] at e
            simp only [Option.some_bind, Option.some.injEq, Prod.mk.injEq] at e
            rw [← e.1.1]
            exact reserve_data v s.1 m s.2 xs _ h hr

/-- A vector `b` whose buffer is not the buffer of `a` is not affected by an operation on `a`
that touches only the buffer of `a` and a fresh block, and its buffer is not the buffer `a`
has afterwards. -/
theorem holds_apart (b a a' : Vector) (m m' : Mem T) (zs : List T) (hb : b.Holds m zs)
    (hsep : a.m_data = none ∨ a.m_data ≠ b.m_data)
    (hdata : a'.m_data = a.m_data ∨ a'.m_data = some m.length)
    (hframe : ∀ q, q ≠ a.m_data → q ≠ a'.m_data → m'.block q = m.block q) :
    b.Holds m' zs ∧ (a'.m_data = none ∨ a'.m_data ≠ b.m_data) := by
  cases hd : b.m_data with
  | none =>
    refine ⟨holds_frame b m m' zs hb (by rw [hd]; rfl), ?_⟩
    by_cases h0 : a'.m_data = none
    · exact Or.inl h0
    · exact Or.inr h0
  | some p =>
    have hlive := hb.2.2.1 (by rw [hd]; simp)
    rw [hd] at hlive
    have hlt : p < m.length := by
      cases hblk : m.block (some p) with
      | none => rw [hblk] at hlive; simp at hlive
      | some blk => exact Mem.block_lt m p blk hblk
    have h1 : (some p : Option Nat) ≠ a.m_data := by
      rcases hsep with e | e
      · rw [e]; simp
      · rw [hd] at e; exact fun c => e c.symm
    have h2 : (some p : Option Nat) ≠ a'.m_data := by
      rcases hdata with e | e
      · rw [e]; exact h1
      · rw [e]; intro c
        have := Option.some.inj c
        omega
    exact ⟨holds_frame b m m' zs hb (by rw [hd]; exact hframe _ h1 h2),
      Or.inr (fun c => h2 c.symm)⟩

/-- C22: move-constructing `b` from a vector `a` holding `xs` gives `b` the storage pointer,
size, capacity and contents of `a` and leaves `a` with a null storage pointer, `size() == 0`
and `capacity() == 0`; the store is not touched; the moved-from `a` satisfies the
representation invariant as an empty vector, it no longer refers to the buffer, destroying
it releases nothing, and a `push_back` on it returns and leaves `b` as it is. -/
theorem C22_move_ctor (a : Vector) (m : Mem T) (xs : List T) (h : a.Holds m xs) :
    (ctor_move a).1.m_data = a.m_data ∧ (ctor_move a).1.size = a.size ∧
    (ctor_move a).1.capacity = a.capacity ∧
    (ctor_move a).1.toList m = a.toList m ∧ (ctor_move a).1.Holds m xs ∧
    (ctor_move a).2.m_data = none ∧ (ctor_move a).2.size = 0 ∧
    (ctor_move a).2.capacity = 0 ∧ (ctor_move a).2.Holds m ([] : List T) ∧
    (ctor_move a).2.toList m = [] ∧
    (ctor_move a).2.dtor m = some m ∧
    (∀ x, ∃ v' m', (ctor_move a).2.push_back (.temp x) m = some (v', m') ∧ v'.Holds m' [x] ∧
      (ctor_move a).1.Holds m' xs ∧ v'.m_data ≠ (ctor_move a).1.m_data) := by
  obtain ⟨h1, h2⟩ := ctor_move_spec a m xs h
  have e1 : (ctor_move a).1 = a := by cases a; rfl
  refine ⟨rfl, rfl, rfl, by rw [e1], h1, rfl, rfl, rfl, h2, rfl, ?_, ?_⟩
  · exact dtor_of_cap_zero _ m rfl rfl
  · intro x
    obtain ⟨v', m', f1, f2, f3, f4, f5⟩ :=
      push_back_spec (ctor_move a).2 m [] (.temp x) x h2 (Or.inl rfl)
    have hdata := push_back_data _ v' m m' [] (.temp x) h2 f1
    obtain ⟨g1, g2⟩ := holds_apart (ctor_move a).1 (ctor_move a).2 v' m m' xs h1
      (Or.inl rfl) hdata f5
    refine ⟨v', m', f1, by simpa using f2, g1, ?_⟩
    rcases g2 with g | g
    · exfalso
      have hc : v'.m_cap ≠ 0 := by
        rw [f4]
        have : 0 < max (ctor_move a).2.m_cap ((ctor_move a).2.m_size + 1) :=
          lt_of_lt_of_le (Nat.succ_pos _) (le_max_right _ _)
        omega
      exact hc (f2.2.1 g)
    · exact g

/-- Instance of C22: moving from the vector `[1, 2]`. -/
theorem C22_move_ctor_witness :
    Holds ⟨some 0, 2, 2⟩ ([some [some 1, some 2]] : Mem Nat) [1, 2] ∧
    (ctor_move ⟨some 0, 2, 2⟩).1.toList ([some [some 1, some 2]] : Mem Nat) =
      [some 1, some 2] ∧
    (ctor_move ⟨some 0, 2, 2⟩).2.Holds ([some [some 1, some 2]] : Mem Nat) ([] : List Nat) :=
  ⟨by decide, by
    have := C22_move_ctor ⟨some 0, 2, 2⟩ ([some [some 1, some 2]] : Mem Nat) [1, 2] (by decide)
    exact ⟨by rw [this.2.2.2.1]; decide, this.2.2.2.2.2.2.2.2.1⟩⟩

end Vector

end MiniSTL
namespace MiniSTL

namespace Vector

variable {T : Type}

/-- The element write `v[i] = x` with `i < size()` on a well-formed vector. -/
theorem index_assign_spec (v : Vector) (m : Mem T) (xs : List T) (i : Nat) (x : T)
    (h : v.Holds m xs) (hi : i < v.m_size) :
    ∃ m', v.index_assign i x m = some m' ∧ v.Holds m' (xs.set i x) ∧
      (∀ q, q ≠ v.m_data → m'.block q = m.block q) := by
  obtain ⟨hsz, hcap⟩ := size_of_holds v m xs h
  obtain ⟨b, hb, hbl, _, hp⟩ := block_of_holds v m xs h (by omega)
  have hxi : b[i]? = some (some xs[i]) := by
    rw [hp i hi, List.getElem?_eq_getElem (by omega)]
  obtain ⟨m', e1, e2, e3⟩ := Mem.assign_at_spec m v.m_data b i xs[i] x hb hxi
  refine ⟨m', e1, ?_, e3⟩
  apply holds_of_block v m' (xs.set i x) (b.set i (some x)) e2 (by simpa using hbl)
    (by simpa using hsz) hcap
  intro k hk
  rw [List.getElem?_set, List.getElem?_set]
  by_cases hik : i = k
  · subst hik
    simp only [if_true]
    rw [if_pos (by omega), if_pos (by omega)]
  · simp only [hik, if_false]
    exact hp k hk

/-- C21: copy-constructing `a` from a vector `b` holding `zs` returns; `a` holds the same
elements in the same order with `a.size() == b.size()` and `a.capacity() == b.size()`; its
buffer is a block that was not allocated before, so not the buffer of `b` (for an empty `b`
it has no buffer at all); `b` is unchanged.  And for every vector `a` whose buffer is not
the buffer of `b`, `push_back`, `insert`, `erase` and the element write `a[i] = x` on `a`
return, leave `b` with the same contents, and leave the buffers apart, so the same holds for
every later mutation. -/
theorem C21_copy_ctor_independent (b : Vector) (m : Mem T) (zs : List T)
    (h : b.Holds m zs) :
    (∃ a m1, ctor_copy b m = some (a, m1) ∧ a.Holds m1 zs ∧ a.toList m1 = b.toList m ∧
      a.size = b.size ∧ a.capacity = b.size ∧
      (a.m_data = none ∨ a.m_data ≠ b.m_data) ∧ (b.size ≠ 0 → a.m_data ≠ none) ∧
      m.block a.m_data = none ∧
      b.Holds m1 zs ∧ b.toList m1 = b.toList m) ∧
    (∀ (a : Vector) (m1 : Mem T) (xs : List T), a.Holds m1 xs → b.Holds m1 zs →
      (a.m_data = none ∨ a.m_data ≠ b.m_data) →
      (∀ x, ∃ a' m2, a.push_back (.temp x) m1 = some (a', m2) ∧ a'.Holds m2 (xs ++ [x]) ∧
        b.Holds m2 zs ∧ b.toList m2 = b.toList m1 ∧
        (a'.m_data = none ∨ a'.m_data ≠ b.m_data)) ∧
      (∀ j x, j ≤ a.size →
        ∃ a' m2 it, a.insert (a.begin_.add j) (.temp x) m1 = some ((a', m2), it) ∧
        a'.Holds m2 (xs.take j ++ [x] ++ xs.drop j) ∧
        b.Holds m2 zs ∧ b.toList m2 = b.toList m1 ∧
        (a'.m_data = none ∨ a'.m_data ≠ b.m_data)) ∧
      (∀ i, i < a.size → ∃ a' m2 it, a.erase (a.begin_.add i) m1 = some ((a', m2), it) ∧
        a'.Holds m2 (xs.take i ++ xs.drop (i + 1)) ∧
        b.Holds m2 zs ∧ b.toList m2 = b.toList m1 ∧
        (a'.m_data = none ∨ a'.m_data ≠ b.m_data)) ∧
      (∀ i x, i < a.size → ∃ m2, a.index_assign i x m1 = some m2 ∧
        a.Holds m2 (xs.set i x) ∧ b.Holds m2 zs ∧ b.toList m2 = b.toList m1)) := by
  constructor
  · obtain ⟨a, m1, e1, e2, e3, e4, e5, e6⟩ := ctor_copy_spec b m zs h
    obtain ⟨hsz, _⟩ := size_of_holds b m zs h
    have hfresh : m.block (some m.length) = none := by
      have := (Mem.allocate_spec m 0).2.2.1
      rw [(Mem.allocate_spec m 0).1] at this
      exact this
    have hsep : a.m_data = none ∨ a.m_data ≠ b.m_data := by
      rcases e5 with e | e
      · exact Or.inl e
      · right
        rw [e]
        intro c
        have hlive := h.2.2.1 (by rw [← c]; simp)
        rw [← c, hfresh] at hlive
        simp at hlive
    have hb1 : b.Holds m1 zs := by
      apply holds_frame b m m1 zs h
      cases hd : b.m_data with
      | none => rfl
      | some p =>
        apply e6
        intro c
        have hlive := h.2.2.1 (by rw [hd]; simp)
        rw [hd, c, hfresh] at hlive
        simp at hlive
    refine ⟨a, m1, e1, e2, ?_, e3, e4, hsep, ?_, ?_, hb1, ?_⟩
    · rw [e2.2.2.2, h.2.2.2]
    · intro hne hc
      simp only [size] at hne
      have := e2.2.1 hc
      omega
    · rcases e5 with e | e
      · rw [e]; rfl
      · rw [e]; exact hfresh
    · rw [hb1.2.2.2, h.2.2.2]
  · intro a m1 xs ha hb hsep
    refine ⟨?_, ?_, ?_, ?_⟩
    · intro x
      obtain ⟨a', m2, f1, f2, _, _, f5⟩ := push_back_spec a m1 xs (.temp x) x ha (Or.inl rfl)
      obtain ⟨g1, g2⟩ := holds_apart b a a' m1 m2 zs hb hsep
        (push_back_data a a' m1 m2 xs (.temp x) ha f1) f5
      exact ⟨a', m2, f1, f2, g1, by rw [g1.2.2.2, hb.2.2.2], g2⟩
    · intro j x hj
      obtain ⟨a', m2, f1, f2, _, _, f5⟩ := insert_spec a m1 xs j (.temp x) x ha hj rfl
      obtain ⟨g1, g2⟩ := holds_apart b a a' m1 m2 zs hb hsep
        (insert_data a a' m1 m2 xs _ _ (.temp x) ha f1) f5
      exact ⟨a', m2, _, f1, f2, g1, by rw [g1.2.2.2, hb.2.2.2], g2⟩
    · intro i hi
      obtain ⟨m2, f1, f2, f3⟩ := erase_spec a m1 xs i ha hi
      obtain ⟨g1, g2⟩ := holds_apart b a { a with m_size := a.m_size - 1 } m1 m2 zs hb hsep
        (Or.inl rfl) (fun q hq _ => f3 q hq)
      exact ⟨_, m2, _, f1, f2, g1, by rw [g1.2.2.2, hb.2.2.2], g2⟩
    · intro i x hi
      obtain ⟨m2, f1, f2, f3⟩ := index_assign_spec a m1 xs i x ha hi
      obtain ⟨g1, _⟩ := holds_apart b a a m1 m2 zs hb hsep (Or.inl rfl)
        (fun q hq _ => f3 q hq)
      exact ⟨m2, f1, f2, g1, by rw [g1.2.2.2, hb.2.2.2]⟩

/-- Instance of C21: copying the vector `[1, 2]`. -/
theorem C21_copy_ctor_independent_witness :
    Holds ⟨some 0, 2, 2⟩ ([some [some 1, some 2]] : Mem Nat) [1, 2] ∧
    ∃ a m1, ctor_copy ⟨some 0, 2, 2⟩ ([some [some 1, some 2]] : Mem Nat) = some (a, m1) ∧
      a.toList m1 = [some 1, some 2] ∧ a.capacity = 2 ∧
      Holds ⟨some 0, 2, 2⟩ m1 [1, 2] :=
  ⟨by decide, by
    obtain ⟨⟨a, m1, e1, _, e3, _, e5, _, _, _, e9, _⟩, _⟩ :=
      C21_copy_ctor_independent ⟨some 0, 2, 2⟩ ([some [some 1, some 2]] : Mem Nat) [1, 2]
        (by decide)
    exact ⟨a, m1, e1, by rw [e3]; decide, e5, e9⟩⟩

end Vector

end MiniSTL
namespace MiniSTL

namespace Vector

variable {T : Type}

/-- C24: the count, count+value and range constructors given the count `0` (an empty range)
store the pointer that `allocate(0)` returns: the vector has `capacity() == 0` and a non-null
storage pointer to a live block of no slots, and `~Vector()`, which calls `deallocate` only
when `capacity() != 0`, leaves that block allocated.  The default constructor and the copy
of an empty vector do have a null pointer with capacity `0`. -/
theorem C24_zero_count_ctor_keeps_block [Inhabited T] (val : T) (m : Mem T) :
    (∃ v m', ctor_n_val 0 val m = some (v, m') ∧ v.capacity = 0 ∧
      v.m_data = some m.length ∧ v.m_data ≠ none ∧ m'.block v.m_data = some [] ∧
      v.Holds m' [] ∧ v.dtor m' = some m') ∧
    (∃ v m', ctor_n (T := T) 0 m = some (v, m') ∧ v.capacity = 0 ∧
      v.m_data = some m.length ∧ v.m_data ≠ none ∧ m'.block v.m_data = some [] ∧
      v.Holds m' [] ∧ v.dtor m' = some m') ∧
    (∃ v m', ctor_range ([] : List T) m = some (v, m') ∧ v.capacity = 0 ∧
      v.m_data = some m.length ∧ v.m_data ≠ none ∧ m'.block v.m_data = some [] ∧
      v.Holds m' [] ∧ v.dtor m' = some m') ∧
    ((ctor : Vector).capacity = 0 ∧ (ctor : Vector).m_data = none) ∧
    (∀ that : Vector, that.m_size = 0 → ∃ v, ctor_copy that m = some (v, m) ∧
      v.capacity = 0 ∧ v.m_data = none) ∧
    (∃ (v : Vector) (m' : Mem Nat), ctor_n_val 0 7 [] = some (v, m') ∧ v.capacity = 0 ∧
      v.m_data = some 0 ∧ m' = [some []] ∧ v.dtor m' = some [some []]) := by
  have hblk : ∀ (m' : Mem T) (xs : List T), Holds ⟨some m.length, 0, 0⟩ m' xs →
      m'.block (some m.length) = some [] := by
    intro m' xs hh
    have h3 := hh.2.2.1 (by simp)
    cases hb : m'.block (some m.length) with
    | none => rw [hb] at h3; simp at h3
    | some blk =>
      rw [hb] at h3
      simp only [Option.map_some', Option.some.injEq] at h3
      rw [List.length_eq_zero.mp h3]
  refine ⟨?_, ?_, ?_, ⟨rfl, rfl⟩, ?_, ⟨some 0, 0, 0⟩, [some []], by decide, rfl, rfl, rfl,
    by decide⟩
  · obtain ⟨m', e1, e2, _⟩ := ctor_n_val_spec 0 val m
    exact ⟨_, m', e1, rfl, rfl, by simp, hblk m' _ e2, by simpa using e2,
      dtor_of_cap_zero _ m' rfl rfl⟩
  · obtain ⟨m', e1, e2, _⟩ := ctor_n_spec (T := T) 0 m
    exact ⟨_, m', e1, rfl, rfl, by simp, hblk m' _ e2, by simpa using e2,
      dtor_of_cap_zero _ m' rfl rfl⟩
  · obtain ⟨m', e1, e2, _⟩ := ctor_range_spec ([] : List T) m
    exact ⟨_, m', e1, rfl, rfl, by simp, hblk m' _ e2, by simpa using e2,
      dtor_of_cap_zero _ m' rfl rfl⟩
  · intro that hs
    exact ⟨⟨none, 0, 0⟩, by simp [ctor_copy, hs], rfl, rfl⟩

end Vector

namespace NodeList

variable {T : Type}

/-- C25: `operator--(int)` has the body of `operator++(int)`: at the node `p` of a well-formed
ring it returns the old position and leaves the iterator at `p->m_next`, where `--it`
leaves it at `p->m_prev`; these two nodes differ at every position of a list with two or
more elements. -/
theorem C25_post_decrement_steps_forward (l : NodeList) (m : NodeMem T) (ns : List Nat)
    (xs : List T) (k : Nat) (it : iterator) (h : l.Holds m ns xs)
    (hk : (l.m_dummy :: ns)[k]? = some it.m_curr) :
    ∃ nx pv, m.next it.m_curr = some nx ∧ m.prev it.m_curr = some pv ∧
      it.post_decr m = some (it, { m_curr := nx }) ∧
      it.post_decr m = it.post_incr m ∧
      it.decr m = some { m_curr := pv } ∧
      (2 ≤ l.size → nx ≠ pv) := by
  obtain ⟨hnd, hl, _, hsz⟩ := h
  have hl1 : Linked m (l.m_dummy :: (ns ++ [l.m_dummy])) := hl
  have hkl : k < ns.length + 1 := by
    by_contra hc
    rw [List.getElem?_eq_none (by simp; omega)] at hk
    cases hk
  have hlen : (l.m_dummy :: (ns ++ [l.m_dummy])).length = ns.length + 2 := by simp
  have hidx : ∀ j, j ≤ ns.length →
      (l.m_dummy :: (ns ++ [l.m_dummy]))[j]? = (l.m_dummy :: ns)[j]? := by
    intro j hj
    rw [← List.cons_append, List.getElem?_append_left (by simp; omega)]
  have hlast : (l.m_dummy :: (ns ++ [l.m_dummy]))[ns.length + 1]? = (l.m_dummy :: ns)[0]? := by
    simp
  have hck : (l.m_dummy :: (ns ++ [l.m_dummy]))[k]? = some it.m_curr := by
    rw [hidx k (by omega)]; exact hk
  obtain ⟨nx, hnx⟩ : ∃ nx, (l.m_dummy :: (ns ++ [l.m_dummy]))[k + 1]? = some nx :=
    ⟨_, List.getElem?_eq_getElem (by omega)⟩
  have hlink := linked_get m _ k it.m_curr nx hl1 hck hnx
  -- the predecessor: index `k - 1`, or the last node when `k = 0`
  obtain ⟨pi, hpi1, hpi2⟩ : ∃ pi, pi ≤ ns.length ∧
      (pi + 1 = k ∨ (k = 0 ∧ pi = ns.length)) := by
    rcases Nat.eq_zero_or_pos k with e | e
    · exact ⟨ns.length, le_refl _, Or.inr ⟨e, rfl⟩⟩
    · exact ⟨k - 1, by omega, Or.inl (by omega)⟩
  obtain ⟨pv, hpv⟩ : ∃ pv, (l.m_dummy :: (ns ++ [l.m_dummy]))[pi]? = some pv :=
    ⟨_, List.getElem?_eq_getElem (by omega)⟩
  have hpnext : (l.m_dummy :: (ns ++ [l.m_dummy]))[pi + 1]? = some it.m_curr := by
    rcases hpi2 with e | ⟨e1, e2⟩
    · rw [e]; exact hck
    · rw [e2, hlast, ← e1]; exact hk
  have hlink2 := linked_get m _ pi pv it.m_curr hl1 hpv hpnext
  refine ⟨nx, pv, hlink.1, hlink2.2, ?_, rfl, ?_, ?_⟩
  · simp [iterator.post_decr, iterator.incr, hlink.1]
  · simp [iterator.decr, hlink2.2]
  · intro h2 hc
    simp only [size] at h2
    -- both nodes as entries of `m_dummy :: ns`, at different indices
    have hpv' : (l.m_dummy :: ns)[pi]? = some pv := by rw [← hidx pi hpi1]; exact hpv
    obtain ⟨ni, hni1, hni2⟩ : ∃ ni, ni ≤ ns.length ∧ (l.m_dummy :: ns)[ni]? = some nx ∧
        ni ≠ pi := by
      rcases Nat.lt_or_ge k ns.length with e | e
      · refine ⟨k + 1, by omega, by rw [← hidx (k + 1) (by omega)]; exact hnx, ?_⟩
        rcases hpi2 with e' | ⟨e1, e2⟩ <;> omega
      · have hkn : k = ns.length := by omega
        refine ⟨0, by omega, ?_, ?_⟩
        · rw [← hlast, ← hkn]; exact hnx
        · rcases hpi2 with e' | ⟨e1, e2⟩ <;> omega
    have := List.getElem?_inj (by simp; omega) hnd (hni2.1.trans (by rw [hc, hpv']))
    exact hni2.2 this

/-- Instance of C25: on the list `[7, 8]`, `it--` at the first node leaves the iterator at
the second node, where `--it` leaves it at the sentinel. -/
theorem C25_post_decrement_steps_forward_witness :
    Holds ⟨0, 2⟩ ([some ⟨some 1, some 2, none⟩, some ⟨some 2, some 0, some 7⟩,
      some ⟨some 0, some 1, some 8⟩] : NodeMem Nat) [1, 2] [7, 8] ∧
    iterator.post_decr ⟨1⟩ ([some ⟨some 1, some 2, none⟩, some ⟨some 2, some 0, some 7⟩,
      some ⟨some 0, some 1, some 8⟩] : NodeMem Nat) = some (⟨1⟩, ⟨2⟩) ∧
    iterator.decr ⟨1⟩ ([some ⟨some 1, some 2, none⟩, some ⟨some 2, some 0, some 7⟩,
      some ⟨some 0, some 1, some 8⟩] : NodeMem Nat) = some ⟨0⟩ ∧
    ∃ nx pv, nx ≠ pv ∧
      iterator.post_decr ⟨1⟩ ([some ⟨some 1, some 2, none⟩, some ⟨some 2, some 0, some 7⟩,
        some ⟨some 0, some 1, some 8⟩] : NodeMem Nat) = some (⟨1⟩, ⟨nx⟩) ∧
      iterator.decr ⟨1⟩ ([some ⟨some 1, some 2, none⟩, some ⟨some 2, some 0, some 7⟩,
        some ⟨some 0, some 1, some 8⟩] : NodeMem Nat) = some ⟨pv⟩ :=
  ⟨by decide, by decide, by decide, by
    obtain ⟨nx, pv, _, _, e3, _, e5, e6⟩ := C25_post_decrement_steps_forward ⟨0, 2⟩
      ([some ⟨some 1, some 2, none⟩, some ⟨some 2, some 0, some 7⟩,
        some ⟨some 0, some 1, some 8⟩] : NodeMem Nat) [1, 2] [7, 8] 1 ⟨1⟩ (by decide)
      (by decide)
    exact ⟨nx, pv, e6 (by decide), e3, e5⟩⟩

end NodeList

end MiniSTL
namespace MiniSTL

namespace NodeList

variable {T : Type}

/-- Obtaining a new node keeps a well-formed list as it is, and the new address is none of
its nodes. -/
theorem holds_newNode (l : NodeList) (m : NodeMem T) (ns : List Nat) (xs : List T)
    (h : l.Holds m ns xs) :
    l.Holds m.newNode.2 ns xs ∧ m.length ∉ l.m_dummy :: ns ∧
      (m.newNode.2.node m.length).isSome = true ∧
      (∀ c, c ≠ m.length → m.newNode.2.value c = m.value c) := by
  obtain ⟨_, _, hlive, hold⟩ := NodeMem.newNode_spec m
  have hl : ∀ p ∈ l.m_dummy :: ns, (m.node p).isSome = true :=
    fun p hp => linked_live m l.m_dummy (l.m_dummy :: ns) h.2.1 p hp
  have hne : ∀ p ∈ l.m_dummy :: ns, p ≠ m.length := fun p hp => fresh_of_live m p (hl p hp)
  have hfield : ∀ p ∈ l.m_dummy :: ns, m.newNode.2.next p = m.next p ∧
      m.newNode.2.prev p = m.prev p ∧ m.newNode.2.value p = m.value p :=
    fun p hp => NodeMem.next_congr m m.newNode.2 p (hold p (hne p hp))
  refine ⟨⟨h.1, ?_, ?_, h.2.2.2⟩, fun hc => hne _ hc rfl, hlive,
    fun c hc => (NodeMem.next_congr m m.newNode.2 c (hold c hc)).2.2⟩
  · apply linked_frame m m.newNode.2 _ _ _ h.2.1
    · intro a ha
      have : a ∈ l.m_dummy :: ns ++ [l.m_dummy] := List.mem_of_mem_dropLast ha
      exact (hfield a (by simp at this ⊢; tauto)).1
    · intro b hb
      have : b ∈ l.m_dummy :: ns ++ [l.m_dummy] := List.mem_of_mem_tail hb
      exact (hfield b (by simp at this ⊢; tauto)).2.1
  · rw [← h.2.2.1]
    apply map_value_congr
    intro p hp
    exact (hfield p (List.mem_cons_of_mem _ hp)).2.2

/-- Source `_uninit_move_assign(that)` on an object whose sentinel storage at `dummy` is live
and is not a node of `that`: the value nodes of `that` are relinked around `dummy`, in the
same order, and `that` is left as an empty list. -/
theorem uninit_move_assign_spec (dummy : Nat) (that : NodeList) (m : NodeMem T)
    (ns : List Nat) (xs : List T) (h : that.Holds m ns xs)
    (hd : (m.node dummy).isSome = true) (hfresh : dummy ∉ that.m_dummy :: ns) :
    ∃ m', _uninit_move_assign dummy that m =
        some (({ m_dummy := dummy, m_size := that.m_size }, { that with m_size := 0 }), m') ∧
      Holds { m_dummy := dummy, m_size := that.m_size } m' ns xs ∧
      Holds { that with m_size := 0 } m' [] [] ∧
      (∀ c, m'.value c = m.value c) ∧
      (∀ c, (m'.node c).isSome = (m.node c).isSome) := by
  obtain ⟨hnd, hl, hv, hsz⟩ := h
  have hlive : ∀ p ∈ that.m_dummy :: ns, (m.node p).isSome = true :=
    fun p hp => linked_live m that.m_dummy (that.m_dummy :: ns) hl p hp
  have hda : (m.node that.m_dummy).isSome = true := hlive _ (by simp)
  have hdd : dummy ≠ that.m_dummy := fun e => hfresh (by rw [e]; simp)
  have hdn : dummy ∉ ns := fun e => hfresh (List.mem_cons_of_mem _ e)
  have han : that.m_dummy ∉ ns := (List.nodup_cons.mp hnd).1
  obtain ⟨hnx, hpv⟩ := holds_sentinel_links that m ns xs ⟨hnd, hl, hv, hsz⟩
  rcases ns with _ | ⟨f, rest⟩
  · -- empty `that`: both links of its sentinel point to the sentinel itself
    have hxs : xs = [] := by
      have := congrArg List.length hv
      simpa using this.symm
    subst hxs
    have hnx' : m.next that.m_dummy = some that.m_dummy := hnx
    have hpv' : m.prev that.m_dummy = some that.m_dummy := hpv
    obtain ⟨m1, e1, n1, p1, v1, a1⟩ := NodeMem.set_next_spec m that.m_dummy dummy hda
    obtain ⟨m2, e2, n2, p2, v2, a2⟩ := NodeMem.set_prev_spec m1 that.m_dummy dummy
      (by rw [a1]; exact hda)
    have hdn2 : m2.next that.m_dummy = some dummy := by rw [n2, n1, if_pos rfl]
    obtain ⟨m3, e3, n3, p3, v3, a3⟩ := NodeMem.set_next_spec m2 dummy dummy
      (by rw [a2, a1]; exact hd)
    have hdp3 : m3.prev that.m_dummy = some dummy := by rw [p3, p2, if_pos rfl]
    obtain ⟨m4, e4, n4, p4, v4, a4⟩ := NodeMem.set_prev_spec m3 dummy dummy
      (by rw [a3, a2, a1]; exact hd)
    obtain ⟨m5, e5, n5, p5, v5, a5⟩ := NodeMem.set_next_spec m4 that.m_dummy that.m_dummy
      (by rw [a4, a3, a2, a1]; exact hda)
    obtain ⟨m6, e6, n6, p6, v6, a6⟩ := NodeMem.set_prev_spec m5 that.m_dummy that.m_dummy
      (by rw [a5, a4, a3, a2, a1]; exact hda)
    refine ⟨m6, ?_, ⟨by simp, ?_, rfl, hsz⟩, ⟨by simp, ?_, rfl, rfl⟩, ?_, ?_⟩
    · unfold _uninit_move_assign
      simp only [hpv', hnx', Option.some_bind, e1, e2, hdn2, e3, hdp3, e4, e5, e6]
    · refine ⟨⟨?_, ?_⟩, trivial⟩
      · rw [n6, n5, if_neg hdd, n4, n3, if_pos rfl]
      · rw [p6, if_neg hdd, p5, p4, if_pos rfl]
    · refine ⟨⟨?_, ?_⟩, trivial⟩
      · rw [n6, n5, if_pos rfl]
      · rw [p6, if_pos rfl]
    · intro c; rw [v6, v5, v4, v3, v2, v1]
    · intro c; rw [a6, a5, a4, a3, a2, a1]
  · -- non-empty `that`: first node `f`, last node `t`
    obtain ⟨init, t, hit⟩ : ∃ init t, f :: rest = init ++ [t] := by
      rcases List.eq_nil_or_concat (f :: rest) with e | ⟨i, t, e⟩
      · cases e
      · exact ⟨i, t, by rw [e, List.concat_eq_append]⟩
    have hnx' : m.next that.m_dummy = some f := hnx
    have hpv' : m.prev that.m_dummy = some t := by
      rw [hpv, hit, ← List.cons_append, List.getLast?_append]
      simp
    have hfm : f ∈ f :: rest := by simp
    have htm : t ∈ f :: rest := by rw [hit]; simp
    have hfa : f ≠ that.m_dummy := fun e => han (by rw [← e]; exact hfm)
    have hta : t ≠ that.m_dummy := fun e => han (by rw [← e]; exact htm)
    have hfd : f ≠ dummy := fun e => hdn (by rw [← e]; exact hfm)
    have htd : t ≠ dummy := fun e => hdn (by rw [← e]; exact htm)
    have hndns : (f :: rest).Nodup := (List.nodup_cons.mp hnd).2
    have hfr : f ∉ rest := (List.nodup_cons.mp hndns).1
    have hti : t ∉ init := by
      rw [hit] at hndns
      intro hc
      exact (List.disjoint_of_nodup_append hndns) hc (by simp)
    obtain ⟨m1, e1, n1, p1, v1, a1⟩ := NodeMem.set_next_spec m t dummy
      (hlive t (List.mem_cons_of_mem _ htm))
    obtain ⟨m2, e2, n2, p2, v2, a2⟩ := NodeMem.set_prev_spec m1 f dummy
      (by rw [a1]; exact hlive f (List.mem_cons_of_mem _ hfm))
    have hdn2 : m2.next that.m_dummy = some f := by
      rw [n2, n1, if_neg (fun e => hta e.symm)]; exact hnx'
    obtain ⟨m3, e3, n3, p3, v3, a3⟩ := NodeMem.set_next_spec m2 dummy f
      (by rw [a2, a1]; exact hd)
    have hdp3 : m3.prev that.m_dummy = some t := by
      rw [p3, p2, if_neg (fun e => hfa e.symm), p1]; exact hpv'
    obtain ⟨m4, e4, n4, p4, v4, a4⟩ := NodeMem.set_prev_spec m3 dummy t
      (by rw [a3, a2, a1]; exact hd)
    obtain ⟨m5, e5, n5, p5, v5, a5⟩ := NodeMem.set_next_spec m4 that.m_dummy that.m_dummy
      (by rw [a4, a3, a2, a1]; exact hda)
    obtain ⟨m6, e6, n6, p6, v6, a6⟩ := NodeMem.set_prev_spec m5 that.m_dummy that.m_dummy
      (by rw [a5, a4, a3, a2, a1]; exact hda)
    have hnext : ∀ c, m6.next c = if c = that.m_dummy then some that.m_dummy
        else if c = dummy then some f else if c = t then some dummy else m.next c := by
      intro c; rw [n6, n5, n4, n3, n2, n1]
    have hprev : ∀ c, m6.prev c = if c = that.m_dummy then some that.m_dummy
        else if c = dummy then some t else if c = f then some dummy else m.prev c := by
      intro c; rw [p6, p5, p4, p3, p2, p1]
    have hval : ∀ c, m6.value c = m.value c := by
      intro c; rw [v6, v5, v4, v3, v2, v1]
    -- the old ring, split as sentinel, value nodes, sentinel
    have hl0 : Linked m (that.m_dummy :: (f :: (rest ++ [that.m_dummy]))) := hl
    have hl1 : Linked m (init ++ [t, that.m_dummy]) := by
      have : f :: (rest ++ [that.m_dummy]) = init ++ [t, that.m_dummy] := by
        rw [← List.cons_append, hit]; simp
      rw [← this]; exact hl0.2
    obtain ⟨hl2, _⟩ := (linked_concat m t that.m_dummy init).mp hl1
    have hl3 : Linked m6 (init ++ [t]) := by
      apply linked_frame m m6 _ _ _ hl2
      · intro a ha
        rw [List.dropLast_concat] at ha
        have ham : a ∈ f :: rest := by rw [hit]; exact List.mem_append_left _ ha
        rw [hnext, if_neg (fun e => han (by rw [← e]; exact ham)),
          if_neg (fun e => hdn (by rw [← e]; exact ham)),
          if_neg (fun e => hti (by rw [← e]; exact ha))]
      · intro b hb
        have hbt : b ∈ rest := by
          have : (init ++ [t]).tail = rest := by rw [← hit]; rfl
          rw [this] at hb; exact hb
        have hbm : b ∈ f :: rest := List.mem_cons_of_mem _ hbt
        rw [hprev, if_neg (fun e => han (by rw [← e]; exact hbm)),
          if_neg (fun e => hdn (by rw [← e]; exact hbm)),
          if_neg (fun e => hfr (by rw [← e]; exact hbt))]
    refine ⟨m6, ?_, ⟨List.nodup_cons.mpr ⟨hdn, hndns⟩, ?_, ?_, hsz⟩,
      ⟨by simp, ?_, rfl, rfl⟩, hval, ?_⟩
    · unfold _uninit_move_assign
      simp only [hpv', hnx', Option.some_bind, e1, e2, hdn2, e3, hdp3, e4, e5, e6]
    · show Linked m6 (dummy :: (f :: (rest ++ [dummy])))
      refine ⟨⟨?_, ?_⟩, ?_⟩
      · rw [hnext, if_neg hdd, if_pos rfl]
      · rw [hprev, if_neg hfa, if_neg hfd, if_pos rfl]
      · have : f :: (rest ++ [dummy]) = init ++ [t, dummy] := by
          rw [← List.cons_append, hit]; simp
        rw [this]
        refine (linked_concat m6 t dummy init).mpr ⟨hl3, ?_, ?_⟩
        · rw [hnext, if_neg hta, if_neg htd, if_pos rfl]
        · rw [hprev, if_neg hdd, if_pos rfl]
    · rw [← hv]
      exact map_value_congr m m6 _ (fun p _ => hval p)
    · refine ⟨⟨?_, ?_⟩, trivial⟩
      · rw [hnext, if_pos rfl]
      · rw [hprev, if_pos rfl]
    · intro c; rw [a6, a5, a4, a3, a2, a1]

end NodeList

end MiniSTL
namespace MiniSTL

namespace NodeList

variable {T : Type}

/-- C23: move-constructing `b` from a well-formed list `a` with contents `xs` at the node
addresses `ns`, empty or not, returns; `b` has its own sentinel and is well-formed with the
same value nodes in the same order, so the contents `xs` and the size of `a`; the ring is
closed over the sentinel of `b` (the sentinel links to the first and the last node, the
first node's `m_prev` and the last node's `m_next` are the sentinel of `b`; for empty `a`
the sentinel of `b` links to itself); and `a` is left as a well-formed empty list:
`size() == 0` and both links of its sentinel point to that sentinel. -/
theorem C23_list_move_ctor (a : NodeList) (m : NodeMem T) (ns : List Nat) (xs : List T)
    (h : a.Holds m ns xs) :
    ∃ b a' m', ctor_move a m = some ((b, a'), m') ∧
      b.Holds m' ns xs ∧ b.size = a.size ∧
      (∀ fuel, b.size ≤ fuel → b.toList m' fuel = some xs) ∧
      b.m_dummy ∉ a.m_dummy :: ns ∧
      m'.next b.m_dummy = (ns ++ [b.m_dummy]).head? ∧
      m'.prev b.m_dummy = (b.m_dummy :: ns).getLast? ∧
      (∀ f, ns.head? = some f → m'.prev f = some b.m_dummy) ∧
      (∀ t, ns.getLast? = some t → m'.next t = some b.m_dummy) ∧
      (ns = [] → m'.next b.m_dummy = some b.m_dummy ∧ m'.prev b.m_dummy = some b.m_dummy) ∧
      b.RingInvariant m' ∧
      a'.m_dummy = a.m_dummy ∧ a'.size = 0 ∧
      m'.next a.m_dummy = some a.m_dummy ∧ m'.prev a.m_dummy = some a.m_dummy ∧
      a'.Holds m' [] [] ∧ a'.RingInvariant m' ∧
      (∀ fuel, a'.toList m' fuel = some []) ∧
      (∀ p ∈ ns, m'.value p = m.value p) := by
  obtain ⟨h0, hfresh, hlive, hval0⟩ := holds_newNode a m ns xs h
  obtain ⟨m', e1, hb, ha, hv, _⟩ :=
    uninit_move_assign_spec m.length a m.newNode.2 ns xs h0 hlive hfresh
  obtain ⟨hn, hp⟩ := holds_sentinel_links _ m' ns xs hb
  have hlen := (holds_lengths _ m' ns xs hb).2
  refine ⟨{ m_dummy := m.length, m_size := a.m_size }, { a with m_size := 0 }, m', ?_, hb,
    rfl, ?_, hfresh, hn, hp, ?_, ?_, ?_, holds_ring _ m' ns xs hb,
    rfl, rfl, ha.2.1.1.1, ha.2.1.1.2, ha, holds_ring _ m' [] [] ha, ?_, ?_⟩
  · unfold ctor_move
    rw [(NodeMem.newNode_spec m).1]; exact e1
  · intro fuel hf
    apply toList_of_holds _ m' ns xs fuel hb
    have : a.m_size = ns.length := hlen
    simp only [size] at hf
    omega
  · intro f hf
    rcases ns with _ | ⟨f', rest⟩
    · cases hf
    · simp only [List.head?_cons, Option.some.injEq] at hf
      subst hf
      exact hb.2.1.1.2
  · intro t ht
    have e := List.dropLast_append_getLast? t ht
    have hl : Linked m' ((m.length :: ns.dropLast) ++ [t, m.length]) := by
      have := hb.2.1
      rw [← e] at this
      simpa using this
    exact ((linked_concat m' t m.length (m.length :: ns.dropLast)).mp hl).2.1
  · intro hns
    subst hns
    exact ⟨hn, hp⟩
  · intro fuel
    exact toList_of_holds _ m' [] [] fuel ha (Nat.zero_le _)
  · intro p hp'
    have hne : p ≠ m.length := fun e => hfresh (by rw [← e]; exact List.mem_cons_of_mem _ hp')
    rw [hv p, hval0 p hne]

/-- Instance of C23: moving from the list `[7, 8]`. -/
theorem C23_list_move_ctor_witness :
    Holds ⟨0, 2⟩ ([some ⟨some 1, some 2, none⟩, some ⟨some 2, some 0, some 7⟩,
      some ⟨some 0, some 1, some 8⟩] : NodeMem Nat) [1, 2] [7, 8] ∧
    ∃ b a' m', ctor_move ⟨0, 2⟩ ([some ⟨some 1, some 2, none⟩,
        some ⟨some 2, some 0, some 7⟩, some ⟨some 0, some 1, some 8⟩] : NodeMem Nat) =
        some ((b, a'), m') ∧
      b.toList m' 2 = some [7, 8] ∧ b.size = 2 ∧ a'.size = 0 ∧ a'.toList m' 0 = some [] :=
  ⟨by decide, by
    obtain ⟨b, a', m', e1, _, e3, e4, _, _, _, _, _, _, _, _, e13, _, _, _, _, e18, _⟩ :=
      C23_list_move_ctor ⟨0, 2⟩ ([some ⟨some 1, some 2, none⟩,
        some ⟨some 2, some 0, some 7⟩, some ⟨some 0, some 1, some 8⟩] : NodeMem Nat)
        [1, 2] [7, 8] (by decide)
    exact ⟨b, a', m', e1, e4 2 (by rw [e3]; decide), e3, e13, e18 0⟩⟩

end NodeList

end MiniSTL
